import Mathlib

/-!
Shallow embedding of the sorting-network search core (output-set value
algebra, channel-permutation matching, subsume tree and log-structured
subsume index) together with proofs about the embedded operations.

Machine integers (`u16`, `usize`) are embedded as `Nat`; the relevant
values are `w`-bit with `w ≤ 15`, so no wrap-around occurs in any of the
embedded arithmetic.  Assertion failures (panics) are embedded as `none`
of an `Option`-returning wrapper around a total core function.
-/

namespace Sortnet

/-- Maximum supported width (number of channels), `MAX_CHANNELS` in the source. -/
def MAX_CHANNELS : Nat := 15

/-- Number of set bits, embedding `u16::count_ones`; the fuel argument only
makes the recursion structural and `popCount` supplies enough of it. -/
def popCountGo : Nat → Nat → Nat
  | 0, _ => 0
  | fuel + 1, n => if n = 0 then 0 else n % 2 + popCountGo fuel (n / 2)

/-- Number of set bits, embedding `u16::count_ones`. -/
def popCount (n : Nat) : Nat :=
  popCountGo n n

theorem popCountGo_fuel_eq : ∀ (fuel fuel' n : Nat), n ≤ fuel → n ≤ fuel' →
    popCountGo fuel n = popCountGo fuel' n := by
  intro fuel
  induction fuel with
  | zero =>
    intro fuel' n h _
    interval_cases n
    cases fuel' <;> simp [popCountGo]
  | succ fuel ih =>
    intro fuel' n h h'
    match fuel', n with
    | 0, n =>
      interval_cases n
      simp [popCountGo]
    | fuel' + 1, 0 => simp [popCountGo]
    | fuel' + 1, n + 1 =>
      simp only [popCountGo, if_neg (Nat.succ_ne_zero n)]
      rw [ih fuel' ((n + 1) / 2) (by omega) (by omega)]

theorem popCount_succ (n : Nat) :
    popCount (n + 1) = (n + 1) % 2 + popCount ((n + 1) / 2) := by
  show popCountGo (n + 1) (n + 1) = _
  simp only [popCountGo, if_neg (Nat.succ_ne_zero n)]
  rw [popCountGo_fuel_eq n ((n + 1) / 2) ((n + 1) / 2) (by omega) le_rfl]
  rfl

theorem popCount_zero : popCount 0 = 0 := rfl

theorem popCount_le_of_lt_two_pow : ∀ (w v : Nat), v < 2 ^ w → popCount v ≤ w := by
  intro w
  induction w with
  | zero =>
    intro v h
    interval_cases v
    simp [popCount_zero]
  | succ w ih =>
    intro v h
    match v with
    | 0 => simp [popCount_zero]
    | v + 1 =>
      rw [popCount_succ]
      have h2 : (v + 1) / 2 < 2 ^ w := by
        rw [pow_succ] at h
        omega
      have := ih ((v + 1) / 2) h2
      omega

theorem popCount_lt_of_testBit_false : ∀ (w v c : Nat), v < 2 ^ w → c < w →
    v.testBit c = false → popCount v + 1 ≤ w := by
  intro w
  induction w with
  | zero => intro v c _ h; omega
  | succ w ih =>
    intro v c hv hc hbit
    match v with
    | 0 =>
      rw [popCount_zero]
      omega
    | v + 1 =>
      rw [popCount_succ]
      have h2 : (v + 1) / 2 < 2 ^ w := by
        rw [pow_succ] at hv
        omega
      match c with
      | 0 =>
        have hmod : (v + 1) % 2 = 0 := by
          rw [Nat.testBit_zero] at hbit
          simp only [decide_eq_false_iff_not] at hbit
          omega
        have := popCount_le_of_lt_two_pow w ((v + 1) / 2) h2
        omega
      | c + 1 =>
        have hbit2 : ((v + 1) / 2).testBit c = false := by
          rw [← Nat.testBit_add_one]
          exact hbit
        have := ih ((v + 1) / 2) c h2 (by omega) hbit2
        have hmod : (v + 1) % 2 ≤ 1 := by omega
        omega

/-- An output set: a width (`channels`) together with the ascending list of
`channels`-bit values, mirroring `struct OutputSet`. -/
structure OutputSet where
  channels : Nat
  values : List Nat
  deriving DecidableEq, Repr

/-- `OutputSet::all_values`: the identity state holding every `channels`-bit
value, guarded by the `channels <= MAX_CHANNELS` assertion. -/
def OutputSet.all_values (channels : Nat) : Option OutputSet :=
  if channels ≤ MAX_CHANNELS then
    some ⟨channels, List.range (2 ^ channels)⟩
  else
    none

/-- The sentinel-terminated two-pointer merge used by `apply_comparator`:
merge two ascending lists, advancing both pointers on equal values (so
duplicates across the two lists are emitted once).  The `!0` sentinel of the
source is realised by the empty-list cases; the fuel argument (instantiated
with the total length by `mergeAsc`) only makes the recursion structural. -/
def mergeAscGo : Nat → List Nat → List Nat → List Nat
  | _, [], ys => ys
  | _, x :: xs, [] => x :: xs
  | 0, x :: xs, _ :: _ => x :: xs
  | fuel + 1, x :: xs, y :: ys =>
    if x < y then x :: mergeAscGo fuel xs (y :: ys)
    else if y < x then y :: mergeAscGo fuel (x :: xs) ys
    else x :: mergeAscGo fuel xs ys

/-- Two-pointer duplicate-skipping merge of two ascending lists. -/
def mergeAsc (xs ys : List Nat) : List Nat :=
  mergeAscGo (xs.length + ys.length) xs ys

/-- Core of `OutputSet::apply_comparator` (after the assertions): partition
the values into the kept ones and the rewritten ones and merge the two
ascending sequences. -/
def OutputSet.applyComparatorCore (s : OutputSet) (a b : Nat) : OutputSet :=
  let mask_a := 1 <<< a
  let mask_b := 1 <<< b
  let mask := mask_a ||| mask_b
  let keep := s.values.filter (fun value => ¬ (value &&& mask = mask_b))
  let swap := (s.values.filter (fun value => value &&& mask = mask_b)).map
    (fun value => value ^^^ mask)
  ⟨s.channels, mergeAsc keep swap⟩

/-- `OutputSet::apply_comparator` with its `assert_ne!(a, b)` and
`assert!(a < self.channels && b < self.channels)` contract checks. -/
def OutputSet.apply_comparator (s : OutputSet) (a b : Nat) : Option OutputSet :=
  if a ≠ b ∧ a < s.channels ∧ b < s.channels then
    some (s.applyComparatorCore a b)
  else
    none

/-- `OutputSet::subsumes`: a merge-style walk checking that every value of
`self` occurs in `other`, with an early-exit slack counter.  Note the source
performs no width check here. -/
def OutputSet.subsumesGo : List Nat → List Nat → Nat → Bool
  | [], _, _ => true
  | _ :: _, [], _ => false
  | value :: rest, other_value :: other_rest, slack =>
    if other_value = value then
      OutputSet.subsumesGo rest other_rest slack
    else if other_value > value then
      false
    else if slack = 0 then
      false
    else
      OutputSet.subsumesGo (value :: rest) other_rest (slack - 1)

/-- `OutputSet::subsumes` entry point. -/
def OutputSet.subsumes (s other : OutputSet) : Bool :=
  if other.values.length < s.values.length then
    false
  else
    OutputSet.subsumesGo s.values other.values (other.values.length - s.values.length)

example : (OutputSet.all_values 2).map (fun s => s.applyComparatorCore 0 1) =
    some ⟨2, [0, 1, 3]⟩ := by decide

example : OutputSet.subsumes ⟨3, [0, 1, 3]⟩ ⟨3, [0, 1, 2, 3]⟩ = true := by decide

example : OutputSet.subsumes ⟨3, [0, 2, 3]⟩ ⟨3, [0, 1, 3]⟩ = false := by decide

/-- Exclusive-or with a fixed mask preserves the strict order of values that
agree on the mask bits. -/
theorem xor_lt_xor_of_and_eq {v1 v2 m : Nat} (hand : v1 &&& m = v2 &&& m)
    (hlt : v1 < v2) : v1 ^^^ m < v2 ^^^ m := by
  have hne : v1 ^^^ v2 ≠ 0 := Nat.xor_ne_zero.2 (Nat.ne_of_lt hlt)
  obtain ⟨i, hbit, htop⟩ := Nat.exists_most_significant_bit hne
  have htop' : ∀ j, i < j → v1.testBit j = v2.testBit j := by
    intro j hj
    have := htop j hj
    rw [Nat.testBit_xor] at this
    revert this
    cases v1.testBit j <;> cases v2.testBit j <;> simp
  have hdiff : v1.testBit i ≠ v2.testBit i := by
    intro h
    rw [Nat.testBit_xor, h] at hbit
    revert hbit
    cases v2.testBit i <;> simp
  have h1 : v1.testBit i = false ∧ v2.testBit i = true := by
    cases hv1 : v1.testBit i <;> cases hv2 : v2.testBit i
    · exact absurd (hv1.trans hv2.symm) hdiff
    · exact ⟨rfl, rfl⟩
    · exact absurd (Nat.lt_of_testBit i hv2 hv1 fun j hj => (htop' j hj).symm)
        (by omega)
    · exact absurd (hv1.trans hv2.symm) hdiff
  have hm : m.testBit i = false := by
    have := congrArg (fun x => x.testBit i) hand
    simp only [Nat.testBit_and, h1.1, h1.2, Bool.false_and, Bool.true_and] at this
    exact this.symm
  refine Nat.lt_of_testBit i ?_ ?_ ?_
  · rw [Nat.testBit_xor, h1.1, hm]
    rfl
  · rw [Nat.testBit_xor, h1.2, hm]
    rfl
  · intro j hj
    rw [Nat.testBit_xor, Nat.testBit_xor, htop' j hj]

theorem mergeAscGo_mem (fuel : Nat) : ∀ (xs ys : List Nat),
    xs.length + ys.length ≤ fuel →
    ∀ z, (z ∈ mergeAscGo fuel xs ys ↔ z ∈ xs ∨ z ∈ ys) := by
  induction fuel with
  | zero =>
    intro xs ys h z
    match xs, ys with
    | [], ys => simp [mergeAscGo]
    | x :: xs, [] => simp [mergeAscGo]
    | x :: xs, y :: ys => simp at h
  | succ fuel ih =>
    intro xs ys h z
    match xs, ys with
    | [], ys => simp [mergeAscGo]
    | x :: xs, [] => simp [mergeAscGo]
    | x :: xs, y :: ys =>
      simp only [List.length_cons] at h
      simp only [mergeAscGo]
      split
      · rw [List.mem_cons, ih xs (y :: ys) (by simp; omega) z]
        simp only [List.mem_cons]
        tauto
      · split
        · rw [List.mem_cons, ih (x :: xs) ys (by simp; omega) z]
          simp only [List.mem_cons]
          tauto
        · have hxy : x = y := by omega
          rw [List.mem_cons, ih xs ys (by omega) z]
          simp only [List.mem_cons, hxy]
          tauto

theorem mergeAscGo_sorted (fuel : Nat) : ∀ (xs ys : List Nat),
    xs.length + ys.length ≤ fuel →
    List.Sorted (· < ·) xs → List.Sorted (· < ·) ys →
    List.Sorted (· < ·) (mergeAscGo fuel xs ys) := by
  induction fuel with
  | zero =>
    intro xs ys h hxs hys
    match xs, ys with
    | [], ys => exact hys
    | x :: xs, [] => exact hxs
    | x :: xs, y :: ys => simp at h
  | succ fuel ih =>
    intro xs ys h hxs hys
    match xs, ys with
    | [], ys => exact hys
    | x :: xs, [] => exact hxs
    | x :: xs, y :: ys =>
      simp only [List.length_cons] at h
      simp only [mergeAscGo]
      split
      · rename_i hxylt
        refine List.sorted_cons.2 ⟨?_, ih xs (y :: ys) (by simp; omega)
          (List.sorted_cons.1 hxs).2 hys⟩
        intro b hb
        rcases (mergeAscGo_mem fuel xs (y :: ys) (by simp; omega) b).1 hb with hb | hb
        · exact (List.sorted_cons.1 hxs).1 b hb
        · rcases List.mem_cons.1 hb with rfl | hb
          · exact hxylt
          · exact hxylt.trans ((List.sorted_cons.1 hys).1 b hb)
      · split
        · rename_i hnot hyxlt
          refine List.sorted_cons.2 ⟨?_, ih (x :: xs) ys (by simp; omega)
            hxs (List.sorted_cons.1 hys).2⟩
          intro b hb
          rcases (mergeAscGo_mem fuel (x :: xs) ys (by simp; omega) b).1 hb with hb | hb
          · rcases List.mem_cons.1 hb with rfl | hb
            · exact hyxlt
            · exact hyxlt.trans ((List.sorted_cons.1 hxs).1 b hb)
          · exact (List.sorted_cons.1 hys).1 b hb
        · rename_i hnot hnot'
          have hxy : x = y := by omega
          refine List.sorted_cons.2 ⟨?_, ih xs ys (by omega)
            (List.sorted_cons.1 hxs).2 (List.sorted_cons.1 hys).2⟩
          intro b hb
          rcases (mergeAscGo_mem fuel xs ys (by omega) b).1 hb with hb | hb
          · exact (List.sorted_cons.1 hxs).1 b hb
          · rw [hxy]
            exact (List.sorted_cons.1 hys).1 b hb

theorem mergeAsc_mem (xs ys : List Nat) (z : Nat) :
    z ∈ mergeAsc xs ys ↔ z ∈ xs ∨ z ∈ ys :=
  mergeAscGo_mem (xs.length + ys.length) xs ys le_rfl z

theorem mergeAsc_sorted {xs ys : List Nat} (hxs : List.Sorted (· < ·) xs)
    (hys : List.Sorted (· < ·) ys) : List.Sorted (· < ·) (mergeAsc xs ys) :=
  mergeAscGo_sorted (xs.length + ys.length) xs ys le_rfl hxs hys

/-- Strictly sorted lists with the same members are equal. -/
theorem sorted_lt_eq_of_mem_iff : ∀ {l1 l2 : List Nat},
    List.Sorted (· < ·) l1 → List.Sorted (· < ·) l2 →
    (∀ z, z ∈ l1 ↔ z ∈ l2) → l1 = l2 := by
  haveI : IsAntisymm Nat (· < ·) :=
    ⟨fun a b h h2 => absurd (h.trans h2) (lt_irrefl a)⟩
  intro l1 l2 h1 h2 hmem
  refine List.eq_of_perm_of_sorted ?_ h1 h2
  refine (List.subperm_of_subset h1.nodup fun z hz => (hmem z).1 hz).antisymm ?_
  exact List.subperm_of_subset h2.nodup fun z hz => (hmem z).2 hz

/-- Collapse runs of equal adjacent entries, keeping one representative. -/
def dedupAdj : List Nat → List Nat
  | [] => []
  | [x] => [x]
  | x :: y :: rest => if x = y then dedupAdj (y :: rest) else x :: dedupAdj (y :: rest)

theorem dedupAdj_mem : ∀ (l : List Nat) (z : Nat), z ∈ dedupAdj l ↔ z ∈ l := by
  intro l
  induction l with
  | nil => intro z; simp [dedupAdj]
  | cons x rest ih =>
    intro z
    match rest with
    | [] => simp [dedupAdj]
    | y :: rest =>
      simp only [dedupAdj]
      split
      · rename_i hxy
        subst hxy
        rw [ih z]
        simp only [List.mem_cons]
        tauto
      · simp only [List.mem_cons, ih z]

theorem dedupAdj_sorted : ∀ {l : List Nat}, List.Sorted (· ≤ ·) l →
    List.Sorted (· < ·) (dedupAdj l) := by
  intro l
  induction l with
  | nil => intro _; simp [dedupAdj]
  | cons x rest ih =>
    intro hs
    match rest with
    | [] => simp [dedupAdj]
    | y :: rest =>
      simp only [dedupAdj]
      split
      · exact ih (List.sorted_cons.1 hs).2
      · rename_i hxy
        refine List.sorted_cons.2 ⟨?_, ih (List.sorted_cons.1 hs).2⟩
        intro b hb
        rw [dedupAdj_mem] at hb
        have hyb : y ≤ b := by
          rcases List.mem_cons.1 hb with rfl | hb
          · exact le_rfl
          · exact ((List.sorted_cons.1 (List.sorted_cons.1 hs).2).1 b hb)
        have hxb : x ≤ y := (List.sorted_cons.1 hs).1 y (by simp)
        omega

/-- Sort ascending and remove duplicates: the brute-force normal form used
by the specification for comparator application. -/
def sortDedup (l : List Nat) : List Nat :=
  dedupAdj (List.insertionSort (· ≤ ·) l)

theorem sortDedup_sorted (l : List Nat) : List.Sorted (· < ·) (sortDedup l) :=
  dedupAdj_sorted (List.sorted_insertionSort (· ≤ ·) l)

theorem sortDedup_mem (l : List Nat) (z : Nat) : z ∈ sortDedup l ↔ z ∈ l := by
  rw [sortDedup, dedupAdj_mem]
  exact (List.perm_insertionSort (· ≤ ·) l).mem_iff

/-- The single-value rewrite performed by a comparator `(a, b)`: if the
`b`-bit is set and the `a`-bit clear, both are flipped. -/
def comparatorRewrite (a b v : Nat) : Nat :=
  let mask := (1 <<< a) ||| (1 <<< b)
  if v &&& mask = 1 <<< b then v ^^^ mask else v

/-- Brute-force comparator application following the specification text:
rewrite every value directly, then sort with de-duplication. -/
def bruteForceComparator (s : OutputSet) (a b : Nat) : OutputSet :=
  ⟨s.channels, sortDedup (s.values.map (comparatorRewrite a b))⟩

theorem and_mask_of_xor (v m : Nat) : (v ^^^ m) &&& m = (v &&& m) ^^^ m := by
  apply Nat.eq_of_testBit_eq
  intro j
  simp only [Nat.testBit_and, Nat.testBit_xor]
  cases v.testBit j <;> cases m.testBit j <;> rfl

theorem two_pow_xor_or {a b : Nat} (h : a ≠ b) :
    (2 ^ b) ^^^ (2 ^ a ||| 2 ^ b) = 2 ^ a := by
  apply Nat.eq_of_testBit_eq
  intro j
  simp only [Nat.testBit_xor, Nat.testBit_or, Nat.testBit_two_pow]
  by_cases hja : a = j <;> by_cases hjb : b = j
  · exact absurd (hja.trans hjb.symm) h
  · simp [hja, hjb]
  · simp [hja, hjb]
  · simp [hja, hjb]

theorem shiftLeft_one (a : Nat) : 1 <<< a = 2 ^ a := by
  rw [Nat.shiftLeft_eq, one_mul]

theorem applyComparatorCore_sorted {s : OutputSet} {a b : Nat}
    (hs : List.Sorted (· < ·) s.values) :
    List.Sorted (· < ·) (s.applyComparatorCore a b).values := by
  apply mergeAsc_sorted
  · exact List.Pairwise.sublist (List.filter_sublist _) hs
  · apply List.pairwise_map.2
    refine List.Pairwise.imp_of_mem ?_
      (List.Pairwise.sublist (List.filter_sublist _) hs)
    intro v1 v2 h1 h2 hlt
    rcases List.mem_filter.1 h1 with ⟨_, hp1⟩
    rcases List.mem_filter.1 h2 with ⟨_, hp2⟩
    rw [decide_eq_true_eq] at hp1 hp2
    exact xor_lt_xor_of_and_eq (hp1.trans hp2.symm) hlt

theorem applyComparatorCore_mem (s : OutputSet) (a b z : Nat) :
    z ∈ (s.applyComparatorCore a b).values ↔
      ∃ v ∈ s.values, comparatorRewrite a b v = z := by
  show z ∈ mergeAsc _ _ ↔ _
  rw [mergeAsc_mem]
  simp only [List.mem_filter, List.mem_map, decide_eq_true_eq, decide_not,
    Bool.not_eq_true', decide_eq_false_iff_not, comparatorRewrite]
  constructor
  · rintro (⟨hz, hp⟩ | ⟨v, ⟨hv, hp⟩, rfl⟩)
    · exact ⟨z, hz, by rw [if_neg hp]⟩
    · exact ⟨v, hv, by rw [if_pos hp]⟩
  · rintro ⟨v, hv, rfl⟩
    by_cases hp : v &&& (1 <<< a ||| 1 <<< b) = 1 <<< b
    · right
      exact ⟨v, ⟨hv, hp⟩, by rw [if_pos hp]⟩
    · left
      rw [if_neg hp]
      exact ⟨hv, hp⟩

theorem applyComparatorCore_eq_bruteForce {s : OutputSet} {a b : Nat}
    (hs : List.Sorted (· < ·) s.values) :
    s.applyComparatorCore a b = bruteForceComparator s a b := by
  have hvals : (s.applyComparatorCore a b).values =
      (bruteForceComparator s a b).values := by
    apply sorted_lt_eq_of_mem_iff (applyComparatorCore_sorted hs)
      (sortDedup_sorted _)
    intro z
    rw [applyComparatorCore_mem]
    show _ ↔ z ∈ sortDedup _
    rw [sortDedup_mem, List.mem_map]
  show OutputSet.mk s.channels _ = OutputSet.mk s.channels _
  exact congrArg (OutputSet.mk s.channels) hvals

theorem applyComparatorCore_length_le {s : OutputSet} {a b : Nat}
    (hs : List.Sorted (· < ·) s.values) :
    (s.applyComparatorCore a b).values.length ≤ s.values.length := by
  have hsub : (s.applyComparatorCore a b).values ⊆
      s.values.map (comparatorRewrite a b) := by
    intro z hz
    rcases (applyComparatorCore_mem s a b z).1 hz with ⟨v, hv, rfl⟩
    exact List.mem_map.2 ⟨v, hv, rfl⟩
  have h2 := (List.subperm_of_subset (applyComparatorCore_sorted hs).nodup
    hsub).length_le
  rwa [List.length_map] at h2

theorem applyComparatorCore_no_wrong {s : OutputSet} {a b : Nat} (hab : a ≠ b)
    {z : Nat} (hz : z ∈ (s.applyComparatorCore a b).values) :
    ¬ (z &&& (1 <<< a ||| 1 <<< b) = 1 <<< b) := by
  rcases (applyComparatorCore_mem s a b z).1 hz with ⟨v, _, rfl⟩
  rw [comparatorRewrite]
  by_cases hp : v &&& (1 <<< a ||| 1 <<< b) = 1 <<< b
  · rw [if_pos hp, and_mask_of_xor, hp]
    simp only [shiftLeft_one]
    rw [two_pow_xor_or hab]
    intro hcontra
    exact hab (Nat.pow_right_injective (le_refl 2) hcontra)
  · rw [if_neg hp]
    exact hp

theorem mergeAsc_nil_right (l : List Nat) : mergeAsc l [] = l := by
  cases l <;> rfl

theorem applyComparatorCore_idem {s : OutputSet} {a b : Nat} (hab : a ≠ b) :
    (s.applyComparatorCore a b).applyComparatorCore a b =
      s.applyComparatorCore a b := by
  have hkeep : (s.applyComparatorCore a b).values.filter
      (fun value => ¬ (value &&& (1 <<< a ||| 1 <<< b) = 1 <<< b)) =
      (s.applyComparatorCore a b).values := by
    apply List.filter_eq_self.2
    intro z hz
    simpa using applyComparatorCore_no_wrong hab hz
  have hswap : (s.applyComparatorCore a b).values.filter
      (fun value => value &&& (1 <<< a ||| 1 <<< b) = 1 <<< b) = [] := by
    apply List.filter_eq_nil_iff.2
    intro z hz
    simpa using applyComparatorCore_no_wrong hab hz
  show (⟨_, mergeAsc _ _⟩ : OutputSet) = _
  rw [hkeep, hswap]
  simp only [List.map_nil, mergeAsc_nil_right]

/-- Abstraction signature: `2*channels*channels` rank counters, mirroring
`struct Abstraction`. -/
structure Abstraction where
  channels : Nat
  values : List Nat
  deriving DecidableEq, Repr

/-- Increment the counter at index `i`, embedding `values[i] += 1`. -/
def incAt (l : List Nat) (i : Nat) : List Nat :=
  l.set i (l.getD i 0 + 1)

/-- Loop body of `OutputSet::abstraction` for one value and one channel. -/
def absStep (channels value : Nat) (acc : List Nat) (channel : Nat) : List Nat :=
  let channel_value := if value &&& (1 <<< channel) ≠ 0 then 1 else 0
  let channel_pop_count := popCount value - channel_value
  incAt acc (2 * (channels * channel + channel_pop_count) + channel_value)

/-- `OutputSet::abstraction`: fill the `2*w*w` rank counters in one pass over
the values. -/
def OutputSet.abstraction (s : OutputSet) : Abstraction :=
  ⟨s.channels,
    s.values.foldl
      (fun acc value => (List.range s.channels).foldl (absStep s.channels value) acc)
      (List.replicate (s.channels * s.channels * 2) 0)⟩

/-- Loop body of `OutputSet::channel_weights` for one value and one channel. -/
def weightStep (value : Nat) (w : List Nat) (channel : Nat) : List Nat :=
  w.set channel (w.getD channel 0 + (if value &&& (1 <<< channel) ≠ 0 then 1 else 0))

/-- `OutputSet::channel_weights`: per-channel number of values with that bit
set. -/
def OutputSet.channel_weights (s : OutputSet) : List Nat :=
  s.values.foldl
    (fun w value => (List.range s.channels).foldl (weightStep value) w)
    (List.replicate s.channels 0)

/-- Remap one value under a channel permutation, embedding the inner loop of
`OutputSet::permute_channels`: iterate over the reversed permutation,
shifting in the selected source bit. -/
def remapValue (perm : List Nat) (v : Nat) : Nat :=
  perm.reverse.foldl
    (fun out p => 2 * out + (if v &&& (1 <<< p) ≠ 0 then 1 else 0)) 0

/-- Core of `OutputSet::permute_channels` (after the permutation assertions):
remap every value, then sort. -/
def OutputSet.permuteChannelsCore (s : OutputSet) (perm : List Nat) : OutputSet :=
  ⟨s.channels, List.insertionSort (· ≤ ·) (s.values.map (remapValue perm))⟩

/-- `OutputSet::permute_channels` with its assertions: the permutation list
must have length `channels` and its masks must cover exactly the low
`channels` bits. -/
def OutputSet.permute_channels (s : OutputSet) (perm : List Nat) : Option OutputSet :=
  if perm.length = s.channels ∧
      (perm.reverse.foldl (fun m p => m ||| (1 <<< p)) 0) + 1 = 1 <<< s.channels then
    some (s.permuteChannelsCore perm)
  else
    none

/-- Lexicographic order on `(u16, usize)` pairs as used by
`sort_unstable` on `(!weight, index)` tuples. -/
def lexLe (x y : Nat × Nat) : Prop :=
  x.1 < y.1 ∨ (x.1 = y.1 ∧ x.2 ≤ y.2)

instance : DecidableRel lexLe := fun x y => by
  unfold lexLe
  infer_instance

instance : IsTotal (Nat × Nat) lexLe :=
  ⟨fun x y => by unfold lexLe; omega⟩

instance : IsTrans (Nat × Nat) lexLe :=
  ⟨fun x y z hxy hyz => by unfold lexLe at *; omega⟩

instance : IsAntisymm (Nat × Nat) lexLe :=
  ⟨fun x y hxy hyx => by
    unfold lexLe at *
    have h1 : x.1 = y.1 := by omega
    have h2 : x.2 = y.2 := by omega
    exact Prod.ext h1 h2⟩

/-- `u16` complement of a weight, embedding `!w` for `w : u16`. -/
def complement16 (w : Nat) : Nat := 65535 - w

/-- `OutputSet::order_channels_by_weight`: sort channels by descending weight
(ties by ascending index) via the `(!weight, index)` key list, apply the
resulting permutation, and return it. -/
def OutputSet.order_channels_by_weight (s : OutputSet) : OutputSet × List Nat :=
  let weights := s.channel_weights.enum.map (fun p => (complement16 p.2, p.1))
  let sorted := List.insertionSort lexLe weights
  let perm := sorted.map (fun p => p.2)
  (s.permuteChannelsCore perm, perm)

/-- `OutputSet::swap_channels` core (after the assertions): partition into the
kept values and the two rewritten classes, then three-way sentinel merge. -/
def merge3AscGo : Nat → List Nat → List Nat → List Nat → List Nat
  | 0, _, _, _ => []
  | fuel + 1, xs, ys, zs =>
    let xv := xs.headD 65535
    let yv := ys.headD 65535
    let zv := zs.headD 65535
    let value := min (min xv yv) zv
    if value = 65535 then []
    else
      value :: merge3AscGo fuel
        (if xv = value then xs.tail else xs)
        (if yv = value then ys.tail else ys)
        (if zv = value then zs.tail else zs)

def merge3Asc (xs ys zs : List Nat) : List Nat :=
  merge3AscGo (xs.length + ys.length + zs.length + 1) xs ys zs

def OutputSet.swapChannelsCore (s : OutputSet) (a b : Nat) : OutputSet :=
  if a = b then s
  else
    let mask_a := 1 <<< a
    let mask_b := 1 <<< b
    let mask := mask_a ||| mask_b
    let swap_a := (s.values.filter (fun v => v &&& mask = mask_a)).map
      (fun v => v ^^^ mask)
    let swap_b := (s.values.filter
      (fun v => ¬(v &&& mask = mask_a) ∧ v &&& mask = mask_b)).map
      (fun v => v ^^^ mask)
    let keep := s.values.filter
      (fun v => ¬(v &&& mask = mask_a) ∧ ¬(v &&& mask = mask_b))
    ⟨s.channels, merge3Asc swap_a swap_b keep⟩

/-- `OutputSet::swap_channels` with its
`assert!(a < self.channels && b < self.channels)` contract check.  Note that
the `a == b` early return sits after the assertion, so equal endpoints are
accepted. -/
def OutputSet.swap_channels (s : OutputSet) (a b : Nat) : Option OutputSet :=
  if a < s.channels ∧ b < s.channels then
    some (s.swapChannelsCore a b)
  else
    none

theorem incAt_length (l : List Nat) (i : Nat) : (incAt l i).length = l.length := by
  simp [incAt]

theorem incAt_sum : ∀ (l : List Nat) (i : Nat), i < l.length →
    (incAt l i).sum = l.sum + 1 := by
  intro l
  induction l with
  | nil => intro i h; simp at h
  | cons x xs ih =>
    intro i h
    match i with
    | 0 =>
      show ((x + 1) :: xs).sum = (x :: xs).sum + 1
      simp [List.sum_cons]
      omega
    | i + 1 =>
      show (x :: incAt xs i).sum = (x :: xs).sum + 1
      simp only [List.sum_cons]
      rw [ih i (by simpa using h)]
      omega

theorem and_shift_eq_zero_iff (v c : Nat) :
    v &&& (1 <<< c) = 0 ↔ v.testBit c = false := by
  rw [shiftLeft_one]
  constructor
  · intro h
    cases hbit : v.testBit c
    · rfl
    · exfalso
      have : (v &&& 2 ^ c).testBit c = true := by
        simp [Nat.testBit_and, hbit, Nat.testBit_two_pow]
      rw [h] at this
      simp [Nat.zero_testBit] at this
  · intro h
    apply Nat.eq_of_testBit_eq
    intro j
    simp only [Nat.testBit_and, Nat.testBit_two_pow, Nat.zero_testBit]
    by_cases hj : c = j
    · subst hj
      simp [h]
    · simp [hj]

theorem absStep_bound {ch v c : Nat} (hv : v < 2 ^ ch) (hc : c < ch) :
    2 * (ch * c + (popCount v - (if v &&& (1 <<< c) ≠ 0 then 1 else 0))) +
      (if v &&& (1 <<< c) ≠ 0 then 1 else 0) < ch * ch * 2 := by
  obtain ⟨m, rfl⟩ : ∃ m, ch = m + 1 := ⟨ch - 1, by omega⟩
  have hcm : c ≤ m := by omega
  have hcpc : popCount v - (if v &&& (1 <<< c) ≠ 0 then 1 else 0) ≤ m := by
    by_cases hbit : v &&& (1 <<< c) ≠ 0
    · have := popCount_le_of_lt_two_pow (m + 1) v hv
      simp only [if_pos hbit]
      omega
    · have hb : v.testBit c = false := by
        rw [← and_shift_eq_zero_iff]
        omega
      have := popCount_lt_of_testBit_false (m + 1) v c hv hc hb
      simp only [if_neg hbit]
      omega
  have hcv : (if v &&& (1 <<< c) ≠ 0 then 1 else 0) ≤ 1 := by
    split <;> omega
  have h1 : (m + 1) * c ≤ (m + 1) * m := Nat.mul_le_mul_left _ hcm
  have h2 : (m + 1) * (m + 1) = (m + 1) * m + m + 1 := by ring
  linarith

theorem absStep_sum {ch v : Nat} (hv : v < 2 ^ ch) {c : Nat} (hc : c < ch)
    (acc : List Nat) (hlen : acc.length = ch * ch * 2) :
    (absStep ch v acc c).sum = acc.sum + 1 ∧
      (absStep ch v acc c).length = ch * ch * 2 := by
  constructor
  · apply incAt_sum
    rw [hlen]
    exact absStep_bound hv hc
  · rw [absStep]
    show (incAt acc _).length = _
    rw [incAt_length, hlen]

theorem abstraction_inner_sum {ch v : Nat} (hv : v < 2 ^ ch) :
    ∀ (cs : List Nat), (∀ c ∈ cs, c < ch) →
      ∀ (acc : List Nat), acc.length = ch * ch * 2 →
        (cs.foldl (absStep ch v) acc).sum = acc.sum + cs.length ∧
          (cs.foldl (absStep ch v) acc).length = ch * ch * 2 := by
  intro cs
  induction cs with
  | nil => intro _ acc hlen; exact ⟨by simp, hlen⟩
  | cons c cs ih =>
    intro hcs acc hlen
    have hstep := absStep_sum hv (hcs c (by simp)) acc hlen
    have hrest := ih (fun x hx => hcs x (by simp [hx])) (absStep ch v acc c) hstep.2
    refine ⟨?_, hrest.2⟩
    rw [List.foldl_cons, hrest.1, hstep.1, List.length_cons]
    omega

theorem abstraction_fold_sum {ch : Nat} :
    ∀ (vs : List Nat), (∀ v ∈ vs, v < 2 ^ ch) →
      ∀ (acc : List Nat), acc.length = ch * ch * 2 →
        ((vs.foldl (fun acc value => (List.range ch).foldl (absStep ch value) acc)
          acc).sum = acc.sum + ch * vs.length ∧
        (vs.foldl (fun acc value => (List.range ch).foldl (absStep ch value) acc)
          acc).length = ch * ch * 2) := by
  intro vs
  induction vs with
  | nil => intro _ acc hlen; exact ⟨by simp, hlen⟩
  | cons v vs ih =>
    intro hvs acc hlen
    have hstep := abstraction_inner_sum (hvs v (by simp)) (List.range ch)
      (fun c hc => List.mem_range.1 hc) acc hlen
    have hrest := ih (fun x hx => hvs x (by simp [hx]))
      ((List.range ch).foldl (absStep ch v) acc) hstep.2
    refine ⟨?_, hrest.2⟩
    rw [List.foldl_cons, hrest.1, hstep.1, List.length_range, List.length_cons]
    ring

/-- The sum of all abstraction counters is `channels` per value: each value
contributes exactly one increment per channel. -/
theorem abstraction_sum {s : OutputSet} (h : ∀ v ∈ s.values, v < 2 ^ s.channels) :
    s.abstraction.values.sum = s.channels * s.values.length := by
  have := abstraction_fold_sum s.values h
    (List.replicate (s.channels * s.channels * 2) 0) (by simp)
  rw [OutputSet.abstraction]
  have hrep : (List.replicate (s.channels * s.channels * 2) (0 : Nat)).sum = 0 := by
    simp
  rw [this.1, hrep]
  omega

theorem getD_set_self : ∀ (l : List Nat) (i x : Nat), i < l.length →
    (l.set i x).getD i 0 = x := by
  intro l
  induction l with
  | nil => intro i x h; simp at h
  | cons a as ih =>
    intro i x h
    match i with
    | 0 => rfl
    | i + 1 =>
      show (as.set i x).getD i 0 = x
      exact ih i x (by simpa using h)

theorem getD_set_ne : ∀ (l : List Nat) (i j x : Nat), i ≠ j →
    (l.set i x).getD j 0 = l.getD j 0 := by
  intro l
  induction l with
  | nil => intro i j x _; simp [List.set]
  | cons a as ih =>
    intro i j x hne
    match i, j with
    | 0, 0 => exact absurd rfl hne
    | 0, j + 1 => rfl
    | i + 1, 0 => rfl
    | i + 1, j + 1 =>
      show (as.set i x).getD j 0 = as.getD j 0
      exact ih i j x (by omega)

theorem and_shift_ne_zero_iff (v c : Nat) :
    (v &&& (1 <<< c) ≠ 0) ↔ v.testBit c = true := by
  rw [Ne, and_shift_eq_zero_iff]
  cases v.testBit c <;> simp

theorem weightStep_length (v : Nat) (w : List Nat) (c : Nat) :
    (weightStep v w c).length = w.length := by
  simp [weightStep]

theorem weightStep_getD (v : Nat) (w : List Nat) (c j : Nat) (hj : j < w.length) :
    (weightStep v w c).getD j 0 =
      w.getD j 0 + (if c = j ∧ v.testBit j then 1 else 0) := by
  by_cases hcj : c = j
  · subst hcj
    rw [weightStep, getD_set_self _ _ _ hj]
    by_cases hbit : v.testBit c <;> simp [hbit, and_shift_ne_zero_iff]
  · rw [weightStep, getD_set_ne _ _ _ _ hcj]
    simp [hcj]

theorem weights_inner_getD (v : Nat) : ∀ (cs : List Nat) (w : List Nat),
    cs.Nodup → (∀ j, j < w.length →
      (cs.foldl (weightStep v) w).getD j 0 =
        w.getD j 0 + (if j ∈ cs ∧ v.testBit j then 1 else 0)) ∧
      (cs.foldl (weightStep v) w).length = w.length := by
  intro cs
  induction cs with
  | nil => intro w _; exact ⟨fun j _ => by simp, rfl⟩
  | cons c cs ih =>
    intro w hnodup
    have hrest := ih (weightStep v w c) (List.nodup_cons.1 hnodup).2
    refine ⟨?_, by rw [List.foldl_cons, hrest.2, weightStep_length]⟩
    intro j hj
    rw [List.foldl_cons, hrest.1 j (by rw [weightStep_length]; exact hj),
      weightStep_getD v w c j hj]
    have hc : c ∉ cs := (List.nodup_cons.1 hnodup).1
    simp only [List.mem_cons]
    by_cases hcj : c = j
    · subst hcj
      by_cases hbit : v.testBit c <;> simp [hbit, hc]
    · have hjc : ¬ (j = c) := fun h => hcj h.symm
      by_cases hjcs : j ∈ cs <;> by_cases hbit : v.testBit j <;>
        simp [hbit, hjcs, hcj, hjc]

theorem weights_fold (ch : Nat) : ∀ (vs : List Nat) (w : List Nat),
    w.length = ch →
    ((vs.foldl (fun w value => (List.range ch).foldl (weightStep value) w) w).length
        = ch ∧
      ∀ j, j < ch →
        (vs.foldl (fun w value => (List.range ch).foldl (weightStep value) w)
          w).getD j 0 = w.getD j 0 + vs.countP (fun v => v.testBit j)) := by
  intro vs
  induction vs with
  | nil => intro w hw; exact ⟨hw, fun j _ => by simp⟩
  | cons v vs ih =>
    intro w hw
    have hstep := weights_inner_getD v (List.range ch) w (List.nodup_range ch)
    have hrest := ih ((List.range ch).foldl (weightStep v) w) (by rw [hstep.2, hw])
    refine ⟨hrest.1, ?_⟩
    intro j hj
    rw [List.foldl_cons, hrest.2 j hj, hstep.1 j (by omega),
      List.countP_cons]
    simp only [List.mem_range]
    by_cases hbit : v.testBit j
    · simp [hbit, hj]
      omega
    · simp [hbit, hj]

theorem channel_weights_length (s : OutputSet) :
    s.channel_weights.length = s.channels :=
  (weights_fold s.channels s.values (List.replicate s.channels 0) (by simp)).1

theorem channel_weights_getD (s : OutputSet) (j : Nat) (hj : j < s.channels) :
    s.channel_weights.getD j 0 = s.values.countP (fun v => v.testBit j) := by
  have := (weights_fold s.channels s.values (List.replicate s.channels 0)
    (by simp)).2 j hj
  rw [OutputSet.channel_weights, this]
  simp

theorem remapValue_eq_foldr (perm : List Nat) (v : Nat) :
    remapValue perm v =
      perm.foldr (fun p acc => 2 * acc + (if v.testBit p then 1 else 0)) 0 := by
  rw [remapValue, List.foldl_reverse]
  congr 1
  funext p acc
  rcases Decidable.em (v.testBit p) with hbit | hbit
  · rw [if_pos ((and_shift_ne_zero_iff v p).2 hbit), if_pos hbit]
  · rw [if_neg (fun hc => hbit ((and_shift_ne_zero_iff v p).1 hc)), if_neg hbit]

theorem remapValue_testBit (v : Nat) : ∀ (perm : List Nat) (k : Nat),
    (remapValue perm v).testBit k =
      if k < perm.length then v.testBit (perm.getD k 0) else false := by
  intro perm
  induction perm with
  | nil =>
    intro k
    rw [remapValue_eq_foldr]
    simp [Nat.zero_testBit]
  | cons p ps ih =>
    intro k
    rw [remapValue_eq_foldr, List.foldr_cons]
    have hps : ps.foldr (fun p acc => 2 * acc + (if v.testBit p then 1 else 0)) 0 =
        remapValue ps v := (remapValue_eq_foldr ps v).symm
    rw [hps]
    match k with
    | 0 =>
      rw [Nat.testBit_zero]
      have h2 : (2 * remapValue ps v + (if v.testBit p then 1 else 0)) % 2 =
          (if v.testBit p then 1 else 0) := by
        split <;> omega
      rw [h2]
      simp only [List.length_cons, List.getD]
      rcases Decidable.em (v.testBit p) with hbit | hbit <;> simp [hbit]
    | k + 1 =>
      rw [Nat.testBit_add_one]
      have h2 : (2 * remapValue ps v + (if v.testBit p then 1 else 0)) / 2 =
          remapValue ps v := by
        split <;> omega
      rw [h2, ih k]
      simp only [List.length_cons]
      have h3 : (p :: ps).getD (k + 1) 0 = ps.getD k 0 := rfl
      rw [h3]
      by_cases hk : k < ps.length <;> simp [hk]

theorem remapValue_lt (v : Nat) : ∀ (perm : List Nat),
    remapValue perm v < 2 ^ perm.length := by
  intro perm
  induction perm with
  | nil => rw [remapValue_eq_foldr]; simp
  | cons p ps ih =>
    rw [remapValue_eq_foldr, List.foldr_cons,
      ← remapValue_eq_foldr]
    rw [List.length_cons, pow_succ]
    have := ih
    split <;> omega

theorem remapValue_range (w v : Nat) : remapValue (List.range w) v = v % 2 ^ w := by
  apply Nat.eq_of_testBit_eq
  intro k
  rw [remapValue_testBit, Nat.testBit_mod_two_pow]
  by_cases hk : k < w
  · have hget : (List.range w).getD k 0 = k := by
      have h1 : k < (List.range w).length := by simpa using hk
      rw [List.getD_eq_getElem?_getD, List.getElem?_eq_getElem h1,
        List.getElem_range]
      rfl
    simp [hk, hget]
  · simp [hk]

theorem permuteCore_weights_getD (s : OutputSet) (perm : List Nat)
    (hlen : perm.length = s.channels)
    (hmem : ∀ p ∈ perm, p < s.channels) (k : Nat) (hk : k < s.channels) :
    (s.permuteChannelsCore perm).channel_weights.getD k 0 =
      s.channel_weights.getD (perm.getD k 0) 0 := by
  have hpk : perm.getD k 0 ∈ perm := by
    have h1 : k < perm.length := by omega
    rw [List.getD_eq_getElem?_getD, List.getElem?_eq_getElem h1]
    exact List.getElem_mem _
  have hch : (s.permuteChannelsCore perm).channels = s.channels := rfl
  rw [channel_weights_getD _ k (by rw [hch]; exact hk),
    channel_weights_getD s _ (hmem _ hpk)]
  show ((s.values.map (remapValue perm)).insertionSort (· ≤ ·)).countP _ = _
  rw [(List.perm_insertionSort (· ≤ ·) (s.values.map (remapValue perm))).countP_eq,
    List.countP_map]
  apply List.countP_congr
  intro v _
  simp only [Function.comp]
  rw [remapValue_testBit]
  simp [show k < perm.length by omega]

/-- The permutation computed (and returned) by `order_channels_by_weight`. -/
def orderPerm (s : OutputSet) : List Nat :=
  ((s.channel_weights.enum.map (fun p => (complement16 p.2, p.1))).insertionSort
    lexLe).map (fun p => p.2)

theorem order_channels_eq (s : OutputSet) :
    s.order_channels_by_weight = (s.permuteChannelsCore (orderPerm s), orderPerm s) :=
  rfl

theorem getD_eq_getElem {α : Type} (d : α) (l : List α) (i : Nat)
    (h : i < l.length) : l.getD i d = l[i] := by
  rw [List.getD_eq_getElem?_getD, List.getElem?_eq_getElem h]
  rfl

theorem orderPairs_map_snd (s : OutputSet) :
    (s.channel_weights.enum.map (fun p => (complement16 p.2, p.1))).map
        (fun p : Nat × Nat => p.2) =
      List.range s.channels := by
  rw [List.map_map]
  have h1 : ((fun p : Nat × Nat => p.2) ∘ (fun p : Nat × Nat => (complement16 p.2, p.1)))
      = Prod.fst := by
    funext p
    rfl
  rw [h1]
  show (List.enumFrom 0 s.channel_weights).map Prod.fst = _
  rw [List.enumFrom_map_fst, ← List.range_eq_range', channel_weights_length]

theorem orderPerm_perm_range (s : OutputSet) :
    (orderPerm s).Perm (List.range s.channels) := by
  rw [orderPerm, ← orderPairs_map_snd]
  exact (List.perm_insertionSort lexLe _).map _

theorem orderPerm_length (s : OutputSet) : (orderPerm s).length = s.channels := by
  rw [(orderPerm_perm_range s).length_eq, List.length_range]

theorem orderPerm_mem_lt (s : OutputSet) {p : Nat} (hp : p ∈ orderPerm s) :
    p < s.channels :=
  List.mem_range.1 ((orderPerm_perm_range s).mem_iff.1 hp)

theorem orderSorted_mem (s : OutputSet) {e : Nat × Nat}
    (he : e ∈ (s.channel_weights.enum.map
      (fun p => (complement16 p.2, p.1))).insertionSort lexLe) :
    e.1 = complement16 (s.channel_weights.getD e.2 0) ∧ e.2 < s.channels := by
  rw [(List.perm_insertionSort lexLe _).mem_iff, List.mem_map] at he
  obtain ⟨q, hq, rfl⟩ := he
  rw [List.mem_enum_iff_getElem?] at hq
  have hlt : q.1 < s.channel_weights.length := by
    by_contra hge
    rw [List.getElem?_eq_none (by omega)] at hq
    cases hq
  rw [List.getElem?_eq_getElem hlt] at hq
  have hq2 : q.2 = s.channel_weights[q.1] := (Option.some.inj hq).symm
  constructor
  · show complement16 q.2 = complement16 (s.channel_weights.getD q.1 0)
    rw [getD_eq_getElem _ _ _ hlt, hq2]
  · show q.1 < s.channels
    rw [channel_weights_length] at hlt
    exact hlt

theorem orderSorted_pairwise (s : OutputSet) :
    List.Pairwise (fun x y : Nat × Nat => x.1 < y.1 ∨ (x.1 = y.1 ∧ x.2 < y.2))
      ((s.channel_weights.enum.map
        (fun p => (complement16 p.2, p.1))).insertionSort lexLe) := by
  have hsorted : List.Pairwise lexLe _ := List.sorted_insertionSort lexLe
    (s.channel_weights.enum.map (fun p => (complement16 p.2, p.1)))
  have hnodup : (((s.channel_weights.enum.map
      (fun p => (complement16 p.2, p.1))).insertionSort lexLe).map
        (fun p : Nat × Nat => p.2)).Nodup := by
    have : (((s.channel_weights.enum.map
        (fun p => (complement16 p.2, p.1))).insertionSort lexLe).map
          (fun p : Nat × Nat => p.2)).Perm (List.range s.channels) :=
      orderPerm_perm_range s
    exact this.nodup_iff.2 (List.nodup_range _)
  have hpairne := List.pairwise_map.1 hnodup
  refine (hsorted.and hpairne).imp ?_
  rintro x y ⟨hle, hne⟩
  rcases hle with hlt | ⟨heq, hle2⟩
  · exact Or.inl hlt
  · exact Or.inr ⟨heq, by omega⟩

/-- Descending-weight, tie-ascending-index ordering of the returned
permutation.  The weight bound comes from `u16` arithmetic: all weights are
below `2^16`. -/
theorem orderPerm_pairwise (s : OutputSet)
    (hwb : ∀ c, c < s.channels → s.channel_weights.getD c 0 ≤ 65535) :
    List.Pairwise (fun i j =>
      s.channel_weights.getD i 0 > s.channel_weights.getD j 0 ∨
        (s.channel_weights.getD i 0 = s.channel_weights.getD j 0 ∧ i < j))
      (orderPerm s) := by
  rw [orderPerm]
  apply List.pairwise_map.2
  refine List.Pairwise.imp_of_mem ?_ (orderSorted_pairwise s)
  intro x y hx hy hr
  obtain ⟨hx1, hx2⟩ := orderSorted_mem s hx
  obtain ⟨hy1, hy2⟩ := orderSorted_mem s hy
  rw [hx1, hy1] at hr
  have hbx := hwb x.2 hx2
  have hby := hwb y.2 hy2
  unfold complement16 at hr
  rcases hr with hlt | ⟨heq, hlt2⟩
  · left
    omega
  · right
    exact ⟨by omega, hlt2⟩

theorem order_result_weights_getD (s : OutputSet) (k : Nat) (hk : k < s.channels) :
    (s.permuteChannelsCore (orderPerm s)).channel_weights.getD k 0 =
      s.channel_weights.getD ((orderPerm s).getD k 0) 0 :=
  permuteCore_weights_getD s (orderPerm s) (orderPerm_length s)
    (fun _ hp => orderPerm_mem_lt s hp) k hk

theorem order_result_weights_pairwise (s : OutputSet)
    (hwb : ∀ c, c < s.channels → s.channel_weights.getD c 0 ≤ 65535) :
    List.Pairwise (fun x y => x ≥ y)
      (s.permuteChannelsCore (orderPerm s)).channel_weights := by
  rw [List.pairwise_iff_getElem]
  intro i j hi hj hij
  have hlen : (s.permuteChannelsCore (orderPerm s)).channel_weights.length
      = s.channels := channel_weights_length _
  have hi' : i < s.channels := by omega
  have hj' : j < s.channels := by omega
  rw [← getD_eq_getElem 0 _ i (by omega), ← getD_eq_getElem 0 _ j (by omega),
    order_result_weights_getD s i hi', order_result_weights_getD s j hj']
  have hpp := (List.pairwise_iff_getElem.1 (orderPerm_pairwise s hwb)) i j
    (by rw [orderPerm_length]; exact hi') (by rw [orderPerm_length]; exact hj') hij
  rw [← getD_eq_getElem 0 _ i (by rw [orderPerm_length]; exact hi'),
    ← getD_eq_getElem 0 _ j (by rw [orderPerm_length]; exact hj')] at hpp
  rcases hpp with h | h
  · omega
  · omega

theorem orderPairs_getElem (s : OutputSet) (k : Nat)
    (h : k < (s.channel_weights.enum.map
      (fun p => (complement16 p.2, p.1))).length) :
    (s.channel_weights.enum.map (fun p => (complement16 p.2, p.1)))[k] =
      (complement16 (s.channel_weights.getD k 0), k) := by
  have hk : k < s.channel_weights.length := by simpa using h
  rw [List.getElem_map]
  have he : s.channel_weights.enum = List.enumFrom 0 s.channel_weights := rfl
  simp only [he, List.getElem_enumFrom]
  rw [getD_eq_getElem 0 _ k hk]
  simp

/-- An output set whose values are sorted and whose channel weights are
already monotone non-increasing is a fixed point of
`order_channels_by_weight`. -/
theorem order_fixed (t : OutputSet)
    (hvals : List.Sorted (· ≤ ·) t.values)
    (hbound : ∀ v ∈ t.values, v < 2 ^ t.channels)
    (hmono : List.Pairwise (fun x y => x ≥ y) t.channel_weights) :
    t.order_channels_by_weight.1 = t := by
  have hsortedPairs : List.Sorted lexLe
      (t.channel_weights.enum.map (fun p => (complement16 p.2, p.1))) := by
    rw [List.Sorted, List.pairwise_iff_getElem]
    intro i j hi hj hij
    rw [orderPairs_getElem t i hi, orderPairs_getElem t j hj]
    have hi' : i < t.channel_weights.length := by simpa using hi
    have hj' : j < t.channel_weights.length := by simpa using hj
    have hm := (List.pairwise_iff_getElem.1 hmono) i j hi' hj' hij
    rw [← getD_eq_getElem 0 _ i hi', ← getD_eq_getElem 0 _ j hj'] at hm
    unfold lexLe complement16
    simp only []
    omega
  have hperm_eq : orderPerm t = List.range t.channels := by
    rw [orderPerm, List.Sorted.insertionSort_eq hsortedPairs, orderPairs_map_snd]
  have hmap_id : t.values.map (remapValue (orderPerm t)) = t.values := by
    rw [hperm_eq]
    rw [List.map_congr_left (fun v hv => by
      rw [remapValue_range, Nat.mod_eq_of_lt (hbound v hv)])]
    exact List.map_id _
  rw [order_channels_eq]
  show t.permuteChannelsCore (orderPerm t) = t
  rw [OutputSet.permuteChannelsCore, hmap_id, List.Sorted.insertionSort_eq hvals]

theorem sorted_length_le {l : List Nat} {N : Nat} (hs : List.Sorted (· < ·) l)
    (hb : ∀ v ∈ l, v < N) : l.length ≤ N := by
  have hsub : l ⊆ List.range N := fun v hv => List.mem_range.2 (hb v hv)
  have := (List.subperm_of_subset hs.nodup hsub).length_le
  simpa using this

theorem channel_weights_le_length (s : OutputSet) (c : Nat) (hc : c < s.channels) :
    s.channel_weights.getD c 0 ≤ s.values.length := by
  rw [channel_weights_getD s c hc]
  exact List.countP_le_length _

theorem permuteCore_values_length (s : OutputSet) (perm : List Nat) :
    (s.permuteChannelsCore perm).values.length = s.values.length := by
  show (List.insertionSort _ _).length = _
  rw [(List.perm_insertionSort _ _).length_eq, List.length_map]

theorem permuteCore_values_bound (s : OutputSet) (perm : List Nat)
    (hlen : perm.length = s.channels) :
    ∀ v ∈ (s.permuteChannelsCore perm).values, v < 2 ^ s.channels := by
  intro v hv
  have hv2 : v ∈ s.values.map (remapValue perm) :=
    (List.perm_insertionSort _ _).mem_iff.1 hv
  rw [List.mem_map] at hv2
  obtain ⟨u, _, rfl⟩ := hv2
  rw [← hlen]
  exact remapValue_lt u perm

/-- Swap two list entries, embedding `Vec::swap` / `slice::swap`. -/
def swapList (l : List Nat) (i j : Nat) : List Nat :=
  (l.set i (l.getD j 0)).set j (l.getD i 0)

/-- Bipartite channel matching, mirroring `struct Matching`: one candidate
bit-mask per channel on each side plus the sticky `incomplete` flag. -/
structure Matching where
  matches_a : List Nat
  matches_b : List Nat
  incomplete : Bool
  deriving DecidableEq, Repr

/-- `Matching::new`: every match allowed. -/
def Matching.new (channels : Nat) : Matching :=
  ⟨List.replicate channels ((1 <<< channels) - 1),
    List.replicate channels ((1 <<< channels) - 1), false⟩

/-- `Matching::contains`. -/
def Matching.contains (m : Matching) (channel_a channel_b : Nat) : Bool :=
  m.matches_a.getD channel_a 0 &&& (1 <<< channel_b) != 0

/-- `Matching::matches_a` accessor. -/
def Matching.matchesAAt (m : Matching) (channel_a : Nat) : Nat :=
  m.matches_a.getD channel_a 0

/-- `Matching::matches_b` accessor. -/
def Matching.matchesBAt (m : Matching) (channel_b : Nat) : Nat :=
  m.matches_b.getD channel_b 0

/-- `u16::trailing_zeros` (fuelled to keep the recursion structural). -/
def tzGo : Nat → Nat → Nat
  | 0, _ => 0
  | fuel + 1, n => if n % 2 = 1 then 0 else if n = 0 then 0 else 1 + tzGo fuel (n / 2)

def trailingZeros (n : Nat) : Nat := tzGo n n

/-- `Matching::unique_match_a`: the sole candidate of a singleton row. -/
def Matching.unique_match_a (m : Matching) (channel_a : Nat) : Option Nat :=
  if m.incomplete then none
  else
    let row_a := m.matches_a.getD channel_a 0
    if popCount row_a = 1 then some (trailingZeros row_a) else none

/-- Early-exit loop skeleton shared by the propagation loops of
`Matching::remove` and `Matching::select`: run `f` on every index except
`skip`, threading the matching state, stopping at the first inconsistency. -/
def removeLoop (f : Matching → Nat → Bool × Matching) :
    List Nat → Nat → Matching → Bool × Matching
  | [], _, m => (false, m)
  | other :: rest, skip, m =>
    if other ≠ skip then
      match f m other with
      | (true, m') => (true, m')
      | (false, m') => removeLoop f rest skip m'
    else
      removeLoop f rest skip m

/-- `Matching::remove` (fuelled: the source recursion is bounded by the
number of set bits; exhausted fuel conservatively reports inconsistency).
Clears the `(a, b)` bit on both sides, sets `incomplete` on an emptied row,
and unit-propagates singleton rows. -/
def Matching.removeGo : Nat → Matching → Nat → Nat → Bool × Matching
  | 0, m, _, _ => (true, { m with incomplete := true })
  | fuel + 1, m, channel_a, channel_b =>
    if m.incomplete then (true, m)
    else
      let col_a := 1 <<< channel_b
      let row_a := m.matches_a.getD channel_a 0
      if row_a &&& col_a = 0 then (false, m)
      else
        let row_a2 := row_a &&& (65535 ^^^ col_a)
        let m1 : Matching := { m with matches_a := m.matches_a.set channel_a row_a2 }
        let col_b := 1 <<< channel_a
        let row_b := m1.matches_b.getD channel_b 0
        let row_b2 := row_b &&& (65535 ^^^ col_b)
        let m2 : Matching := { m1 with matches_b := m1.matches_b.set channel_b row_b2 }
        if row_a2 = 0 then (true, { m2 with incomplete := true })
        else if row_b2 = 0 then (true, { m2 with incomplete := true })
        else
          let afterA :=
            if popCount row_a2 = 1 then
              removeLoop (fun m' other => Matching.removeGo fuel m' other (trailingZeros row_a2))
                (List.range m2.matches_a.length) channel_a m2
            else (false, m2)
          match afterA with
          | (true, m') => (true, m')
          | (false, m3) =>
            if popCount row_b2 = 1 then
              removeLoop (fun m' other => Matching.removeGo fuel m' (trailingZeros row_b2) other)
                (List.range m3.matches_b.length) channel_b m3
            else (false, m3)

/-- `Matching::select`: assert the match `(a, b)` by removing all competing
candidates on both sides. -/
def Matching.select (fuel : Nat) (m : Matching) (channel_a channel_b : Nat) :
    Bool × Matching :=
  if m.incomplete then (true, m)
  else if ¬ m.contains channel_a channel_b then (true, { m with incomplete := true })
  else
    match removeLoop (fun m' other => Matching.removeGo fuel m' other channel_b)
        (List.range m.matches_a.length) channel_a m with
    | (true, m') => (true, m')
    | (false, m1) =>
      removeLoop (fun m' other => Matching.removeGo fuel m' channel_a other)
        (List.range m1.matches_b.length) channel_b m1

/-- `Matching::swap_channels_a`. -/
def Matching.swap_channels_a (m : Matching) (channel_a_0 channel_a_1 : Nat) :
    Matching :=
  let matches_a2 := swapList m.matches_a channel_a_0 channel_a_1
  let col_b_0 := 1 <<< channel_a_0
  let col_b_1 := 1 <<< channel_a_1
  let col_b_both := col_b_0 ||| col_b_1
  let matches_b2 := m.matches_b.map (fun row_b =>
    let exchange := row_b &&& col_b_both
    let flip := (exchange = col_b_0) ∨ (exchange = col_b_1)
    row_b ^^^ (col_b_both * (if flip then 1 else 0)))
  ⟨matches_a2, matches_b2, m.incomplete⟩

/-- `Matching::swap_channels_b`: swap the two sides, use `swap_channels_a`,
swap back. -/
def Matching.swap_channels_b (m : Matching) (channel_b_0 channel_b_1 : Nat) :
    Matching :=
  let m' := Matching.swap_channels_a ⟨m.matches_b, m.matches_a, m.incomplete⟩
    channel_b_0 channel_b_1
  ⟨m'.matches_b, m'.matches_a, m'.incomplete⟩

/-- Inner loop of `Matching::filter` over all `(a, b)` pairs. -/
def Matching.filterGo (fuel : Nat) (pred : Nat → Nat → Bool) :
    List (Nat × Nat) → Matching → Bool × Matching
  | [], m => (false, m)
  | (a, b) :: rest, m =>
    if m.contains a b ∧ ¬ pred a b then
      match Matching.removeGo fuel m a b with
      | (true, m') => (true, m')
      | (false, m') => Matching.filterGo fuel pred rest m'
    else
      Matching.filterGo fuel pred rest m

/-- `Matching::filter`: remove every pair rejected by the predicate. -/
def Matching.filter (fuel : Nat) (pred : Nat → Nat → Bool) (m : Matching) :
    Bool × Matching :=
  if m.incomplete then (true, m)
  else
    Matching.filterGo fuel pred
      ((List.range m.matches_a.length).product (List.range m.matches_b.length)) m

/-- Element-wise minimum core of `Abstraction::update_min` (the source also
asserts equal widths; see the `Option` wrapper below). -/
def Abstraction.updateMinCore (x other : Abstraction) : Abstraction :=
  ⟨x.channels, List.zipWith min x.values other.values⟩

/-- Element-wise maximum core of `Abstraction::update_max`. -/
def Abstraction.updateMaxCore (x other : Abstraction) : Abstraction :=
  ⟨x.channels, List.zipWith max x.values other.values⟩

/-- `Abstraction::update_min` with its `assert_eq!(self.channels,
other.channels)` width check. -/
def Abstraction.update_min (x other : Abstraction) : Option Abstraction :=
  if x.channels = other.channels then some (x.updateMinCore other) else none

/-- `Abstraction::update_max` with its width check. -/
def Abstraction.update_max (x other : Abstraction) : Option Abstraction :=
  if x.channels = other.channels then some (x.updateMaxCore other) else none

/-- `Abstraction::largest_range`: index of the slot with the greatest
`max - min` gap (the last such slot, as `max_by_key` returns the last
maximum), or `none` when every gap is zero. -/
def Abstraction.largest_range (x other : Abstraction) : Option Nat :=
  let ranges := List.zipWith (fun a b => max a b - min a b) x.values other.values
  let best := ranges.enum.foldl
    (fun best p =>
      match best with
      | none => some p
      | some b => if p.2 ≥ b.2 then some p else best)
    none
  match best with
  | some (index, range) => if range > 0 then some index else none
  | none => none

/-- Core of `Abstraction::channel_le` (the source also asserts equal
widths): pointwise comparison of the `2w` slots describing one channel in
each abstraction. -/
def Abstraction.channelLeCore (x : Abstraction) (my_channel : Nat)
    (other : Abstraction) (other_channel : Nat) : Bool :=
  let channel_values_len := x.channels * 2
  let my_offset := channel_values_len * my_channel
  let other_offset := channel_values_len * other_channel
  let mine := (x.values.drop my_offset).take channel_values_len
  let others := (other.values.drop other_offset).take channel_values_len
  (List.zip mine others).all (fun p => p.1 ≤ p.2)

/-- `Abstraction::swap_channels` (no assertion in the source; equal channels
are an early no-op return). -/
def Abstraction.swapChannelsAbs (x : Abstraction) (a b : Nat) : Abstraction :=
  if a = b then x
  else
    let channel_values_len := x.channels * 2
    let a_offset := channel_values_len * a
    let b_offset := channel_values_len * b
    ⟨x.channels,
      (List.range channel_values_len).foldl
        (fun vals i => swapList vals (a_offset + i) (b_offset + i)) x.values⟩

/-- The payload capability `SubsumeIndexItem::combine`, pure form: `combine
self perm other` returns the merged payload. -/
class SubsumeIndexItem (T : Type) where
  combine : T → List Nat → T → T

/-- The counting payload: `impl SubsumeIndexItem for usize`. -/
instance : SubsumeIndexItem Nat :=
  ⟨fun x _ y => x + y⟩

/-- The trivial payload: `impl SubsumeIndexItem for ()`. -/
instance : SubsumeIndexItem Unit :=
  ⟨fun _ _ _ => ()⟩

/-- `struct AbstractedPair<T>`. -/
structure AbstractedPair (T : Type) where
  abstraction : Abstraction
  output_set : OutputSet
  item : T
  deriving DecidableEq, Repr

/-- `AbstractedPair::new`. -/
def AbstractedPair.new {T : Type} (output_set : OutputSet) (item : T) :
    AbstractedPair T :=
  ⟨output_set.abstraction, output_set, item⟩

/-- `enum Node<T>`: leaf pairs or inner nodes with aggregated abstraction and
subtree size.  The per-leaf payload mutex is the identity in this pure
embedding. -/
inductive Node (T : Type) where
  | Leaf : AbstractedPair T → Node T
  | Inner : Abstraction → Node T → Node T → Nat → Node T
  deriving DecidableEq, Repr

/-- `Node::len`. -/
def Node.nodeLen {T : Type} : Node T → Nat
  | .Leaf _ => 1
  | .Inner _ _ _ len => len

/-- `Node::abstraction`. -/
def Node.nodeAbstraction {T : Type} : Node T → Abstraction
  | .Leaf pair => pair.abstraction
  | .Inner abstraction _ _ _ => abstraction

/-- `Node::drain_using`, as the in-order list of drained pairs. -/
def Node.drainPairs {T : Type} : Node T → List (AbstractedPair T)
  | .Leaf pair => [pair]
  | .Inner _ child_0 child_1 _ => child_0.drainPairs ++ child_1.drainPairs

/-- The trailing-duplicate coalescing loop at the head of `Node::new`,
acting on the reversed item list (head = last pushed): repeatedly fold the
popped pair into its predecessor while their output sets are equal. -/
def coalesceGo {T : Type} [SubsumeIndexItem T] (cur : AbstractedPair T) :
    List (AbstractedPair T) → List (AbstractedPair T)
  | [] => [cur]
  | nxt :: rest =>
    if nxt.output_set = cur.output_set then
      coalesceGo
        { nxt with item := (SubsumeIndexItem.combine nxt.item
            (List.range cur.output_set.channels) cur.item) } rest
    else
      cur :: nxt :: rest

/-- Coalesce trailing duplicates of an item vector. -/
def coalesce {T : Type} [SubsumeIndexItem T] (items : List (AbstractedPair T)) :
    List (AbstractedPair T) :=
  (match items.reverse with
   | [] => []
   | c :: rest => coalesceGo c rest).reverse

/-- `Node::new` body (fuelled; `Node.new` supplies enough fuel for the
halving recursion): coalesce, then either a leaf or a split by the largest
abstraction range. -/
def Node.newGo {T : Type} [SubsumeIndexItem T] : Nat → List (AbstractedPair T) →
    Option (Node T)
  | 0, _ => none
  | fuel + 1, items =>
    match coalesce items with
    | [] => none
    | [x] => some (.Leaf x)
    | x :: y :: rest =>
      let items2 := x :: y :: rest
      let min_abstraction := (y :: rest).foldl
        (fun acc p => acc.updateMinCore p.abstraction) x.abstraction
      let max_abstraction := (y :: rest).foldl
        (fun acc p => acc.updateMaxCore p.abstraction) x.abstraction
      let index := (min_abstraction.largest_range max_abstraction).getD 0
      let sorted := items2.insertionSort
        (fun p q => p.abstraction.values.getD index 0 ≤ q.abstraction.values.getD index 0)
      let items_1 := sorted.drop (sorted.length / 2)
      let items_0 := sorted.take (sorted.length / 2)
      match Node.newGo fuel items_0, Node.newGo fuel items_1 with
      | some child_0, some child_1 =>
        some (.Inner min_abstraction child_0 child_1 items2.length)
      | _, _ => none

/-- `Node::new` with its `assert!(!items.is_empty())` contract check. -/
def Node.new {T : Type} [SubsumeIndexItem T] (items : List (AbstractedPair T)) :
    Option (Node T) :=
  if items.isEmpty then none else Node.newGo (items.length + 1) items

/-- One step of the unit-propagation rotation loop at the head of
`Node::combine_permuted`: rotate a unique match into the diagonal by
swapping B-side channels in the matching, the permutation, and the query's
abstraction and output set. -/
def rotationStep {T : Type} (st : Matching × List Nat × AbstractedPair T × Nat)
    (channel_a : Nat) : Matching × List Nat × AbstractedPair T × Nat :=
  let (matching, perm, pair, cnt) := st
  match matching.unique_match_a channel_a with
  | none => (matching, perm, pair, cnt)
  | some channel_b =>
    if channel_b ≠ channel_a then
      (matching.swap_channels_b channel_b channel_a,
        swapList perm channel_b channel_a,
        { pair with
            abstraction := pair.abstraction.swapChannelsAbs channel_b channel_a,
            output_set := pair.output_set.swapChannelsCore channel_b channel_a },
        cnt + 1)
    else
      (matching, perm, pair, cnt + 1)

/-- Early-exit branching loop of `Node::combine_permuted`: for each
candidate channel, clone the matching, `select` the branch assignment, and
recurse when the propagation stays consistent. -/
def branchLoop {T : Type} (sel : Matching → Nat → Bool × Matching)
    (f : AbstractedPair T → Matching → Except (AbstractedPair T) (AbstractedPair T)) :
    List Nat → AbstractedPair T → Matching →
      Except (AbstractedPair T) (AbstractedPair T)
  | [], pair, _ => .error pair
  | c :: rest, pair, matching =>
    match sel matching c with
    | (true, _) => branchLoop sel f rest pair matching
    | (false, next_matching) =>
      match f pair next_matching with
      | .ok r => .ok r
      | .error pair' => branchLoop sel f rest pair' matching

/-- First minimum of a `(count, channel)` list under the lexicographic pair
order, embedding `Iterator::min`. -/
def minPairList (l : List (Nat × Nat)) : Option (Nat × Nat) :=
  l.foldl
    (fun best p =>
      match best with
      | none => some p
      | some b => if p.1 < b.1 ∨ (p.1 = b.1 ∧ p.2 < b.2) then some p else best)
    none

/-- `Node::combine_permuted` (fuelled; exhausted fuel rejects with the query
unchanged).  Success returns the node pair with the combined payload;
rejection returns the query pair with its entry abstraction and output set
restored. -/
def combinePermuted {T : Type} [SubsumeIndexItem T] :
    Nat → AbstractedPair T → AbstractedPair T → List Nat → Matching →
      Except (AbstractedPair T) (AbstractedPair T)
  | 0, _, pair, _, _ => .error pair
  | fuel + 1, node_pair, pair, perm, matching =>
    let channels := node_pair.output_set.channels
    let orig_abstraction := pair.abstraction
    let orig_output_set := pair.output_set
    let rot := (List.range channels).foldl rotationStep (matching, perm, pair, 0)
    let matching2 := rot.1
    let perm2 := rot.2.1
    let pair2 := rot.2.2.1
    let unique_matched := rot.2.2.2
    let attempt :=
      if unique_matched = channels then
        if node_pair.output_set.subsumes pair2.output_set then
          Except.ok { node_pair with item := (SubsumeIndexItem.combine
            node_pair.item perm2 pair2.item) }
        else
          Except.error pair2
      else
        match minPairList (((List.range channels).map
              (fun a => (popCount (matching2.matchesAAt a), a))).filter
                (fun p => p.1 > 1)),
            minPairList (((List.range channels).map
              (fun a => (popCount (matching2.matchesAAt a), a))).filter
                (fun p => p.1 > 1)) with
        | some (count_a, channel_a), some (count_b, channel_b) =>
          if count_a < count_b then
            branchLoop (fun m cb => Matching.select fuel m channel_a cb)
              (fun pr mt => combinePermuted fuel node_pair pr perm2 mt)
              (List.range channels) pair2 matching2
          else
            branchLoop (fun m ca => Matching.select fuel m ca channel_b)
              (fun pr mt => combinePermuted fuel node_pair pr perm2 mt)
              (List.range channels) pair2 matching2
        | _, _ => Except.error pair2
    match attempt with
    | .ok r => .ok r
    | .error pairF =>
      .error { pairF with
        abstraction := orig_abstraction,
        output_set := orig_output_set }

/-- `Node::combine_with_subsuming_rec`: filter the matching through the
node's aggregated abstraction, then test the leaf pair or recurse
left-then-right. -/
def Node.combineWithSubsumingRec {T : Type} [SubsumeIndexItem T] (fuel : Nat) :
    Node T → AbstractedPair T → Matching → Except (AbstractedPair T) (Node T)
  | node, pair, matching =>
    match Matching.filter fuel
        (fun node_channel pair_channel =>
          (node.nodeAbstraction).channelLeCore node_channel pair.abstraction
            pair_channel)
        matching with
    | (true, _) => .error pair
    | (false, matching2) =>
      match node with
      | .Leaf node_pair =>
        let perm := List.range node_pair.output_set.channels
        match combinePermuted fuel node_pair pair perm matching2 with
        | .ok node_pair' => .ok (.Leaf node_pair')
        | .error p => .error p
      | .Inner abstraction child_0 child_1 len =>
        match Node.combineWithSubsumingRec fuel child_0 pair matching2 with
        | .ok child_0' => .ok (.Inner abstraction child_0' child_1 len)
        | .error pair' =>
          match Node.combineWithSubsumingRec fuel child_1 pair' matching2 with
          | .ok child_1' => .ok (.Inner abstraction child_0 child_1' len)
          | .error p => .error p

/-- `Node::combine_with_subsuming`. -/
def Node.combine_with_subsuming {T : Type} [SubsumeIndexItem T] (fuel : Nat)
    (node : Node T) (pair : AbstractedPair T) :
    Except (AbstractedPair T) (Node T) :=
  Node.combineWithSubsumingRec fuel node pair
    (Matching.new pair.output_set.channels)

/-- `struct SubsumeIndex<T>`: ordered list of trees plus total size. -/
structure SubsumeIndex (T : Type) where
  trees : List (Node T)
  len : Nat
  deriving Repr

/-- `SubsumeIndex::default`. -/
def SubsumeIndex.empty (T : Type) : SubsumeIndex T := ⟨[], 0⟩

/-- `SubsumeIndex::combine_with_subsuming`: try every tree oldest to
newest. -/
def combineTreesList {T : Type} [SubsumeIndexItem T] (fuel : Nat) :
    List (Node T) → AbstractedPair T → Except (AbstractedPair T) (List (Node T))
  | [], pair => .error pair
  | t :: rest, pair =>
    match Node.combine_with_subsuming fuel t pair with
    | .ok t' => .ok (t' :: rest)
    | .error pair' =>
      match combineTreesList fuel rest pair' with
      | .ok rest' => .ok (t :: rest')
      | .error p => .error p

def SubsumeIndex.combineWithSubsuming {T : Type} [SubsumeIndexItem T]
    (fuel : Nat) (idx : SubsumeIndex T) (pair : AbstractedPair T) :
    Except (AbstractedPair T) (SubsumeIndex T) :=
  match combineTreesList fuel idx.trees pair with
  | .ok trees' => .ok ⟨trees', idx.len⟩
  | .error p => .error p

/-- One iteration of the `merge_trees` loop body: pop the two tail trees,
drain the second-last tree cross-pruning every pair against the last tree,
drain the last tree's remainder, and rebuild one tree from the result. -/
def SubsumeIndex.mergeStep {T : Type} [SubsumeIndexItem T] (searchFuel : Nat)
    (idx : SubsumeIndex T) : SubsumeIndex T :=
  match idx.trees.getLast?, idx.trees.dropLast.getLast? with
  | some last_tree, some second_last_tree =>
    let front := idx.trees.dropLast.dropLast
    let len1 := idx.len - last_tree.nodeLen - second_last_tree.nodeLen
    let drained := second_last_tree.drainPairs.foldl
      (fun st pair =>
        match Node.combine_with_subsuming searchFuel st.1 pair with
        | .ok t' => (t', st.2)
        | .error p => (st.1, st.2 ++ [p]))
      (last_tree, ([] : List (AbstractedPair T)))
    let pairs := drained.2 ++ drained.1.drainPairs
    match Node.new pairs with
    | some new_tree => ⟨front ++ [new_tree], len1 + new_tree.nodeLen⟩
    | none => ⟨front, len1⟩
  | _, _ => idx

/-- The tail-size condition `trees[trees.len()-2].len() >
trees[trees.len()-1].len()` tested by `merge_trees`. -/
def SubsumeIndex.tailSizeGt {T : Type} (idx : SubsumeIndex T) : Bool :=
  match idx.trees.getLast?, idx.trees.dropLast.getLast? with
  | some last_tree, some second_last_tree =>
    decide (second_last_tree.nodeLen > last_tree.nodeLen)
  | _, _ => false

/-- `SubsumeIndex::merge_trees` loop (fuelled by the tree count, which
strictly decreases at every iteration). -/
def SubsumeIndex.mergeTreesGo {T : Type} [SubsumeIndexItem T]
    (searchFuel : Nat) (all : Bool) : Nat → SubsumeIndex T → SubsumeIndex T
  | 0, idx => idx
  | fuel + 1, idx =>
    if idx.trees.length ≥ 2 then
      if all = false ∧ idx.tailSizeGt = true then idx
      else SubsumeIndex.mergeTreesGo searchFuel all fuel
        (idx.mergeStep searchFuel)
    else idx

/-- `SubsumeIndex::merge_trees`. -/
def SubsumeIndex.merge_trees {T : Type} [SubsumeIndexItem T]
    (searchFuel : Nat) (all : Bool) (idx : SubsumeIndex T) : SubsumeIndex T :=
  SubsumeIndex.mergeTreesGo searchFuel all idx.trees.length idx

/-- `SubsumeIndex::insert`. -/
def SubsumeIndex.insert {T : Type} [SubsumeIndexItem T] (searchFuel : Nat)
    (idx : SubsumeIndex T) (pair : AbstractedPair T) : SubsumeIndex T :=
  match idx.combineWithSubsuming searchFuel pair with
  | .ok idx' => idx'
  | .error pair' =>
    SubsumeIndex.merge_trees searchFuel false
      ⟨idx.trees ++ [Node.Leaf pair'], idx.len + 1⟩

/-- `SubsumeIndex::subsume_all`. -/
def SubsumeIndex.subsume_all {T : Type} [SubsumeIndexItem T]
    (searchFuel : Nat) (idx : SubsumeIndex T) : SubsumeIndex T :=
  idx.merge_trees searchFuel true

/-- `SubsumeIndex::drain_using`, as the list of drained pairs. -/
def SubsumeIndex.drainPairs {T : Type} (idx : SubsumeIndex T) :
    List (AbstractedPair T) :=
  (idx.trees.map Node.drainPairs).flatten

theorem mergeStep_length {T : Type} [SubsumeIndexItem T] (searchFuel : Nat)
    (idx : SubsumeIndex T) (h : 2 ≤ idx.trees.length) :
    (idx.mergeStep searchFuel).trees.length ≤ idx.trees.length - 1 := by
  have h1 : idx.trees ≠ [] := by
    intro h0
    rw [h0] at h
    simp at h
  obtain ⟨t2, ht2⟩ := Option.isSome_iff_exists.1 (List.getLast?_isSome.2 h1)
  have h2 : idx.trees.dropLast ≠ [] := by
    have hd : idx.trees.dropLast.length = idx.trees.length - 1 :=
      List.length_dropLast _
    intro h0
    rw [h0] at hd
    simp at hd
    omega
  obtain ⟨t1, ht1⟩ := Option.isSome_iff_exists.1 (List.getLast?_isSome.2 h2)
  rw [SubsumeIndex.mergeStep, ht2, ht1]
  simp only []
  split
  · simp only [List.length_append, List.length_dropLast, List.length_cons,
      List.length_nil]
    omega
  · simp only [List.length_dropLast]
    omega

theorem mergeTreesGo_zero {T : Type} [SubsumeIndexItem T] (searchFuel : Nat)
    (all : Bool) (idx : SubsumeIndex T) :
    SubsumeIndex.mergeTreesGo searchFuel all 0 idx = idx := rfl

theorem mergeTreesGo_succ {T : Type} [SubsumeIndexItem T] (searchFuel : Nat)
    (all : Bool) (fuel : Nat) (idx : SubsumeIndex T) :
    SubsumeIndex.mergeTreesGo searchFuel all (fuel + 1) idx =
      if idx.trees.length ≥ 2 then
        if all = false ∧ idx.tailSizeGt = true then idx
        else SubsumeIndex.mergeTreesGo searchFuel all fuel
          (idx.mergeStep searchFuel)
      else idx := rfl

theorem mergeTreesGo_fuel {T : Type} [SubsumeIndexItem T] (searchFuel : Nat)
    (all : Bool) : ∀ (fuel fuel' : Nat) (idx : SubsumeIndex T),
    idx.trees.length ≤ fuel → idx.trees.length ≤ fuel' →
    SubsumeIndex.mergeTreesGo searchFuel all fuel idx =
      SubsumeIndex.mergeTreesGo searchFuel all fuel' idx := by
  intro fuel
  induction fuel with
  | zero =>
    intro fuel' idx h h'
    match fuel' with
    | 0 => rfl
    | fuel' + 1 =>
      show _ = SubsumeIndex.mergeTreesGo searchFuel all (fuel' + 1) idx
      rw [mergeTreesGo_succ, if_neg (by omega)]
      rfl
  | succ fuel ih =>
    intro fuel' idx h h'
    match fuel' with
    | 0 =>
      show SubsumeIndex.mergeTreesGo searchFuel all (fuel + 1) idx = idx
      rw [mergeTreesGo_succ, if_neg (by omega)]
    | fuel' + 1 =>
      rw [mergeTreesGo_succ, mergeTreesGo_succ]
      by_cases hlen : idx.trees.length ≥ 2
      · rw [if_pos hlen, if_pos hlen]
        by_cases hcond : all = false ∧ idx.tailSizeGt = true
        · rw [if_pos hcond, if_pos hcond]
        · rw [if_neg hcond, if_neg hcond]
          have hstep := mergeStep_length searchFuel idx hlen
          exact ih fuel' _ (by omega) (by omega)
      · rw [if_neg hlen, if_neg hlen]

theorem merge_trees_small {T : Type} [SubsumeIndexItem T] (searchFuel : Nat)
    (all : Bool) (idx : SubsumeIndex T) (h : idx.trees.length < 2) :
    SubsumeIndex.merge_trees searchFuel all idx = idx := by
  rw [SubsumeIndex.merge_trees]
  match hl : idx.trees.length with
  | 0 => rfl
  | 1 =>
    rw [mergeTreesGo_succ, if_neg (by omega)]
  | n + 2 => omega

theorem merge_trees_stop {T : Type} [SubsumeIndexItem T] (searchFuel : Nat)
    (idx : SubsumeIndex T) (h : 2 ≤ idx.trees.length)
    (hgt : idx.tailSizeGt = true) :
    SubsumeIndex.merge_trees searchFuel false idx = idx := by
  rw [SubsumeIndex.merge_trees]
  match hl : idx.trees.length with
  | 0 => rfl
  | 1 => omega
  | n + 2 =>
    rw [mergeTreesGo_succ, if_pos (by omega), if_pos ⟨rfl, hgt⟩]

theorem merge_trees_step {T : Type} [SubsumeIndexItem T] (searchFuel : Nat)
    (idx : SubsumeIndex T) (h : 2 ≤ idx.trees.length)
    (hgt : idx.tailSizeGt = false) :
    SubsumeIndex.merge_trees searchFuel false idx =
      SubsumeIndex.merge_trees searchFuel false (idx.mergeStep searchFuel) := by
  rw [SubsumeIndex.merge_trees, SubsumeIndex.merge_trees]
  match hl : idx.trees.length with
  | 0 => omega
  | 1 => omega
  | n + 2 =>
    rw [mergeTreesGo_succ, if_pos (by omega),
      if_neg (by rw [hgt]; simp)]
    apply mergeTreesGo_fuel
    · have := mergeStep_length searchFuel idx h
      omega
    · exact le_rfl

theorem except_restore_shape {T : Type}
    (e : Except (AbstractedPair T) (AbstractedPair T)) (A : Abstraction)
    (B : OutputSet) (p : AbstractedPair T)
    (h : (match e with
          | .ok r => Except.ok r
          | .error pairF =>
            Except.error { pairF with abstraction := A, output_set := B }) =
        Except.error p) :
    p.abstraction = A ∧ p.output_set = B := by
  match e with
  | .ok r => cases h
  | .error f =>
    have h2 : ({ f with abstraction := A, output_set := B } :
        AbstractedPair T) = p := by
      cases h
      rfl
    rw [← h2]
    exact ⟨rfl, rfl⟩

/-- On every rejection path, `combine_permuted` hands back the query with
the abstraction and output set it entered with. -/
theorem combinePermuted_restores {T : Type} [SubsumeIndexItem T] :
    ∀ (fuel : Nat) (node_pair pair : AbstractedPair T) (perm : List Nat)
      (matching : Matching) (p : AbstractedPair T),
    combinePermuted fuel node_pair pair perm matching = .error p →
    p.abstraction = pair.abstraction ∧ p.output_set = pair.output_set := by
  intro fuel node_pair pair perm matching p h
  match fuel with
  | 0 =>
    have h0 : combinePermuted 0 node_pair pair perm matching =
        Except.error pair := rfl
    rw [h0] at h
    cases h
    exact ⟨rfl, rfl⟩
  | fuel + 1 =>
    exact except_restore_shape _ _ _ _ h

/-- On every rejection path, `combine_with_subsuming_rec` hands back the
query with the abstraction and output set it entered with. -/
theorem combineWithSubsumingRec_restores {T : Type} [SubsumeIndexItem T]
    (fuel : Nat) : ∀ (node : Node T) (pair : AbstractedPair T)
      (matching : Matching) (p : AbstractedPair T),
    Node.combineWithSubsumingRec fuel node pair matching = .error p →
    p.abstraction = pair.abstraction ∧ p.output_set = pair.output_set := by
  intro node
  induction node with
  | Leaf node_pair =>
    intro pair matching p h
    rw [Node.combineWithSubsumingRec] at h
    split at h
    · cases h
      exact ⟨rfl, rfl⟩
    · rename_i m2 hfil
      have h' : (match combinePermuted fuel node_pair pair
            (List.range node_pair.output_set.channels) m2 with
          | Except.ok node_pair' => Except.ok (Node.Leaf node_pair')
          | Except.error p => Except.error p) = Except.error p := h
      cases hc : combinePermuted fuel node_pair pair
          (List.range node_pair.output_set.channels) m2 with
      | ok r =>
        rw [hc] at h'
        cases h'
      | error p' =>
        rw [hc] at h'
        simp only [Except.error.injEq] at h'
        subst h'
        exact combinePermuted_restores fuel node_pair pair _ m2 p' hc
  | Inner abstraction child_0 child_1 len ih0 ih1 =>
    intro pair matching p h
    rw [Node.combineWithSubsumingRec] at h
    split at h
    · cases h
      exact ⟨rfl, rfl⟩
    · rename_i m2 hfil
      have h' : (match Node.combineWithSubsumingRec fuel child_0 pair m2 with
          | Except.ok child_0' =>
            Except.ok (Node.Inner abstraction child_0' child_1 len)
          | Except.error pair' =>
            match Node.combineWithSubsumingRec fuel child_1 pair' m2 with
            | Except.ok child_1' =>
              Except.ok (Node.Inner abstraction child_0 child_1' len)
            | Except.error p => Except.error p) = Except.error p := h
      cases hc0 : Node.combineWithSubsumingRec fuel child_0 pair m2 with
      | ok r =>
        rw [hc0] at h'
        cases h'
      | error pair' =>
        rw [hc0] at h'
        have h2 : (match Node.combineWithSubsumingRec fuel child_1 pair' m2 with
            | Except.ok child_1' =>
              Except.ok (Node.Inner abstraction child_0 child_1' len)
            | Except.error p => Except.error p) = Except.error p := h'
        cases hc1 : Node.combineWithSubsumingRec fuel child_1 pair' m2 with
        | ok r =>
          rw [hc1] at h2
          cases h2
        | error p'' =>
          rw [hc1] at h2
          simp only [Except.error.injEq] at h2
          subst h2
          have h1 := ih1 pair' m2 p'' hc1
          have h0 := ih0 pair m2 pair' hc0
          exact ⟨h1.1.trans h0.1, h1.2.trans h0.2⟩

/-- `Node::combine_with_subsuming` restores the query on rejection. -/
theorem combineWithSubsuming_restores {T : Type} [SubsumeIndexItem T]
    (fuel : Nat) (node : Node T) (pair p : AbstractedPair T)
    (h : Node.combine_with_subsuming fuel node pair = .error p) :
    p.abstraction = pair.abstraction ∧ p.output_set = pair.output_set :=
  combineWithSubsumingRec_restores fuel node pair _ p h

/-- A payload that records the permutation handed to `combine` on
acceptance; an instance of the parametric payload interface used to observe
which permutation the search commits to. -/
instance : SubsumeIndexItem (List Nat) :=
  ⟨fun _ perm _ => perm⟩

/-- Modelled from the spec: the branch step as the specification words it
("scan A-rows with popcount > 1, pick the one with minimum popcount (tie:
smallest index); for each candidate B-channel still allowed in that row,
clone the matching, apply select, and recurse").  Identical to
`combinePermuted` everywhere else; the branch step always fixes the minimum
A-row as `channel_a` and iterates the select over B-channels, exactly the
`count_a < count_b` arm of the source. -/
def combinePermutedSpecBranch {T : Type} [SubsumeIndexItem T] :
    Nat → AbstractedPair T → AbstractedPair T → List Nat → Matching →
      Except (AbstractedPair T) (AbstractedPair T)
  | 0, _, pair, _, _ => .error pair
  | fuel + 1, node_pair, pair, perm, matching =>
    let channels := node_pair.output_set.channels
    let orig_abstraction := pair.abstraction
    let orig_output_set := pair.output_set
    let rot := (List.range channels).foldl rotationStep (matching, perm, pair, 0)
    let matching2 := rot.1
    let perm2 := rot.2.1
    let pair2 := rot.2.2.1
    let unique_matched := rot.2.2.2
    let attempt :=
      if unique_matched = channels then
        if node_pair.output_set.subsumes pair2.output_set then
          Except.ok { node_pair with item := (SubsumeIndexItem.combine
            node_pair.item perm2 pair2.item) }
        else
          Except.error pair2
      else
        match minPairList (((List.range channels).map
              (fun a => (popCount (matching2.matchesAAt a), a))).filter
                (fun p => p.1 > 1)) with
        | some (_, channel_a) =>
          branchLoop (fun m cb => Matching.select fuel m channel_a cb)
            (fun pr mt => combinePermutedSpecBranch fuel node_pair pr perm2 mt)
            (List.range channels) pair2 matching2
        | none => Except.error pair2
    match attempt with
    | .ok r => .ok r
    | .error pairF =>
      .error { pairF with
        abstraction := orig_abstraction,
        output_set := orig_output_set }

/-- A stored node pair whose output set is subsumed by every channel
permutation of the query below: `{000, 111}` is a subset of every
permutation image of the full cube. -/
def c4Node : AbstractedPair (List Nat) :=
  AbstractedPair.new (OutputSet.mk 3 [0, 7]) []

/-- The width-3 identity output set as a query pair. -/
def c4Query : AbstractedPair (List Nat) :=
  AbstractedPair.new (OutputSet.mk 3 [0, 1, 2, 3, 4, 5, 6, 7]) []

/-- A consistent matching state (rows `{0,2}, {0,1}, {0,1}` on side A) under
which the two branching strategies accept different permutations. -/
def c4Matching : Matching :=
  ⟨[5, 3, 3], [7, 6, 1], false⟩

/-- Two width-3 output sets of equal size with different popcount
multisets: neither subsumes any channel permutation of the other. -/
def c5PairA : AbstractedPair Nat :=
  AbstractedPair.new (OutputSet.mk 3 [0, 1, 2, 3, 4, 7]) 1

def c5PairB : AbstractedPair Nat :=
  AbstractedPair.new (OutputSet.mk 3 [0, 1, 2, 3, 5, 7]) 1

/-- An index state holding two singleton trees of equal size 1, as produced
by two inserts of incomparable pairs. -/
def c5Idx : SubsumeIndex Nat :=
  ⟨[Node.Leaf c5PairA, Node.Leaf c5PairB], 2⟩

/-! ## Semantic characterizations used for the subsume-index development -/

theorem subsumesGo_spec : ∀ (ys xs : List Nat), xs.length ≤ ys.length →
    List.Sorted (· < ·) xs → List.Sorted (· < ·) ys →
    (OutputSet.subsumesGo xs ys (ys.length - xs.length) = true ↔ xs ⊆ ys) := by
  intro ys
  induction ys with
  | nil =>
    intro xs hlen _ _
    match xs with
    | [] => simp [OutputSet.subsumesGo]
    | x :: xs => simp at hlen
  | cons y ys ih =>
    intro xs hlen hxs hys
    match xs with
    | [] => simp [OutputSet.subsumesGo]
    | x :: xs =>
      simp only [OutputSet.subsumesGo]
      by_cases hyx : y = x
      · subst hyx
        rw [if_pos rfl]
        have hlen2 : xs.length ≤ ys.length := by
          simp only [List.length_cons] at hlen
          omega
        have hslack : (y :: ys).length - (y :: xs).length =
            ys.length - xs.length := by
          simp only [List.length_cons]
          omega
        rw [hslack, ih xs hlen2 (List.sorted_cons.1 hxs).2
          (List.sorted_cons.1 hys).2]
        constructor
        · intro hsub
          intro z hz
          rcases List.mem_cons.1 hz with rfl | hz
          · exact List.mem_cons_self _ _
          · exact List.mem_cons_of_mem _ (hsub hz)
        · intro hsub z hz
          have hzy : y < z := (List.sorted_cons.1 hxs).1 z hz
          rcases List.mem_cons.1 (hsub (List.mem_cons_of_mem _ hz)) with rfl | h2
          · omega
          · exact h2
      · rw [if_neg hyx]
        by_cases hgt : y > x
        · rw [if_pos hgt]
          constructor
          · intro h
            cases h
          · intro hsub
            exfalso
            have hx : x ∈ y :: ys := hsub (List.mem_cons_self _ _)
            rcases List.mem_cons.1 hx with rfl | hx
            · omega
            · have := (List.sorted_cons.1 hys).1 x hx
              omega
        · rw [if_neg hgt]
          have hylt : y < x := by omega
          by_cases hslack : (y :: ys).length - (x :: xs).length = 0
          · rw [if_pos hslack]
            constructor
            · intro h
              cases h
            · intro hsub
              exfalso
              have hnodup : (x :: xs).Nodup := hxs.nodup
              have hsp := List.subperm_of_subset hnodup hsub
              have hlen2 := hsp.length_le
              have heq : (x :: xs).length = (y :: ys).length := by omega
              have hperm : (x :: xs).Perm (y :: ys) :=
                hsp.perm_of_length_le (by omega)
              have hy : y ∈ x :: xs := hperm.mem_iff.2 (List.mem_cons_self _ _)
              rcases List.mem_cons.1 hy with rfl | hy
              · omega
              · have := (List.sorted_cons.1 hxs).1 y hy
                omega
          · rw [if_neg hslack]
            have hlen2 : (x :: xs).length ≤ ys.length := by
              simp only [List.length_cons] at hlen hslack ⊢
              omega
            have hslack2 : (y :: ys).length - (x :: xs).length - 1 =
                ys.length - (x :: xs).length := by
              simp only [List.length_cons]
              omega
            rw [hslack2, ih (x :: xs) hlen2 hxs (List.sorted_cons.1 hys).2]
            constructor
            · intro hsub z hz
              exact List.mem_cons_of_mem _ (hsub hz)
            · intro hsub z hz
              rcases List.mem_cons.1 (hsub hz) with rfl | h2
              · exfalso
                have hzx : z = x ∨ z ∈ xs := List.mem_cons.1 hz
                rcases hzx with rfl | hzx
                · omega
                · have := (List.sorted_cons.1 hxs).1 z hzx
                  omega
              · exact h2

/-- `OutputSet::subsumes` decides list containment on sorted value lists. -/
theorem subsumes_iff_subset (s t : OutputSet)
    (hs : List.Sorted (· < ·) s.values) (ht : List.Sorted (· < ·) t.values) :
    (s.subsumes t = true) ↔ s.values ⊆ t.values := by
  rw [OutputSet.subsumes]
  by_cases hlen : t.values.length < s.values.length
  · rw [if_pos hlen]
    constructor
    · intro h
      cases h
    · intro hsub
      exfalso
      have := (List.subperm_of_subset hs.nodup hsub).length_le
      omega
  · rw [if_neg hlen]
    exact subsumesGo_spec t.values s.values (by omega) hs ht

theorem merge3AscGo_mem : ∀ (fuel : Nat) (xs ys zs : List Nat),
    (∀ v ∈ xs, v < 65535) → (∀ v ∈ ys, v < 65535) → (∀ v ∈ zs, v < 65535) →
    xs.length + ys.length + zs.length ≤ fuel →
    ∀ u, (u ∈ merge3AscGo fuel xs ys zs ↔ u ∈ xs ∨ u ∈ ys ∨ u ∈ zs) := by
  intro fuel
  induction fuel with
  | zero =>
    intro xs ys zs hx hy hz hlen u
    match xs, ys, zs with
    | [], [], [] => simp [merge3AscGo]
    | x :: xs, _, _ => simp at hlen
    | [], y :: ys, _ => simp at hlen
    | [], [], z :: zs => simp at hlen
  | succ fuel ih =>
    intro xs ys zs hx hy hz hlen u
    simp only [merge3AscGo]
    by_cases hall : min (min (xs.headD 65535) (ys.headD 65535)) (zs.headD 65535) = 65535
    · rw [if_pos hall]
      have hxe : xs = [] := by
        match xs with
        | [] => rfl
        | x :: xs =>
          exfalso
          have := hx x (by simp)
          simp only [List.headD_cons] at hall
          omega
      have hye : ys = [] := by
        match ys with
        | [] => rfl
        | y :: ys =>
          exfalso
          have := hy y (by simp)
          simp only [List.headD_cons] at hall
          omega
      have hze : zs = [] := by
        match zs with
        | [] => rfl
        | z :: zs =>
          exfalso
          have := hz z (by simp)
          simp only [List.headD_cons] at hall
          omega
      subst hxe hye hze
      simp
    · rw [if_neg hall]
      set xv := xs.headD 65535 with hxv
      set yv := ys.headD 65535 with hyv
      set zv := zs.headD 65535 with hzv
      set value := min (min xv yv) zv with hvalue
      have hlist : ∀ (l : List Nat), ∀ w,
          (w ∈ (if l.headD 65535 = value then l.tail else l) ∨
            (l.headD 65535 = value ∧ w = value)) ↔ w ∈ l := by
        intro l w
        by_cases hh : l.headD 65535 = value
        · rw [if_pos hh]
          match l with
          | [] =>
            simp only [List.headD_nil] at hh
            exact absurd hh.symm (by omega)
          | a :: l =>
            simp only [List.headD_cons] at hh
            subst hh
            simp only [List.tail_cons, List.mem_cons]
            constructor
            · rintro (h | ⟨_, rfl⟩)
              · exact Or.inr h
              · exact Or.inl rfl
            · rintro (rfl | h)
              · exact Or.inr ⟨rfl, rfl⟩
              · exact Or.inl h
        · rw [if_neg hh]
          constructor
          · rintro (h | ⟨hh2, rfl⟩)
            · exact h
            · exact absurd hh2 hh
          · exact fun h => Or.inl h
      have hlen2 : (if xv = value then xs.tail else xs).length +
          (if yv = value then ys.tail else ys).length +
          (if zv = value then zs.tail else zs).length ≤ fuel := by
        have hone : xv = value ∨ yv = value ∨ zv = value := by
          rw [hvalue]
          rcases Nat.le_total xv yv with h1 | h1 <;>
            rcases Nat.le_total (min xv yv) zv with h2 | h2 <;>
              simp [Nat.min_def] at * <;> omega
        have hxne : xv = value → xs ≠ [] := by
          intro hv he
          rw [he] at hxv
          simp only [List.headD_nil] at hxv
          omega
        have hyne : yv = value → ys ≠ [] := by
          intro hv he
          rw [he] at hyv
          simp only [List.headD_nil] at hyv
          omega
        have hzne : zv = value → zs ≠ [] := by
          intro hv he
          rw [he] at hzv
          simp only [List.headD_nil] at hzv
          omega
        have hxt : (if xv = value then xs.tail else xs).length ≤ xs.length := by
          split
          · simp [List.length_tail]
          · exact le_rfl
        have hyt : (if yv = value then ys.tail else ys).length ≤ ys.length := by
          split
          · simp [List.length_tail]
          · exact le_rfl
        have hzt : (if zv = value then zs.tail else zs).length ≤ zs.length := by
          split
          · simp [List.length_tail]
          · exact le_rfl
        rcases hone with hone | hone | hone
        · have hne := hxne hone
          have : (if xv = value then xs.tail else xs).length ≤ xs.length - 1 := by
            rw [if_pos hone]
            simp [List.length_tail]
          have hlx : 1 ≤ xs.length := by
            match xs with
            | [] => exact absurd rfl hne
            | _ :: _ => simp
          omega
        · have hne := hyne hone
          have : (if yv = value then ys.tail else ys).length ≤ ys.length - 1 := by
            rw [if_pos hone]
            simp [List.length_tail]
          have hly : 1 ≤ ys.length := by
            match ys with
            | [] => exact absurd rfl hne
            | _ :: _ => simp
          omega
        · have hne := hzne hone
          have : (if zv = value then zs.tail else zs).length ≤ zs.length - 1 := by
            rw [if_pos hone]
            simp [List.length_tail]
          have hlz : 1 ≤ zs.length := by
            match zs with
            | [] => exact absurd rfl hne
            | _ :: _ => simp
          omega
      have htails : ∀ v, v ∈ (if xv = value then xs.tail else xs) → v < 65535 := by
        intro v hv
        apply hx
        revert hv
        split
        · exact fun hv => List.mem_of_mem_tail hv
        · exact fun hv => hv
      have htails2 : ∀ v, v ∈ (if yv = value then ys.tail else ys) → v < 65535 := by
        intro v hv
        apply hy
        revert hv
        split
        · exact fun hv => List.mem_of_mem_tail hv
        · exact fun hv => hv
      have htails3 : ∀ v, v ∈ (if zv = value then zs.tail else zs) → v < 65535 := by
        intro v hv
        apply hz
        revert hv
        split
        · exact fun hv => List.mem_of_mem_tail hv
        · exact fun hv => hv
      rw [List.mem_cons, ih _ _ _ htails htails2 htails3 hlen2 u]
      have hone : xv = value ∨ yv = value ∨ zv = value := by
        rw [hvalue]
        rcases Nat.le_total xv yv with h1 | h1 <;>
          rcases Nat.le_total (min xv yv) zv with h2 | h2 <;>
            simp [Nat.min_def] at * <;> omega
      rw [← hlist xs u, ← hlist ys u, ← hlist zs u]
      constructor
      · rintro (rfl | h | h | h)
        · rcases hone with h1 | h1 | h1
          · exact Or.inl (Or.inr ⟨h1, rfl⟩)
          · exact Or.inr (Or.inl (Or.inr ⟨h1, rfl⟩))
          · exact Or.inr (Or.inr (Or.inr ⟨h1, rfl⟩))
        · exact Or.inl (Or.inl h)
        · exact Or.inr (Or.inl (Or.inl h))
        · exact Or.inr (Or.inr (Or.inl h))
      · rintro ((h | ⟨_, rfl⟩) | (h | ⟨_, rfl⟩) | (h | ⟨_, rfl⟩))
        · exact Or.inr (Or.inl h)
        · exact Or.inl rfl
        · exact Or.inr (Or.inr (Or.inl h))
        · exact Or.inl rfl
        · exact Or.inr (Or.inr (Or.inr h))
        · exact Or.inl rfl

theorem sorted_lt_tail {l : List Nat} (h : List.Sorted (· < ·) l) :
    List.Sorted (· < ·) l.tail := by
  match l with
  | [] => exact h
  | a :: l => exact (List.sorted_cons.1 h).2

theorem merge3AscGo_sorted : ∀ (fuel : Nat) (xs ys zs : List Nat),
    (∀ v ∈ xs, v < 65535) → (∀ v ∈ ys, v < 65535) → (∀ v ∈ zs, v < 65535) →
    xs.length + ys.length + zs.length ≤ fuel →
    List.Sorted (· < ·) xs → List.Sorted (· < ·) ys →
    List.Sorted (· < ·) zs →
    List.Sorted (· < ·) (merge3AscGo fuel xs ys zs) := by
  intro fuel
  induction fuel with
  | zero =>
    intro xs ys zs _ _ _ hlen _ _ _
    match xs, ys, zs with
    | [], [], [] => simp [merge3AscGo]
    | x :: xs, _, _ => simp at hlen
    | [], y :: ys, _ => simp at hlen
    | [], [], z :: zs => simp at hlen
  | succ fuel ih =>
    intro xs ys zs hx hy hz hlen hsx hsy hsz
    simp only [merge3AscGo]
    by_cases hall : min (min (xs.headD 65535) (ys.headD 65535))
        (zs.headD 65535) = 65535
    · rw [if_pos hall]
      simp
    · rw [if_neg hall]
      set xv := xs.headD 65535 with hxv
      set yv := ys.headD 65535 with hyv
      set zv := zs.headD 65535 with hzv
      set value := min (min xv yv) zv with hvalue
      have hvx : value ≤ xv := le_trans (Nat.min_le_left _ _) (Nat.min_le_left _ _)
      have hvy : value ≤ yv := le_trans (Nat.min_le_left _ _) (Nat.min_le_right _ _)
      have hvz : value ≤ zv := Nat.min_le_right _ _
      have hlen2 : (if xv = value then xs.tail else xs).length +
          (if yv = value then ys.tail else ys).length +
          (if zv = value then zs.tail else zs).length ≤ fuel := by
        have hone : xv = value ∨ yv = value ∨ zv = value := by
          rw [hvalue]
          rcases Nat.le_total xv yv with h1 | h1 <;>
            rcases Nat.le_total (min xv yv) zv with h2 | h2 <;>
              simp [Nat.min_def] at * <;> omega
        have hxt : (if xv = value then xs.tail else xs).length ≤ xs.length := by
          split
          · simp [List.length_tail]
          · exact le_rfl
        have hyt : (if yv = value then ys.tail else ys).length ≤ ys.length := by
          split
          · simp [List.length_tail]
          · exact le_rfl
        have hzt : (if zv = value then zs.tail else zs).length ≤ zs.length := by
          split
          · simp [List.length_tail]
          · exact le_rfl
        rcases hone with hone | hone | hone
        · have hne : xs ≠ [] := by
            intro he
            rw [he] at hxv
            simp only [List.headD_nil] at hxv
            omega
          have h1 : (if xv = value then xs.tail else xs).length ≤ xs.length - 1 := by
            rw [if_pos hone]
            simp [List.length_tail]
          have h2 : 1 ≤ xs.length := by
            match xs with
            | [] => exact absurd rfl hne
            | _ :: _ => simp
          omega
        · have hne : ys ≠ [] := by
            intro he
            rw [he] at hyv
            simp only [List.headD_nil] at hyv
            omega
          have h1 : (if yv = value then ys.tail else ys).length ≤ ys.length - 1 := by
            rw [if_pos hone]
            simp [List.length_tail]
          have h2 : 1 ≤ ys.length := by
            match ys with
            | [] => exact absurd rfl hne
            | _ :: _ => simp
          omega
        · have hne : zs ≠ [] := by
            intro he
            rw [he] at hzv
            simp only [List.headD_nil] at hzv
            omega
          have h1 : (if zv = value then zs.tail else zs).length ≤ zs.length - 1 := by
            rw [if_pos hone]
            simp [List.length_tail]
          have h2 : 1 ≤ zs.length := by
            match zs with
            | [] => exact absurd rfl hne
            | _ :: _ => simp
          omega
      have htailmem : ∀ (l : List Nat), List.Sorted (· < ·) l →
          l.headD 65535 ≥ value → ∀ u,
          u ∈ (if l.headD 65535 = value then l.tail else l) → value < u := by
        intro l hsl hge u hu
        by_cases hh : l.headD 65535 = value
        · rw [if_pos hh] at hu
          match l with
          | [] => simp at hu
          | a :: l =>
            simp only [List.headD_cons] at hh
            subst hh
            exact (List.sorted_cons.1 hsl).1 u hu
        · rw [if_neg hh] at hu
          match l with
          | [] => simp at hu
          | a :: l =>
            simp only [List.headD_cons] at hh hge
            rcases List.mem_cons.1 hu with rfl | hu
            · omega
            · have := (List.sorted_cons.1 hsl).1 u hu
              omega
      have htx : ∀ v, v ∈ (if xv = value then xs.tail else xs) → v < 65535 := by
        intro v hv
        apply hx
        revert hv
        split
        · exact fun hv => List.mem_of_mem_tail hv
        · exact fun hv => hv
      have hty : ∀ v, v ∈ (if yv = value then ys.tail else ys) → v < 65535 := by
        intro v hv
        apply hy
        revert hv
        split
        · exact fun hv => List.mem_of_mem_tail hv
        · exact fun hv => hv
      have htz : ∀ v, v ∈ (if zv = value then zs.tail else zs) → v < 65535 := by
        intro v hv
        apply hz
        revert hv
        split
        · exact fun hv => List.mem_of_mem_tail hv
        · exact fun hv => hv
      refine List.sorted_cons.2 ⟨?_, ?_⟩
      · intro u hu
        rcases (merge3AscGo_mem fuel _ _ _ htx hty htz hlen2 u).1 hu with h | h | h
        · exact htailmem xs hsx hvx u h
        · exact htailmem ys hsy hvy u h
        · exact htailmem zs hsz hvz u h
      · apply ih _ _ _ htx hty htz hlen2
        · split
          · exact sorted_lt_tail hsx
          · exact hsx
        · split
          · exact sorted_lt_tail hsy
          · exact hsy
        · split
          · exact sorted_lt_tail hsz
          · exact hsz

/-! ### Bit-counting bridges -/

theorem testBit_eq_false_of_lt {v N k : Nat} (hv : v < 2 ^ N) (hk : N ≤ k) :
    v.testBit k = false := by
  have h1 : v % 2 ^ N = v := Nat.mod_eq_of_lt hv
  rw [← h1, Nat.testBit_mod_two_pow]
  simp [show ¬ (k < N) by omega]

theorem lt_two_pow_of_testBit_false {v N : Nat}
    (h : ∀ k, N ≤ k → v.testBit k = false) : v < 2 ^ N :=
  Nat.lt_pow_two_of_testBit v h

theorem ne_zero_of_testBit {v k : Nat} (h : v.testBit k = true) : v ≠ 0 := by
  intro h0
  rw [h0, Nat.zero_testBit] at h
  cases h

/-- `popCount` counts the set bits below any width bound covering the value. -/
theorem popCount_eq_countP : ∀ (N v : Nat), v < 2 ^ N →
    popCount v = (List.range N).countP (fun k => v.testBit k) := by
  intro N
  induction N with
  | zero =>
    intro v h
    interval_cases v
    simp [popCount_zero]
  | succ N ih =>
    intro v h
    match v with
    | 0 =>
      simp [popCount_zero, Nat.zero_testBit]
    | v + 1 =>
      rw [popCount_succ, List.range_succ_eq_map, List.countP_cons,
        List.countP_map]
      have h2 : (v + 1) / 2 < 2 ^ N := by
        rw [pow_succ] at h
        omega
      rw [ih _ h2]
      have hpred : (List.range N).countP
            ((fun k => (v + 1).testBit k) ∘ Nat.succ) =
          (List.range N).countP (fun k => ((v + 1) / 2).testBit k) := by
        apply List.countP_congr
        intro k _
        simp only [Function.comp]
        rw [show Nat.succ k = k + 1 from rfl, Nat.testBit_add_one]
      rw [hpred]
      have hbit0 : (if (v + 1).testBit 0 = true then 1 else 0) = (v + 1) % 2 := by
        rw [Nat.testBit_zero]
        rcases Nat.mod_two_eq_zero_or_one (v + 1) with hm | hm <;> simp [hm]
      omega

theorem popCount_le_popCount_of_testBit {N r s : Nat} (hr : r < 2 ^ N)
    (hs : s < 2 ^ N) (h : ∀ k, r.testBit k = true → s.testBit k = true) :
    popCount r ≤ popCount s := by
  rw [popCount_eq_countP N r hr, popCount_eq_countP N s hs]
  exact List.countP_mono_left (fun k _ => h k)

theorem countP_pos_ne {l : List Nat} {p : Nat → Bool} {b : Nat} (hb : b ∈ l)
    (hnd : l.Nodup) (hpb : p b = true) :
    l.countP p = l.countP (fun k => p k && !(k = b)) + 1 := by
  induction l with
  | nil => cases hb
  | cons x xs ih =>
    rw [List.countP_cons, List.countP_cons]
    rcases List.mem_cons.1 hb with rfl | hb2
    · have hx : b ∉ xs := (List.nodup_cons.1 hnd).1
      have hcp : xs.countP p = xs.countP (fun k => p k && !(k = b)) := by
        apply List.countP_congr
        intro k hk
        have hkb : ¬ (k = b) := fun h => hx (h ▸ hk)
        simp [hkb]
      rw [hcp, hpb]
      simp
    · have hxb : ¬ (x = b) := by
        intro h
        subst h
        exact (List.nodup_cons.1 hnd).1 hb2
      rw [ih hb2 (List.nodup_cons.1 hnd).2]
      by_cases hpx : p x = true
      · simp [hpx, hxb]
      · have hpf : p x = false := by
          cases h : p x
          · rfl
          · exact absurd h hpx
        simp [hpf]

/-- Clearing one set bit decreases the popcount by exactly one. -/
theorem popCount_clear_bit {N r s b : Nat} (hr : r < 2 ^ N) (hs : s < 2 ^ N)
    (hb : b < N) (hbit : r.testBit b = true)
    (h : ∀ k, s.testBit k = (r.testBit k && !(k = b))) :
    popCount r = popCount s + 1 := by
  rw [popCount_eq_countP N r hr, popCount_eq_countP N s hs]
  have hcong : (List.range N).countP (fun k => s.testBit k) =
      (List.range N).countP (fun k => r.testBit k && !(k = b)) := by
    apply List.countP_congr
    intro k _
    rw [h k]
  rw [hcong]
  exact countP_pos_ne (List.mem_range.2 hb) (List.nodup_range N) hbit

theorem eq_two_pow_of_popCount_one {N r k : Nat} (hr : r < 2 ^ N)
    (h1 : popCount r = 1) (hk : r.testBit k = true) : r = 2 ^ k := by
  have hkN : k < N := by
    by_contra hge
    rw [testBit_eq_false_of_lt hr (by omega)] at hk
    cases hk
  have hcount : (List.range N).countP (fun j => r.testBit j) = 1 := by
    rw [← popCount_eq_countP N r hr, h1]
  have hfil : ((List.range N).filter (fun j => r.testBit j)).length = 1 := by
    rw [← List.countP_eq_length_filter]
    exact hcount
  have hmem : k ∈ (List.range N).filter (fun j => r.testBit j) :=
    List.mem_filter.2 ⟨List.mem_range.2 hkN, hk⟩
  obtain ⟨x, hx⟩ : ∃ x, (List.range N).filter (fun j => r.testBit j) = [x] := by
    match hcase : (List.range N).filter (fun j => r.testBit j) with
    | [] => rw [hcase] at hfil; cases hfil
    | [x] => exact ⟨x, rfl⟩
    | x :: y :: rest => rw [hcase] at hfil; simp at hfil
  rw [hx] at hmem
  have hxk : x = k := by
    rcases List.mem_singleton.1 hmem with h
    exact h.symm
  subst hxk
  apply Nat.eq_of_testBit_eq
  intro j
  rw [Nat.testBit_two_pow]
  by_cases hj : x = j
  · subst hj
    simp [hk]
  · simp only [hj, decide_False]
    by_cases hjN : j < N
    · by_contra hne
      have hjb : r.testBit j = true := by
        cases hcase : r.testBit j
        · exact absurd hcase hne
        · rfl
      have : j ∈ (List.range N).filter (fun i => r.testBit i) :=
        List.mem_filter.2 ⟨List.mem_range.2 hjN, hjb⟩
      rw [hx] at this
      exact hj (List.mem_singleton.1 this).symm
    · exact testBit_eq_false_of_lt hr (by omega)

theorem popCount_two_pow (k : Nat) : popCount (2 ^ k) = 1 := by
  rw [popCount_eq_countP (k + 1) (2 ^ k) (Nat.pow_lt_pow_right (by omega) (by omega))]
  have : (List.range (k + 1)).countP (fun j => (2 ^ k).testBit j) =
      (List.range (k + 1)).countP (fun j => j = k) := by
    apply List.countP_congr
    intro j _
    rw [Nat.testBit_two_pow]
    rcases Decidable.em (j = k) with h | h
    · simp [h]
    · have h2 : ¬ (k = j) := fun hh => h hh.symm
      simp [h, h2]
  rw [this, List.countP_eq_length_filter]
  have : (List.range (k + 1)).filter (fun j => j = k) = [k] := by
    have h1 : List.range (k + 1) = List.range k ++ [k] := List.range_succ k
    rw [h1, List.filter_append]
    have h2 : (List.range k).filter (fun j => j = k) = [] := by
      apply List.filter_eq_nil_iff.2
      intro j hj
      have hjk := List.mem_range.1 hj
      simp only [decide_eq_true_eq]
      omega
    rw [h2]
    simp
  rw [this]
  rfl

theorem tzGo_fuel_eq : ∀ (fuel fuel' n : Nat), n ≤ fuel → n ≤ fuel' →
    tzGo fuel n = tzGo fuel' n := by
  intro fuel
  induction fuel with
  | zero =>
    intro fuel' n h _
    interval_cases n
    cases fuel' <;> simp [tzGo]
  | succ fuel ih =>
    intro fuel' n h h'
    match fuel', n with
    | 0, n =>
      interval_cases n
      simp [tzGo]
    | fuel' + 1, 0 => simp [tzGo]
    | fuel' + 1, n + 1 =>
      simp only [tzGo]
      by_cases hm : (n + 1) % 2 = 1
      · rw [if_pos hm, if_pos hm]
      · rw [if_neg hm, if_neg hm, if_neg (Nat.succ_ne_zero n),
          if_neg (Nat.succ_ne_zero n), ih fuel' ((n + 1) / 2) (by omega) (by omega)]

theorem trailingZeros_two_pow : ∀ (k : Nat), trailingZeros (2 ^ k) = k := by
  intro k
  induction k with
  | zero =>
    rfl
  | succ k ih =>
    show tzGo (2 ^ (k + 1)) (2 ^ (k + 1)) = k + 1
    have hpos : 1 ≤ 2 ^ (k + 1) := Nat.one_le_two_pow
    obtain ⟨m, hm⟩ : ∃ m, 2 ^ (k + 1) = m + 1 := ⟨2 ^ (k + 1) - 1, by omega⟩
    rw [hm]
    simp only [tzGo]
    have hmod : (m + 1) % 2 = 0 := by
      have : 2 ^ (k + 1) % 2 = 0 := by
        rw [pow_succ, Nat.mul_mod_left]
      omega
    rw [if_neg (by omega), if_neg (by omega)]
    have hdiv : (m + 1) / 2 = 2 ^ k := by
      have : 2 ^ (k + 1) = 2 ^ k * 2 := pow_succ 2 k
      omega
    rw [hdiv, tzGo_fuel_eq m (2 ^ k) (2 ^ k)
      (by have : 2 ^ k < 2 ^ (k + 1) := Nat.pow_lt_pow_right (by omega) (by omega); omega)
      le_rfl]
    have hih : tzGo (2 ^ k) (2 ^ k) = k := ih
    omega

theorem trailingZeros_of_popCount_one {N r k : Nat} (hr : r < 2 ^ N)
    (h1 : popCount r = 1) (hk : r.testBit k = true) : trailingZeros r = k := by
  rw [eq_two_pow_of_popCount_one hr h1 hk, trailingZeros_two_pow]

/-! ### Bit transpositions and channel swaps -/

/-- The transposition exchanging `a` and `b`. -/
def transp (a b k : Nat) : Nat :=
  if k = a then b else if k = b then a else k

theorem transp_transp (a b k : Nat) : transp a b (transp a b k) = k := by
  unfold transp
  by_cases h1 : k = a <;> by_cases h2 : k = b <;>
    by_cases h3 : b = a <;> simp [h1, h2, h3]

theorem transp_lt {W a b k : Nat} (ha : a < W) (hb : b < W) (hk : k < W) :
    transp a b k < W := by
  unfold transp
  split
  · exact hb
  · split
    · exact ha
    · exact hk

theorem transp_left (a b : Nat) : transp a b a = b := by
  simp [transp]

theorem transp_right (a b : Nat) : transp a b b = a := by
  unfold transp
  by_cases h : b = a <;> simp [h]

theorem transp_other {a b k : Nat} (h1 : k ≠ a) (h2 : k ≠ b) :
    transp a b k = k := by
  simp [transp, h1, h2]

theorem transp_eq_of_ge {W a b k : Nat} (ha : a < W) (hb : b < W) (hk : W ≤ k) :
    transp a b k = k :=
  transp_other (by omega) (by omega)

/-- Exchange the bits `a` and `b` of a value: the semantic effect of the
`swap_channels` rewrite on one value. -/
def swapBits (a b v : Nat) : Nat :=
  if v.testBit a = v.testBit b then v else v ^^^ ((1 <<< a) ||| (1 <<< b))

theorem swapBits_testBit (a b v k : Nat) :
    (swapBits a b v).testBit k = v.testBit (transp a b k) := by
  unfold swapBits
  by_cases heq : v.testBit a = v.testBit b
  · rw [if_pos heq]
    unfold transp
    by_cases h1 : k = a
    · subst h1
      rw [if_pos rfl, heq]
    · rw [if_neg h1]
      by_cases h2 : k = b
      · subst h2
        rw [if_pos rfl, heq]
      · rw [if_neg h2]
  · rw [if_neg heq]
    have hab : a ≠ b := by
      intro h
      rw [h] at heq
      exact heq rfl
    rw [Nat.testBit_xor, Nat.testBit_or, shiftLeft_one, shiftLeft_one,
      Nat.testBit_two_pow, Nat.testBit_two_pow]
    by_cases h1 : k = a
    · subst h1
      rw [transp_left]
      have hba : ¬ (b = k) := fun h => hab h.symm
      simp only [decide_True, hba, decide_False, Bool.or_false]
      cases hva : v.testBit k <;> cases hvb : v.testBit b <;> simp_all
    · by_cases h2 : k = b
      · subst h2
        rw [transp_right]
        have hak : ¬ (a = k) := fun h => hab h
        simp only [decide_True, hak, decide_False, Bool.false_or]
        cases hva : v.testBit a <;> cases hvb : v.testBit k <;> simp_all
      · rw [transp_other h1 h2]
        have hak : ¬ (a = k) := fun h => h1 h.symm
        have hbk : ¬ (b = k) := fun h => h2 h.symm
        simp [hak, hbk]

theorem swapBits_lt {W a b v : Nat} (ha : a < W) (hb : b < W)
    (hv : v < 2 ^ W) : swapBits a b v < 2 ^ W := by
  apply lt_two_pow_of_testBit_false
  intro k hk
  rw [swapBits_testBit, transp_eq_of_ge ha hb hk]
  exact testBit_eq_false_of_lt hv hk

theorem swapBits_swapBits {a b v : Nat} : swapBits a b (swapBits a b v) = v := by
  apply Nat.eq_of_testBit_eq
  intro k
  rw [swapBits_testBit, swapBits_testBit, transp_transp]

theorem and_mask_eq_a_iff {a b v : Nat} (hab : a ≠ b) :
    (v &&& ((1 <<< a) ||| (1 <<< b)) = 1 <<< a) ↔
      (v.testBit a = true ∧ v.testBit b = false) := by
  simp only [shiftLeft_one]
  constructor
  · intro h
    have hta := congrArg (fun x => x.testBit a) h
    have htb := congrArg (fun x => x.testBit b) h
    simp only [Nat.testBit_and, Nat.testBit_or, Nat.testBit_two_pow] at hta htb
    have hba : ¬ (b = a) := fun hh => hab hh.symm
    simp only [decide_True, hba, decide_False, Bool.or_false, Bool.and_true] at hta
    simp only [hab, decide_False, decide_True, Bool.false_or, Bool.and_true,
      Bool.or_true] at htb
    refine ⟨hta, ?_⟩
    cases hvb : v.testBit b
    · rfl
    · rw [hvb] at htb
      cases htb
  · rintro ⟨hta, htb⟩
    apply Nat.eq_of_testBit_eq
    intro j
    simp only [Nat.testBit_and, Nat.testBit_or, Nat.testBit_two_pow]
    by_cases hja : a = j
    · subst hja
      simp [hta]
    · by_cases hjb : b = j
      · subst hjb
        simp [htb, hja]
      · simp [hja, hjb]

theorem and_mask_eq_b_iff {a b v : Nat} (hab : a ≠ b) :
    (v &&& ((1 <<< a) ||| (1 <<< b)) = 1 <<< b) ↔
      (v.testBit a = false ∧ v.testBit b = true) := by
  have h1 : (1 <<< a) ||| (1 <<< b) = (1 <<< b) ||| (1 <<< a) := Nat.or_comm _ _
  rw [h1, and_mask_eq_a_iff (fun h => hab h.symm)]
  tauto

theorem and_mask_other {a b v : Nat} (hab : a ≠ b)
    (hna : ¬ (v &&& ((1 <<< a) ||| (1 <<< b)) = 1 <<< a))
    (hnb : ¬ (v &&& ((1 <<< a) ||| (1 <<< b)) = 1 <<< b)) :
    v.testBit a = v.testBit b := by
  cases hta : v.testBit a <;> cases htb : v.testBit b
  · rfl
  · exact absurd (and_mask_eq_b_iff hab |>.2 ⟨hta, htb⟩) hnb
  · exact absurd (and_mask_eq_a_iff hab |>.2 ⟨hta, htb⟩) hna
  · rfl

theorem swapBits_of_ne {a b v : Nat} (h : v.testBit a ≠ v.testBit b) :
    swapBits a b v = v ^^^ ((1 <<< a) ||| (1 <<< b)) := by
  rw [swapBits, if_neg h]

theorem swapBits_of_eq {a b v : Nat} (h : v.testBit a = v.testBit b) :
    swapBits a b v = v := by
  rw [swapBits, if_pos h]

theorem mask_lt_two_pow {a b W : Nat} (ha : a < W) (hb : b < W) :
    (1 <<< a) ||| (1 <<< b) < 2 ^ W := by
  rw [shiftLeft_one, shiftLeft_one]
  exact Nat.or_lt_two_pow (Nat.pow_lt_pow_right (by omega) ha)
    (Nat.pow_lt_pow_right (by omega) hb)

theorem swapChannelsCore_channels (s : OutputSet) (a b : Nat) :
    (s.swapChannelsCore a b).channels = s.channels := by
  rw [OutputSet.swapChannelsCore]
  split <;> rfl

/-- `OutputSet::swap_channels` computes exactly the image of the value list
under the bit transposition `swapBits a b`, re-sorted. -/
theorem swapChannelsCore_values {s : OutputSet} {a b : Nat}
    (hs : List.Sorted (· < ·) s.values)
    (hbound : ∀ v ∈ s.values, v < 2 ^ s.channels)
    (hch : s.channels ≤ 15) (ha : a < s.channels) (hb : b < s.channels) :
    List.Sorted (· < ·) (s.swapChannelsCore a b).values ∧
    (∀ z, z ∈ (s.swapChannelsCore a b).values ↔
      ∃ v ∈ s.values, z = swapBits a b v) := by
  have hb65 : ∀ v, v < 2 ^ s.channels → v < 65535 := by
    intro v hv
    have h1 : (2 : Nat) ^ s.channels ≤ 2 ^ 15 := Nat.pow_le_pow_right (by omega) hch
    have h2 : (2 : Nat) ^ 15 = 32768 := by norm_num
    omega
  by_cases hab : a = b
  · subst hab
    rw [OutputSet.swapChannelsCore, if_pos rfl]
    refine ⟨hs, ?_⟩
    intro z
    constructor
    · intro hz
      exact ⟨z, hz, (swapBits_of_eq rfl).symm⟩
    · rintro ⟨v, hv, rfl⟩
      rw [swapBits_of_eq rfl]
      exact hv
  · rw [OutputSet.swapChannelsCore, if_neg hab]
    simp only []
    set mask_a := 1 <<< a with hmaska
    set mask_b := 1 <<< b with hmaskb
    set mask := mask_a ||| mask_b with hmask
    set swA := (s.values.filter (fun v => v &&& mask = mask_a)).map
      (fun v => v ^^^ mask) with hswA
    set swB := (s.values.filter
      (fun v => ¬(v &&& mask = mask_a) ∧ v &&& mask = mask_b)).map
      (fun v => v ^^^ mask) with hswB
    set kp := s.values.filter
      (fun v => ¬(v &&& mask = mask_a) ∧ ¬(v &&& mask = mask_b)) with hkp
    have hmasklt : mask < 2 ^ s.channels := mask_lt_two_pow ha hb
    have hxb : ∀ v, v < 2 ^ s.channels → v ^^^ mask < 2 ^ s.channels := by
      intro v hv
      exact Nat.xor_lt_two_pow hv hmasklt
    have hbA : ∀ v ∈ swA, v < 65535 := by
      intro v hv
      rw [hswA] at hv
      rcases List.mem_map.1 hv with ⟨u, hu, rfl⟩
      exact hb65 _ (hxb u (hbound u (List.mem_filter.1 hu).1))
    have hbB : ∀ v ∈ swB, v < 65535 := by
      intro v hv
      rw [hswB] at hv
      rcases List.mem_map.1 hv with ⟨u, hu, rfl⟩
      exact hb65 _ (hxb u (hbound u (List.mem_filter.1 hu).1))
    have hbK : ∀ v ∈ kp, v < 65535 := by
      intro v hv
      exact hb65 _ (hbound v (List.mem_filter.1 hv).1)
    have hsA : List.Sorted (· < ·) swA := by
      rw [hswA]
      apply List.pairwise_map.2
      refine List.Pairwise.imp_of_mem ?_
        (List.Pairwise.sublist (List.filter_sublist _) hs)
      intro v1 v2 h1 h2 hlt
      rcases List.mem_filter.1 h1 with ⟨_, hp1⟩
      rcases List.mem_filter.1 h2 with ⟨_, hp2⟩
      rw [decide_eq_true_eq] at hp1 hp2
      exact xor_lt_xor_of_and_eq (hp1.trans hp2.symm) hlt
    have hsB : List.Sorted (· < ·) swB := by
      rw [hswB]
      apply List.pairwise_map.2
      refine List.Pairwise.imp_of_mem ?_
        (List.Pairwise.sublist (List.filter_sublist _) hs)
      intro v1 v2 h1 h2 hlt
      rcases List.mem_filter.1 h1 with ⟨_, hp1⟩
      rcases List.mem_filter.1 h2 with ⟨_, hp2⟩
      simp only [decide_eq_true_eq] at hp1 hp2
      exact xor_lt_xor_of_and_eq (hp1.2.trans hp2.2.symm) hlt
    have hsK : List.Sorted (· < ·) kp :=
      List.Pairwise.sublist (List.filter_sublist _) hs
    constructor
    · show List.Sorted (· < ·) (merge3Asc swA swB kp)
      exact merge3AscGo_sorted _ _ _ _ hbA hbB hbK (by omega) hsA hsB hsK
    · intro z
      show z ∈ merge3Asc swA swB kp ↔ _
      rw [merge3Asc,
        merge3AscGo_mem _ _ _ _ hbA hbB hbK (by omega) z]
      constructor
      · rintro (hz | hz | hz)
        · rw [hswA] at hz
          rcases List.mem_map.1 hz with ⟨u, hu, rfl⟩
          rcases List.mem_filter.1 hu with ⟨humem, hup⟩
          rw [decide_eq_true_eq] at hup
          refine ⟨u, humem, ?_⟩
          rcases (and_mask_eq_a_iff hab).1 hup with ⟨hta, htb⟩
          rw [swapBits_of_ne (by rw [hta, htb]; simp)]
        · rw [hswB] at hz
          rcases List.mem_map.1 hz with ⟨u, hu, rfl⟩
          rcases List.mem_filter.1 hu with ⟨humem, hup⟩
          simp only [decide_eq_true_eq] at hup
          refine ⟨u, humem, ?_⟩
          rcases (and_mask_eq_b_iff hab).1 hup.2 with ⟨hta, htb⟩
          rw [swapBits_of_ne (by rw [hta, htb]; simp)]
        · rcases List.mem_filter.1 hz with ⟨humem, hup⟩
          simp only [decide_eq_true_eq] at hup
          refine ⟨z, humem, ?_⟩
          rw [swapBits_of_eq (and_mask_other hab hup.1 hup.2)]
      · rintro ⟨v, hv, rfl⟩
        cases hta : v.testBit a <;> cases htb : v.testBit b
        · right; right
          rw [hkp]
          rw [swapBits_of_eq (hta.trans htb.symm)]
          refine List.mem_filter.2 ⟨hv, ?_⟩
          simp only [decide_eq_true_eq]
          constructor
          · intro hcontra
            rcases (and_mask_eq_a_iff hab).1 hcontra with ⟨h1, _⟩
            rw [hta] at h1
            cases h1
          · intro hcontra
            rcases (and_mask_eq_b_iff hab).1 hcontra with ⟨_, h2⟩
            rw [htb] at h2
            cases h2
        · right; left
          rw [hswB]
          have hup : ¬(v &&& mask = mask_a) ∧ v &&& mask = mask_b := by
            constructor
            · intro hcontra
              rcases (and_mask_eq_a_iff hab).1 hcontra with ⟨h1, _⟩
              rw [hta] at h1
              cases h1
            · exact (and_mask_eq_b_iff hab).2 ⟨hta, htb⟩
          rw [swapBits_of_ne (by rw [hta, htb]; simp)]
          refine List.mem_map.2 ⟨v, List.mem_filter.2 ⟨hv, ?_⟩, rfl⟩
          simp only [decide_eq_true_eq]
          exact hup
        · left
          rw [hswA]
          have hup : v &&& mask = mask_a := (and_mask_eq_a_iff hab).2 ⟨hta, htb⟩
          rw [swapBits_of_ne (by rw [hta, htb]; simp)]
          refine List.mem_map.2 ⟨v, List.mem_filter.2 ⟨hv, ?_⟩, rfl⟩
          simp only [decide_eq_true_eq]
          exact hup
        · right; right
          rw [hkp]
          rw [swapBits_of_eq (hta.trans htb.symm)]
          refine List.mem_filter.2 ⟨hv, ?_⟩
          simp only [decide_eq_true_eq]
          constructor
          · intro hcontra
            rcases (and_mask_eq_a_iff hab).1 hcontra with ⟨_, h2⟩
            rw [htb] at h2
            cases h2
          · intro hcontra
            rcases (and_mask_eq_b_iff hab).1 hcontra with ⟨h1, _⟩
            rw [hta] at h1
            cases h1

/-! ### Matching invariants for the permutation search -/

/-- A bijection of the channel set `{0, …, W-1}`, carried as a map together
with its inverse. -/
structure BijOn (W : Nat) (σ σi : Nat → Nat) : Prop where
  mapsTo : ∀ a, a < W → σ a < W
  mapsToInv : ∀ b, b < W → σi b < W
  leftInv : ∀ a, a < W → σi (σ a) = a
  rightInv : ∀ b, b < W → σ (σi b) = b

theorem BijOn.inj {W : Nat} {σ σi : Nat → Nat} (h : BijOn W σ σi) {a a' : Nat}
    (ha : a < W) (ha' : a' < W) (he : σ a = σ a') : a = a' := by
  have h1 := h.leftInv a ha
  have h2 := h.leftInv a' ha'
  rw [he] at h1
  rw [h2] at h1
  exact h1.symm

theorem BijOn.comp_transp {W : Nat} {σ σi : Nat → Nat} (h : BijOn W σ σi)
    {p q : Nat} (hp : p < W) (hq : q < W) :
    BijOn W (fun k => transp p q (σ k)) (fun k => σi (transp p q k)) := by
  constructor
  · intro a ha
    exact transp_lt hp hq (h.mapsTo a ha)
  · intro b hb
    exact h.mapsToInv _ (transp_lt hp hq hb)
  · intro a ha
    rw [transp_transp]
    exact h.leftInv a ha
  · intro b hb
    rw [h.rightInv _ (transp_lt hp hq hb), transp_transp]

/-- Well-formedness plus `σ`-compatibility of a matching state: rows of the
right width and bound, both sides in sync, not yet incomplete, and the bit
`(a, σ a)` present in every row. -/
structure MState (W : Nat) (σ σi : Nat → Nat) (m : Matching) : Prop where
  bij : BijOn W σ σi
  wle : W ≤ 15
  lenA : m.matches_a.length = W
  lenB : m.matches_b.length = W
  boundA : ∀ a, m.matchesAAt a < 2 ^ W
  boundB : ∀ b, m.matchesBAt b < 2 ^ W
  sync : ∀ a b, (m.matchesAAt a).testBit b = (m.matchesBAt b).testBit a
  inc : m.incomplete = false
  compat : ∀ a, a < W → (m.matchesAAt a).testBit (σ a) = true

/-- Rows only lose candidate bits. -/
structure Shrink (m m' : Matching) : Prop where
  lenA : m'.matches_a.length = m.matches_a.length
  lenB : m'.matches_b.length = m.matches_b.length
  rowsA : ∀ a k, (m'.matchesAAt a).testBit k = true →
    (m.matchesAAt a).testBit k = true
  rowsB : ∀ b k, (m'.matchesBAt b).testBit k = true →
    (m.matchesBAt b).testBit k = true

theorem shrink_refl (m : Matching) : Shrink m m :=
  ⟨rfl, rfl, fun _ _ h => h, fun _ _ h => h⟩

theorem shrink_trans {m m' m'' : Matching} (h1 : Shrink m m')
    (h2 : Shrink m' m'') : Shrink m m'' :=
  ⟨h2.lenA.trans h1.lenA, h2.lenB.trans h1.lenB,
    fun a k h => h1.rowsA a k (h2.rowsA a k h),
    fun b k h => h1.rowsB b k (h2.rowsB b k h)⟩

/-- Total number of candidate bits on the `a` side. -/
def popSum (m : Matching) : Nat :=
  ((List.range m.matches_a.length).map (fun a => popCount (m.matchesAAt a))).sum

theorem shrink_boundA {W : Nat} {m m' : Matching}
    (hb : ∀ a, m.matchesAAt a < 2 ^ W) (hs : Shrink m m') :
    ∀ a, m'.matchesAAt a < 2 ^ W := by
  intro a
  apply lt_two_pow_of_testBit_false
  intro k hk
  cases hcase : (m'.matchesAAt a).testBit k
  · rfl
  · exact absurd (hs.rowsA a k hcase) (by
      rw [testBit_eq_false_of_lt (hb a) hk]
      simp)

theorem shrink_boundB {W : Nat} {m m' : Matching}
    (hb : ∀ b, m.matchesBAt b < 2 ^ W) (hs : Shrink m m') :
    ∀ b, m'.matchesBAt b < 2 ^ W := by
  intro b
  apply lt_two_pow_of_testBit_false
  intro k hk
  cases hcase : (m'.matchesBAt b).testBit k
  · rfl
  · exact absurd (hs.rowsB b k hcase) (by
      rw [testBit_eq_false_of_lt (hb b) hk]
      simp)

theorem popSum_le_of_shrink {W : Nat} {m m' : Matching}
    (hb : ∀ a, m.matchesAAt a < 2 ^ W) (hs : Shrink m m') :
    popSum m' ≤ popSum m := by
  rw [popSum, popSum, hs.lenA]
  apply List.sum_le_sum
  intro a _
  exact popCount_le_popCount_of_testBit (shrink_boundA hb hs a) (hb a)
    (fun k => hs.rowsA a k)

theorem popSum_le_sq {W : Nat} {σ σi : Nat → Nat} {m : Matching}
    (h : MState W σ σi m) : popSum m ≤ W * W := by
  rw [popSum]
  have hbound : ∀ x ∈ (List.range m.matches_a.length).map
      (fun a => popCount (m.matchesAAt a)), x ≤ W := by
    intro x hx
    rcases List.mem_map.1 hx with ⟨a, _, rfl⟩
    exact popCount_le_of_lt_two_pow W _ (h.boundA a)
  have hle := List.sum_le_card_nsmul _ W hbound
  simp only [List.length_map, List.length_range, smul_eq_mul] at hle
  exact hle.trans (le_of_eq (by rw [h.lenA]))

theorem and_not16_testBit {r b : Nat} (hr : r < 2 ^ 16) (k : Nat) :
    (r &&& (65535 ^^^ (1 <<< b))).testBit k = (r.testBit k && !(k = b)) := by
  rw [Nat.testBit_and, Nat.testBit_xor, shiftLeft_one, Nat.testBit_two_pow]
  have h65 : (65535 : Nat).testBit k = decide (k < 16) := by
    have he : (65535 : Nat) = 2 ^ 16 - 1 := by norm_num
    rw [he, Nat.testBit_two_pow_sub_one]
  rw [h65]
  by_cases hk : k < 16
  · by_cases hbk : b = k
    · subst hbk
      simp [hk]
    · have hkb : ¬ (k = b) := fun h => hbk h.symm
      simp [hk, hbk, hkb]
  · have hr2 : r.testBit k = false := testBit_eq_false_of_lt hr (by omega)
    simp [hr2]

/-- Safety of the shared early-exit propagation loop: if every call on a
non-skipped index stays consistent, preserves the invariant and only clears
bits, so does the whole loop, and each processed index's postcondition
holds at the end. -/
theorem removeLoop_safe {W : Nat} {σ σi : Nat → Nat}
    (f : Matching → Nat → Bool × Matching) (skip : Nat) (base : Matching)
    (Q : Nat → Matching → Prop)
    (hf : ∀ m₀ c, MState W σ σi m₀ → Shrink base m₀ → c ≠ skip →
      ∃ m₁, f m₀ c = (false, m₁) ∧ MState W σ σi m₁ ∧ Shrink m₀ m₁ ∧ Q c m₁)
    (hQ : ∀ c m₁ m₂, Q c m₁ → Shrink m₁ m₂ → Q c m₂) :
    ∀ (lst : List Nat) (m : Matching), MState W σ σi m → Shrink base m →
      ∃ m', removeLoop f lst skip m = (false, m') ∧ MState W σ σi m' ∧
        Shrink m m' ∧ ∀ c ∈ lst, c ≠ skip → Q c m' := by
  intro lst
  induction lst with
  | nil =>
    intro m hm hsh
    exact ⟨m, rfl, hm, shrink_refl m, fun c hc => absurd hc (List.not_mem_nil c)⟩
  | cons other rest ih =>
    intro m hm hsh
    by_cases hos : other ≠ skip
    · obtain ⟨m₁, hfm, hm₁, hs₁, hq₁⟩ := hf m other hm hsh hos
      obtain ⟨m', hrest, hm', hs', hq'⟩ := ih m₁ hm₁ (shrink_trans hsh hs₁)
      refine ⟨m', ?_, hm', shrink_trans hs₁ hs', ?_⟩
      · show removeLoop f (other :: rest) skip m = (false, m')
        simp only [removeLoop]
        rw [if_pos hos, hfm]
        exact hrest
      · intro c hc hcs
        rcases List.mem_cons.1 hc with rfl | hc2
        · exact hQ c m₁ m' hq₁ hs'
        · exact hq' c hc2 hcs
    · obtain ⟨m', hrest, hm', hs', hq'⟩ := ih m hm hsh
      refine ⟨m', ?_, hm', hs', ?_⟩
      · show removeLoop f (other :: rest) skip m = (false, m')
        simp only [removeLoop]
        rw [if_neg hos]
        exact hrest
      · intro c hc hcs
        rcases List.mem_cons.1 hc with rfl | hc2
        · exact absurd hcs hos
        · exact hq' c hc2 hcs

theorem removeGo_succ (fuel : Nat) (m : Matching) (a b : Nat) :
    Matching.removeGo (fuel + 1) m a b =
      (if m.incomplete then (true, m)
       else if m.matches_a.getD a 0 &&& (1 <<< b) = 0 then (false, m)
       else
         (fun (row_a2 row_b2 : Nat) (m2 : Matching) =>
           if row_a2 = 0 then (true, { m2 with incomplete := true })
           else if row_b2 = 0 then (true, { m2 with incomplete := true })
           else
             match (if popCount row_a2 = 1 then
                 removeLoop (fun m' other =>
                     Matching.removeGo fuel m' other (trailingZeros row_a2))
                   (List.range m2.matches_a.length) a m2
               else (false, m2)) with
             | (true, m') => (true, m')
             | (false, m3) =>
               if popCount row_b2 = 1 then
                 removeLoop (fun m' other =>
                     Matching.removeGo fuel m' (trailingZeros row_b2) other)
                   (List.range m3.matches_b.length) b m3
               else (false, m3))
         (m.matches_a.getD a 0 &&& (65535 ^^^ (1 <<< b)))
         (m.matches_b.getD b 0 &&& (65535 ^^^ (1 <<< a)))
         ⟨m.matches_a.set a (m.matches_a.getD a 0 &&& (65535 ^^^ (1 <<< b))),
          m.matches_b.set b (m.matches_b.getD b 0 &&& (65535 ^^^ (1 <<< a))),
          m.incomplete⟩) := rfl

/-- Safety and completeness of `Matching::remove` under `σ`-compatibility:
removing a non-`σ` pair never reports an inconsistency, keeps the invariant,
only clears candidate bits, and does clear the requested bit. -/
theorem removeGo_safe {W : Nat} {σ σi : Nat → Nat} :
    ∀ (fuel : Nat) (m : Matching) (a b : Nat),
    MState W σ σi m → (a < W → b ≠ σ a) → popSum m + 1 ≤ fuel →
    ∃ m', Matching.removeGo fuel m a b = (false, m') ∧ MState W σ σi m' ∧
      Shrink m m' ∧ (m'.matchesAAt a).testBit b = false := by
  intro fuel
  induction fuel with
  | zero =>
    intro m a b _ _ hfuel
    omega
  | succ fuel ih =>
    intro m a b hm hab hfuel
    by_cases hbit : (m.matchesAAt a).testBit b = true
    case neg =>
      have hbf : (m.matchesAAt a).testBit b = false := by
        cases hcase : (m.matchesAAt a).testBit b
        · rfl
        · exact absurd hcase hbit
      have hz : m.matches_a.getD a 0 &&& (1 <<< b) = 0 := by
        rw [and_shift_eq_zero_iff]
        exact hbf
      refine ⟨m, ?_, hm, shrink_refl m, hbf⟩
      rw [removeGo_succ]
      rw [if_neg (by rw [hm.inc]; simp), if_pos hz]
    case pos =>
      have haW : a < W := by
        by_contra hge
        have h0 : m.matchesAAt a = 0 :=
          List.getD_eq_default _ _ (by rw [hm.lenA]; omega)
        rw [h0, Nat.zero_testBit] at hbit
        cases hbit
      have hbW : b < W := by
        by_contra hge
        rw [testBit_eq_false_of_lt (hm.boundA a) (by omega)] at hbit
        cases hbit
      have hbs : ¬ (b = σ a) := hab haW
      have hsab : ¬ (σ a = b) := fun h => hbs h.symm
      have hW16 : (2 : Nat) ^ W ≤ 2 ^ 16 :=
        Nat.pow_le_pow_right (by omega) (by have := hm.wle; omega)
      set row_a2 := m.matches_a.getD a 0 &&& (65535 ^^^ (1 <<< b)) with hrowa2
      set row_b2 := m.matches_b.getD b 0 &&& (65535 ^^^ (1 <<< a)) with hrowb2
      set m2 : Matching := ⟨m.matches_a.set a row_a2, m.matches_b.set b row_b2,
        m.incomplete⟩ with hm2def
      have hra2_bits : ∀ k, row_a2.testBit k =
          ((m.matchesAAt a).testBit k && !(k = b)) := fun k =>
        and_not16_testBit (lt_of_lt_of_le (hm.boundA a) hW16) k
      have hrb2_bits : ∀ k, row_b2.testBit k =
          ((m.matchesBAt b).testBit k && !(k = a)) := fun k =>
        and_not16_testBit (lt_of_lt_of_le (hm.boundB b) hW16) k
      have hra2_lt : row_a2 < 2 ^ W := by
        apply lt_two_pow_of_testBit_false
        intro k hk
        rw [hra2_bits k, testBit_eq_false_of_lt (hm.boundA a) hk]
        rfl
      have hrb2_lt : row_b2 < 2 ^ W := by
        apply lt_two_pow_of_testBit_false
        intro k hk
        rw [hrb2_bits k, testBit_eq_false_of_lt (hm.boundB b) hk]
        rfl
      have hm2A : ∀ x, m2.matchesAAt x =
          if x = a then row_a2 else m.matchesAAt x := by
        intro x
        show (m.matches_a.set a row_a2).getD x 0 = _
        by_cases hx : x = a
        · subst hx
          rw [if_pos rfl]
          exact getD_set_self _ _ _ (by rw [hm.lenA]; exact haW)
        · rw [if_neg hx]
          exact getD_set_ne _ _ _ _ (fun h => hx h.symm)
      have hm2B : ∀ y, m2.matchesBAt y =
          if y = b then row_b2 else m.matchesBAt y := by
        intro y
        show (m.matches_b.set b row_b2).getD y 0 = _
        by_cases hy : y = b
        · subst hy
          rw [if_pos rfl]
          exact getD_set_self _ _ _ (by rw [hm.lenB]; exact hbW)
        · rw [if_neg hy]
          exact getD_set_ne _ _ _ _ (fun h => hy h.symm)
      have hra2_bitσ : row_a2.testBit (σ a) = true := by
        rw [hra2_bits]
        rw [hm.compat a haW]
        simp [hsab]
      have hsib : σi b < W := hm.bij.mapsToInv b hbW
      have hsib_ne : ¬ (σi b = a) := by
        intro h
        have hri := hm.bij.rightInv b hbW
        rw [h] at hri
        exact hsab hri
      have hrb2_bitσ : row_b2.testBit (σi b) = true := by
        rw [hrb2_bits]
        have h1 : (m.matchesBAt b).testBit (σi b) =
            (m.matchesAAt (σi b)).testBit b := (hm.sync (σi b) b).symm
        have h2 := hm.compat (σi b) hsib
        rw [hm.bij.rightInv b hbW] at h2
        rw [h1, h2]
        simp [hsib_ne]
      have hm2 : MState W σ σi m2 := by
        refine ⟨hm.bij, hm.wle, ?_, ?_, ?_, ?_, ?_, hm.inc, ?_⟩
        · show (m.matches_a.set a row_a2).length = W
          rw [List.length_set]
          exact hm.lenA
        · show (m.matches_b.set b row_b2).length = W
          rw [List.length_set]
          exact hm.lenB
        · intro x
          rw [hm2A x]
          by_cases hx : x = a
          · rw [if_pos hx]
            exact hra2_lt
          · rw [if_neg hx]
            exact hm.boundA x
        · intro y
          rw [hm2B y]
          by_cases hy : y = b
          · rw [if_pos hy]
            exact hrb2_lt
          · rw [if_neg hy]
            exact hm.boundB y
        · intro x y
          rw [hm2A x, hm2B y]
          by_cases hx : x = a <;> by_cases hy : y = b
          · rw [if_pos hx, if_pos hy]
            subst hx
            subst hy
            rw [hra2_bits, hrb2_bits]
            simp
          · rw [if_pos hx, if_neg hy]
            subst hx
            rw [hra2_bits]
            have hyb : ¬ (y = b) := hy
            simp only [hyb, decide_False, Bool.not_false, Bool.and_true]
            exact hm.sync x y
          · rw [if_neg hx, if_pos hy]
            subst hy
            rw [hrb2_bits]
            have hxa : ¬ (x = a) := hx
            simp only [hxa, decide_False, Bool.not_false, Bool.and_true]
            exact hm.sync x y
          · rw [if_neg hx, if_neg hy]
            exact hm.sync x y
        · intro x hx
          rw [hm2A x]
          by_cases hxa : x = a
          · rw [if_pos hxa]
            subst hxa
            exact hra2_bitσ
          · rw [if_neg hxa]
            exact hm.compat x hx
      have hs2 : Shrink m m2 := by
        refine ⟨?_, ?_, ?_, ?_⟩
        · show (m.matches_a.set a row_a2).length = m.matches_a.length
          rw [List.length_set]
        · show (m.matches_b.set b row_b2).length = m.matches_b.length
          rw [List.length_set]
        · intro x k hk
          rw [hm2A x] at hk
          by_cases hx : x = a
          · rw [if_pos hx] at hk
            rw [hra2_bits, Bool.and_eq_true] at hk
            rw [hx]
            exact hk.1
          · rw [if_neg hx] at hk
            exact hk
        · intro y k hk
          rw [hm2B y] at hk
          by_cases hy : y = b
          · rw [if_pos hy] at hk
            rw [hrb2_bits, Bool.and_eq_true] at hk
            rw [hy]
            exact hk.1
          · rw [if_neg hy] at hk
            exact hk
      have hpc : popCount (m.matchesAAt a) = popCount row_a2 + 1 :=
        popCount_clear_bit (hm.boundA a) hra2_lt hbW hbit hra2_bits
      have hpop2 : popSum m2 + 1 ≤ popSum m := by
        have hlen2 : m2.matches_a.length = m.matches_a.length := by
          show (m.matches_a.set a row_a2).length = _
          rw [List.length_set]
        rw [popSum, popSum, hlen2]
        have hlt : ((List.range m.matches_a.length).map
              (fun x => popCount (m2.matchesAAt x))).sum <
            ((List.range m.matches_a.length).map
              (fun x => popCount (m.matchesAAt x))).sum := by
          apply List.sum_lt_sum
          · intro x _
            rw [hm2A x]
            by_cases hx : x = a
            · rw [if_pos hx, hx]
              omega
            · rw [if_neg hx]
          · refine ⟨a, List.mem_range.2 (by rw [hm.lenA]; exact haW), ?_⟩
            rw [hm2A a, if_pos rfl]
            omega
        omega
      have hra2_ne : ¬ (row_a2 = 0) := ne_zero_of_testBit hra2_bitσ
      have hrb2_ne : ¬ (row_b2 = 0) := ne_zero_of_testBit hrb2_bitσ
      have hmainA : ∃ m3, (if popCount row_a2 = 1 then
            removeLoop (fun m' other =>
                Matching.removeGo fuel m' other (trailingZeros row_a2))
              (List.range m2.matches_a.length) a m2
          else (false, m2)) = (false, m3) ∧ MState W σ σi m3 ∧
            Shrink m2 m3 := by
        by_cases hpa : popCount row_a2 = 1
        · rw [if_pos hpa]
          have htz : trailingZeros row_a2 = σ a :=
            trailingZeros_of_popCount_one hra2_lt hpa hra2_bitσ
          rw [htz]
          have hloop := removeLoop_safe
            (fun m' other => Matching.removeGo fuel m' other (σ a)) a m2
            (fun _ _ => True)
            (fun m₀ c hm₀ hsh₀ hca => by
              have hfuel₀ : popSum m₀ + 1 ≤ fuel := by
                have h1 := popSum_le_of_shrink hm2.boundA hsh₀
                omega
              obtain ⟨m₁, h1, h2, h3, _⟩ := ih m₀ c (σ a) hm₀
                (fun hcW he => hca (hm.bij.inj hcW haW he.symm)) hfuel₀
              exact ⟨m₁, h1, h2, h3, trivial⟩)
            (fun _ _ _ _ _ => trivial)
            (List.range m2.matches_a.length) m2 hm2 (shrink_refl m2)
          obtain ⟨m3, heq, hm3, hs3, _⟩ := hloop
          exact ⟨m3, heq, hm3, hs3⟩
        · rw [if_neg hpa]
          exact ⟨m2, rfl, hm2, shrink_refl m2⟩
      obtain ⟨m3, hafterA, hm3, hs3⟩ := hmainA
      have hmainB : ∃ m4, (if popCount row_b2 = 1 then
            removeLoop (fun m' other =>
                Matching.removeGo fuel m' (trailingZeros row_b2) other)
              (List.range m3.matches_b.length) b m3
          else (false, m3)) = (false, m4) ∧ MState W σ σi m4 ∧
            Shrink m3 m4 := by
        by_cases hpb : popCount row_b2 = 1
        · rw [if_pos hpb]
          have htz : trailingZeros row_b2 = σi b :=
            trailingZeros_of_popCount_one hrb2_lt hpb hrb2_bitσ
          rw [htz]
          have hloop := removeLoop_safe
            (fun m' other => Matching.removeGo fuel m' (σi b) other) b m3
            (fun _ _ => True)
            (fun m₀ c hm₀ hsh₀ hcb => by
              have hfuel₀ : popSum m₀ + 1 ≤ fuel := by
                have h1 := popSum_le_of_shrink hm3.boundA hsh₀
                have h2 := popSum_le_of_shrink hm2.boundA hs3
                omega
              obtain ⟨m₁, h1, h2, h3, _⟩ := ih m₀ (σi b) c hm₀
                (fun _ he => hcb (by rw [he, hm.bij.rightInv b hbW])) hfuel₀
              exact ⟨m₁, h1, h2, h3, trivial⟩)
            (fun _ _ _ _ _ => trivial)
            (List.range m3.matches_b.length) m3 hm3 (shrink_refl m3)
          obtain ⟨m4, heq, hm4, hs4, _⟩ := hloop
          exact ⟨m4, heq, hm4, hs4⟩
        · rw [if_neg hpb]
          exact ⟨m3, rfl, hm3, shrink_refl m3⟩
      obtain ⟨m4, hafterB, hm4, hs4⟩ := hmainB
      have hnz : ¬ (m.matches_a.getD a 0 &&& (1 <<< b) = 0) := by
        intro h0
        rw [and_shift_eq_zero_iff] at h0
        have hbit2 : (m.matches_a.getD a 0).testBit b = true := hbit
        rw [h0] at hbit2
        cases hbit2
      have hbit2 : (m2.matchesAAt a).testBit b = false := by
        rw [hm2A a, if_pos rfl, hra2_bits]
        simp
      have hbit4 : (m4.matchesAAt a).testBit b = false := by
        cases hcase : (m4.matchesAAt a).testBit b
        · rfl
        · have hc3 := hs4.rowsA a b hcase
          have hc2 := hs3.rowsA a b hc3
          rw [hbit2] at hc2
          cases hc2
      refine ⟨m4, ?_, hm4, shrink_trans hs2 (shrink_trans hs3 hs4), hbit4⟩
      rw [removeGo_succ]
      rw [if_neg (by rw [hm.inc]; simp), if_neg hnz]
      show (if row_a2 = 0 then _ else _) = _
      rw [if_neg hra2_ne, if_neg hrb2_ne, hafterA]
      exact hafterB

theorem contains_iff (m : Matching) (a b : Nat) :
    m.contains a b = true ↔ (m.matchesAAt a).testBit b = true := by
  show (m.matches_a.getD a 0 &&& (1 <<< b) != 0) = true ↔
    (m.matches_a.getD a 0).testBit b = true
  rw [bne_iff_ne, Ne, and_shift_eq_zero_iff]
  cases h : (m.matches_a.getD a 0).testBit b <;> simp [h]

/-- Safety and completeness of `Matching::select` on the `σ`-pair
`(ca, σ ca)`: the selection stays consistent, keeps the invariant, only
clears bits, and afterwards row `ca` holds exactly the candidate `σ ca`. -/
theorem select_safe {W : Nat} {σ σi : Nat → Nat} (fuel : Nat) (m : Matching)
    (ca cb : Nat) (hm : MState W σ σi m) (hca : ca < W) (hcb : cb = σ ca)
    (hfuel : popSum m + 1 ≤ fuel) :
    ∃ m', Matching.select fuel m ca cb = (false, m') ∧ MState W σ σi m' ∧
      Shrink m m' ∧ m'.matchesAAt ca = 2 ^ cb := by
  have hcontains : m.contains ca cb = true := by
    rw [contains_iff, hcb]
    exact hm.compat ca hca
  have hloop1 := removeLoop_safe
    (fun m' other => Matching.removeGo fuel m' other cb) ca m
    (fun _ _ => True)
    (fun m₀ c hm₀ hsh₀ hcc => by
      have hfuel₀ : popSum m₀ + 1 ≤ fuel := by
        have h1 := popSum_le_of_shrink hm.boundA hsh₀
        omega
      obtain ⟨m₁, h1, h2, h3, _⟩ := removeGo_safe fuel m₀ c cb hm₀
        (fun hcW he => hcc (hm.bij.inj hcW hca (by rw [← he, ← hcb])))
        hfuel₀
      exact ⟨m₁, h1, h2, h3, trivial⟩)
    (fun _ _ _ _ _ => trivial)
    (List.range m.matches_a.length) m hm (shrink_refl m)
  obtain ⟨m1, hloop1eq, hm1, hs1, _⟩ := hloop1
  have hloop2 := removeLoop_safe
    (fun m' other => Matching.removeGo fuel m' ca other) cb m1
    (fun c m₁ => (m₁.matchesAAt ca).testBit c = false)
    (fun m₀ c hm₀ hsh₀ hcc => by
      have hfuel₀ : popSum m₀ + 1 ≤ fuel := by
        have h1 := popSum_le_of_shrink hm1.boundA hsh₀
        have h2 := popSum_le_of_shrink hm.boundA hs1
        omega
      obtain ⟨m₁, h1, h2, h3, h4⟩ := removeGo_safe fuel m₀ ca c hm₀
        (fun _ he => hcc (by rw [he, ← hcb])) hfuel₀
      exact ⟨m₁, h1, h2, h3, h4⟩)
    (fun c m₁ m₂ hq hsh => by
      cases hcase : (m₂.matchesAAt ca).testBit c
      · exact hcase
      · have hup := hsh.rowsA ca c hcase
        rw [hq] at hup
        cases hup)
    (List.range m1.matches_b.length) m1 hm1 (shrink_refl m1)
  obtain ⟨m2, hloop2eq, hm2, hs2, hq2⟩ := hloop2
  have hrow : m2.matchesAAt ca = 2 ^ cb := by
    apply Nat.eq_of_testBit_eq
    intro k
    rw [Nat.testBit_two_pow]
    by_cases hk : k = cb
    · subst hk
      have hc : (m2.matchesAAt ca).testBit k = true := by
        rw [hcb]
        exact hm2.compat ca hca
      simp [hc]
    · have hkc : ¬ (cb = k) := fun h => hk h.symm
      simp only [hkc, decide_False]
      cases hcase : (m2.matchesAAt ca).testBit k
      · rfl
      · exfalso
        have hkW : k < W := by
          by_contra hge
          rw [testBit_eq_false_of_lt (hm2.boundA ca) (by omega)] at hcase
          cases hcase
        have := hq2 k (List.mem_range.2 (by rw [hm1.lenB]; exact hkW)) hk
        rw [this] at hcase
        cases hcase
  refine ⟨m2, ?_, hm2, shrink_trans hs1 hs2, hrow⟩
  rw [Matching.select]
  rw [if_neg (by rw [hm.inc]; simp)]
  rw [if_neg (by
    intro hneg
    exact hneg hcontains)]
  rw [hloop1eq]
  exact hloop2eq

/-- Strict progress: selecting the `σ`-candidate of a row that still has at
least two candidates strictly shrinks the total candidate count. -/
theorem select_popSum_lt {W : Nat} {σ σi : Nat → Nat} {m m' : Matching}
    (hm : MState W σ σi m) (hm' : MState W σ σi m') (hs : Shrink m m')
    {ca cb : Nat} (hca : ca < W) (hrow : m'.matchesAAt ca = 2 ^ cb)
    (hcount : 2 ≤ popCount (m.matchesAAt ca)) : popSum m' < popSum m := by
  rw [popSum, popSum]
  have hlen : m'.matches_a.length = m.matches_a.length := hs.lenA
  rw [hlen]
  apply List.sum_lt_sum
  · intro x _
    exact popCount_le_popCount_of_testBit (hm'.boundA x) (hm.boundA x)
      (fun k => hs.rowsA x k)
  · refine ⟨ca, List.mem_range.2 (by rw [hm.lenA]; exact hca), ?_⟩
    rw [hrow, popCount_two_pow]
    omega

theorem filterGo_safe {W : Nat} {σ σi : Nat → Nat} (fuel : Nat)
    (pred : Nat → Nat → Bool) (hpred : ∀ a, a < W → pred a (σ a) = true) :
    ∀ (ps : List (Nat × Nat)) (m : Matching), MState W σ σi m →
      popSum m + 1 ≤ fuel →
      ∃ m', Matching.filterGo fuel pred ps m = (false, m') ∧
        MState W σ σi m' ∧ Shrink m m' := by
  intro ps
  induction ps with
  | nil =>
    intro m hm _
    exact ⟨m, rfl, hm, shrink_refl m⟩
  | cons p rest ih =>
    intro m hm hfuel
    obtain ⟨a, b⟩ := p
    by_cases hc : m.contains a b = true ∧ ¬ pred a b = true
    · have hab : a < W → b ≠ σ a := by
        intro haW heq
        rw [heq] at hc
        exact hc.2 (hpred a haW)
      obtain ⟨m₁, h1, h2, h3, _⟩ := removeGo_safe fuel m a b hm hab hfuel
      have hfuel₁ : popSum m₁ + 1 ≤ fuel := by
        have := popSum_le_of_shrink hm.boundA h3
        omega
      obtain ⟨m', h4, h5, h6⟩ := ih m₁ h2 hfuel₁
      refine ⟨m', ?_, h5, shrink_trans h3 h6⟩
      show Matching.filterGo fuel pred ((a, b) :: rest) m = (false, m')
      simp only [Matching.filterGo]
      rw [if_pos hc, h1]
      exact h4
    · obtain ⟨m', h4, h5, h6⟩ := ih m hm hfuel
      refine ⟨m', ?_, h5, h6⟩
      show Matching.filterGo fuel pred ((a, b) :: rest) m = (false, m')
      simp only [Matching.filterGo]
      rw [if_neg hc]
      exact h4

theorem filter_safe {W : Nat} {σ σi : Nat → Nat} (fuel : Nat)
    (pred : Nat → Nat → Bool) (hpred : ∀ a, a < W → pred a (σ a) = true)
    (m : Matching) (hm : MState W σ σi m) (hfuel : popSum m + 1 ≤ fuel) :
    ∃ m', Matching.filter fuel pred m = (false, m') ∧ MState W σ σi m' ∧
      Shrink m m' := by
  obtain ⟨m', h1, h2, h3⟩ := filterGo_safe fuel pred hpred
    ((List.range m.matches_a.length).product (List.range m.matches_b.length))
    m hm hfuel
  refine ⟨m', ?_, h2, h3⟩
  rw [Matching.filter]
  rw [if_neg (by rw [hm.inc]; simp)]
  exact h1

theorem getD_replicate {n x i : Nat} (hi : i < n) :
    (List.replicate n x).getD i 0 = x := by
  rw [getD_eq_getElem 0 _ i (by simpa using hi)]
  simp

/-- `Matching::new` satisfies the invariant for every channel bijection. -/
theorem mstate_new {W : Nat} {σ σi : Nat → Nat} (hW : W ≤ 15)
    (hbij : BijOn W σ σi) : MState W σ σi (Matching.new W) := by
  have hrow : ∀ x, (Matching.new W).matchesAAt x =
      if x < W then (1 <<< W) - 1 else 0 := by
    intro x
    show (List.replicate W ((1 <<< W) - 1)).getD x 0 = _
    by_cases hx : x < W
    · rw [if_pos hx]
      exact getD_replicate hx
    · rw [if_neg hx]
      exact List.getD_eq_default _ _ (by simpa using Nat.le_of_not_lt hx)
  have hrowB : ∀ x, (Matching.new W).matchesBAt x =
      if x < W then (1 <<< W) - 1 else 0 := by
    intro x
    show (List.replicate W ((1 <<< W) - 1)).getD x 0 = _
    by_cases hx : x < W
    · rw [if_pos hx]
      exact getD_replicate hx
    · rw [if_neg hx]
      exact List.getD_eq_default _ _ (by simpa using Nat.le_of_not_lt hx)
  have hfull : ∀ k, ((1 <<< W) - 1 : Nat).testBit k = decide (k < W) := by
    intro k
    rw [shiftLeft_one, Nat.testBit_two_pow_sub_one]
  have hbound : ∀ x, (if x < W then (1 <<< W) - 1 else 0) < 2 ^ W := by
    intro x
    have h1 : (1 : Nat) ≤ 2 ^ W := Nat.one_le_two_pow
    split
    · rw [shiftLeft_one]
      omega
    · omega
  refine ⟨hbij, hW, ?_, ?_, ?_, ?_, ?_, rfl, ?_⟩
  · exact List.length_replicate _ _
  · exact List.length_replicate _ _
  · intro a
    rw [hrow a]
    exact hbound a
  · intro b
    rw [hrowB b]
    exact hbound b
  · intro a b
    rw [hrow a, hrowB b]
    by_cases haW : a < W <;> by_cases hbW : b < W
    · rw [if_pos haW, if_pos hbW, hfull, hfull]
      simp [haW, hbW]
    · rw [if_pos haW, if_neg hbW, hfull, Nat.zero_testBit]
      simp [hbW]
    · rw [if_neg haW, if_pos hbW, hfull, Nat.zero_testBit]
      simp [haW]
    · rw [if_neg haW, if_neg hbW]
      simp [Nat.zero_testBit]
  · intro a haW
    rw [hrow a, if_pos haW, hfull]
    simp [hbij.mapsTo a haW]

theorem flipRow_testBit {p q : Nat} (hpq : p ≠ q) (r k : Nat) :
    (r ^^^ (((1 <<< p) ||| (1 <<< q)) *
      (if (r &&& ((1 <<< p) ||| (1 <<< q)) = 1 <<< p) ∨
          (r &&& ((1 <<< p) ||| (1 <<< q)) = 1 <<< q) then 1 else 0))).testBit k
      = r.testBit (transp p q k) := by
  by_cases hflip : (r &&& ((1 <<< p) ||| (1 <<< q)) = 1 <<< p) ∨
      (r &&& ((1 <<< p) ||| (1 <<< q)) = 1 <<< q)
  · rw [if_pos hflip, mul_one]
    have hne : r.testBit p ≠ r.testBit q := by
      rcases hflip with h | h
      · rcases (and_mask_eq_a_iff hpq).1 h with ⟨h1, h2⟩
        rw [h1, h2]
        simp
      · rcases (and_mask_eq_b_iff hpq).1 h with ⟨h1, h2⟩
        rw [h1, h2]
        simp
    rw [← swapBits_of_ne hne, swapBits_testBit]
  · rw [if_neg hflip, mul_zero, Nat.xor_zero]
    push_neg at hflip
    have heq : r.testBit p = r.testBit q := and_mask_other hpq hflip.1 hflip.2
    have h2 := swapBits_testBit p q r k
    rw [swapBits_of_eq heq] at h2
    exact h2

theorem getD_map_zero (f : Nat → Nat) (l : List Nat) (x : Nat) :
    (l.map f).getD x 0 = if x < l.length then f (l.getD x 0) else 0 := by
  by_cases hx : x < l.length
  · rw [if_pos hx, getD_eq_getElem 0 _ x (by simpa using hx), List.getElem_map,
      getD_eq_getElem 0 _ x hx]
  · rw [if_neg hx, List.getD_eq_default _ _ (by simpa using Nat.le_of_not_lt hx)]

theorem swapList_getD {l : List Nat} {i j : Nat} (hi : i < l.length)
    (hj : j < l.length) (y : Nat) :
    (swapList l i j).getD y 0 = l.getD (transp i j y) 0 := by
  rw [swapList]
  by_cases hyj : y = j
  · subst hyj
    rw [getD_set_self _ _ _ (by rw [List.length_set]; exact hj), transp_right]
  · rw [getD_set_ne _ _ _ _ (fun h => hyj h.symm)]
    by_cases hyi : y = i
    · subst hyi
      rw [getD_set_self _ _ _ hi, transp_left]
    · rw [getD_set_ne _ _ _ _ (fun h => hyi h.symm), transp_other hyi hyj]

theorem popCount_transp_bits {W p q r s : Nat} (hp : p < W) (hq : q < W)
    (hr : r < 2 ^ W) (hs : s < 2 ^ W)
    (h : ∀ k, s.testBit k = r.testBit (transp p q k)) :
    popCount s = popCount r := by
  rw [popCount_eq_countP W r hr, popCount_eq_countP W s hs]
  have h1 : (List.range W).countP (fun k => s.testBit k) =
      (List.range W).countP (fun k => r.testBit (transp p q k)) :=
    List.countP_congr (fun k _ => by rw [h k])
  rw [h1]
  have h2 : (List.range W).countP (fun k => r.testBit (transp p q k)) =
      ((List.range W).map (transp p q)).countP (fun k => r.testBit k) := by
    rw [List.countP_map]
    rfl
  rw [h2]
  have hinj : Function.Injective (transp p q) := by
    intro x y hxy
    rw [← transp_transp p q x, hxy, transp_transp]
  have hnd : ((List.range W).map (transp p q)).Nodup :=
    (List.nodup_range W).map hinj
  have hsub : ((List.range W).map (transp p q)) ⊆ List.range W := by
    intro x hx
    rcases List.mem_map.1 hx with ⟨u, hu, rfl⟩
    exact List.mem_range.2 (transp_lt hp hq (List.mem_range.1 hu))
  have hperm : ((List.range W).map (transp p q)).Perm (List.range W) :=
    (List.subperm_of_subset hnd hsub).perm_of_length_le (by simp)
  rw [hperm.countP_eq]

theorem swapB_matchesA {m : Matching} {p q : Nat} (hpq : p ≠ q) (x k : Nat) :
    ((m.swap_channels_b p q).matchesAAt x).testBit k =
      (m.matchesAAt x).testBit (transp p q k) := by
  show ((m.matches_a.map (fun row_b =>
      row_b ^^^ (((1 <<< p) ||| (1 <<< q)) *
        (if (row_b &&& ((1 <<< p) ||| (1 <<< q)) = 1 <<< p) ∨
            (row_b &&& ((1 <<< p) ||| (1 <<< q)) = 1 <<< q)
          then 1 else 0)))).getD x 0).testBit k = _
  rw [getD_map_zero]
  by_cases hx : x < m.matches_a.length
  · rw [if_pos hx]
    exact flipRow_testBit hpq _ k
  · rw [if_neg hx]
    have h0 : m.matchesAAt x = 0 :=
      List.getD_eq_default _ _ (Nat.le_of_not_lt hx)
    rw [h0, Nat.zero_testBit, Nat.zero_testBit]

theorem swapB_matchesB {m : Matching} {p q : Nat}
    (hp : p < m.matches_b.length) (hq : q < m.matches_b.length) (y : Nat) :
    (m.swap_channels_b p q).matchesBAt y = m.matchesBAt (transp p q y) := by
  show (swapList m.matches_b p q).getD y 0 = m.matches_b.getD (transp p q y) 0
  exact swapList_getD hp hq y

theorem swapB_lenA (m : Matching) (p q : Nat) :
    (m.swap_channels_b p q).matches_a.length = m.matches_a.length := by
  show (m.matches_a.map _).length = _
  rw [List.length_map]

theorem swapB_lenB (m : Matching) (p q : Nat) :
    (m.swap_channels_b p q).matches_b.length = m.matches_b.length := by
  show ((m.matches_b.set p _).set q _).length = _
  rw [List.length_set, List.length_set]

theorem swapB_inc (m : Matching) (p q : Nat) :
    (m.swap_channels_b p q).incomplete = m.incomplete := rfl

/-- Swapping two B-channels transports the matching invariant along the
corresponding transposition of `σ`. -/
theorem mstate_swapB {W : Nat} {σ σi : Nat → Nat} {m : Matching}
    (hm : MState W σ σi m) {p q : Nat} (hp : p < W) (hq : q < W)
    (hpq : p ≠ q) :
    MState W (fun k => transp p q (σ k)) (fun b => σi (transp p q b))
      (m.swap_channels_b p q) := by
  have hpB : p < m.matches_b.length := by rw [hm.lenB]; exact hp
  have hqB : q < m.matches_b.length := by rw [hm.lenB]; exact hq
  refine ⟨hm.bij.comp_transp hp hq, hm.wle, ?_, ?_, ?_, ?_, ?_, ?_, ?_⟩
  · rw [swapB_lenA, hm.lenA]
  · rw [swapB_lenB, hm.lenB]
  · intro x
    apply lt_two_pow_of_testBit_false
    intro k hk
    rw [swapB_matchesA hpq, transp_eq_of_ge hp hq hk]
    exact testBit_eq_false_of_lt (hm.boundA x) hk
  · intro y
    rw [swapB_matchesB hpB hqB y]
    exact hm.boundB _
  · intro x y
    rw [swapB_matchesA hpq, swapB_matchesB hpB hqB y]
    exact hm.sync x (transp p q y)
  · rw [swapB_inc, hm.inc]
  · intro x hx
    rw [swapB_matchesA hpq, transp_transp]
    exact hm.compat x hx

theorem popSum_swapB {W : Nat} {σ σi : Nat → Nat} {m : Matching}
    (hm : MState W σ σi m) {p q : Nat} (hp : p < W) (hq : q < W)
    (hpq : p ≠ q) : popSum (m.swap_channels_b p q) = popSum m := by
  have hm2 := mstate_swapB hm hp hq hpq
  rw [popSum, popSum, swapB_lenA]
  apply congrArg
  apply List.map_congr_left
  intro x _
  exact popCount_transp_bits hp hq (hm.boundA x) (hm2.boundA x)
    (fun k => swapB_matchesA hpq x k)

/-- Per-row popcounts are preserved by a B-channel swap. -/
theorem popCount_swapB_row {W : Nat} {σ σi : Nat → Nat} {m : Matching}
    (hm : MState W σ σi m) {p q : Nat} (hp : p < W) (hq : q < W)
    (hpq : p ≠ q) (x : Nat) :
    popCount ((m.swap_channels_b p q).matchesAAt x) =
      popCount (m.matchesAAt x) := by
  have hm2 := mstate_swapB hm hp hq hpq
  exact popCount_transp_bits hp hq (hm.boundA x) (hm2.boundA x)
    (fun k => swapB_matchesA hpq x k)

/-! ### Abstraction slot characterization -/

/-- Block decomposition of indices: a block index and an in-block offset are
unique. -/
theorem block_eq {B c c' r r' : Nat} (hr : r < B) (hr' : r' < B)
    (h : B * c' + r' = B * c + r) : c' = c ∧ r' = r := by
  have hB : 0 < B := by omega
  have hd : (B * c' + r') / B = c' := by
    rw [Nat.mul_add_div hB, Nat.div_eq_of_lt hr']
    omega
  have hd2 : (B * c + r) / B = c := by
    rw [Nat.mul_add_div hB, Nat.div_eq_of_lt hr]
    omega
  have hm : (B * c' + r') % B = r' := by
    rw [Nat.mul_add_mod]
    exact Nat.mod_eq_of_lt hr'
  have hm2 : (B * c + r) % B = r := by
    rw [Nat.mul_add_mod]
    exact Nat.mod_eq_of_lt hr
  constructor
  · rw [← hd, h, hd2]
  · rw [← hm, h, hm2]

/-- The `0/1` indicator of channel `channel` in a value. -/
def cbv (v c : Nat) : Nat := if v &&& (1 <<< c) ≠ 0 then 1 else 0

/-- The in-block slot selected by `OutputSet::abstraction` for one value and
one channel. -/
def absKey (v c : Nat) : Nat := 2 * (popCount v - cbv v c) + cbv v c

theorem cbv_le_one (v c : Nat) : cbv v c ≤ 1 := by
  rw [cbv]
  split <;> omega

theorem cbv_le_popCount {W : Nat} (v c : Nat) (hv : v < 2 ^ W) :
    cbv v c ≤ popCount v := by
  rw [cbv]
  split
  · rename_i h
    rw [and_shift_ne_zero_iff] at h
    rw [popCount_eq_countP W v hv]
    have hcW : c < W := by
      by_contra hge
      rw [testBit_eq_false_of_lt hv (by omega)] at h
      cases h
    have : (List.range W).countP (fun k => v.testBit k) =
        (List.range W).countP (fun k => v.testBit k && !(k = c)) + 1 :=
      countP_pos_ne (List.mem_range.2 hcW) (List.nodup_range W) h
    omega
  · omega

theorem absKey_lt {W : Nat} (v c : Nat) (hv : v < 2 ^ W) (hc : c < W) :
    absKey v c < W * 2 := by
  rw [absKey]
  have h1 := cbv_le_one v c
  have h2 : popCount v - cbv v c ≤ W - 1 := by
    rw [cbv]
    by_cases hbit : v &&& (1 <<< c) ≠ 0
    · rw [if_pos hbit]
      have := popCount_le_of_lt_two_pow W v hv
      have := cbv_le_popCount v c hv
      rw [cbv, if_pos hbit] at this
      omega
    · rw [if_neg hbit]
      have hb : v.testBit c = false := by
        rw [← and_shift_eq_zero_iff]
        omega
      have := popCount_lt_of_testBit_false W v c hv hc hb
      omega
  omega

theorem absStep_getD {W v : Nat} (hv : v < 2 ^ W) {c c' j : Nat} (hc : c < W)
    (hc' : c' < W) (hj : j < W * 2) (acc : List Nat)
    (hlen : acc.length = W * W * 2) :
    (absStep W v acc c').getD (W * 2 * c + j) 0 =
      acc.getD (W * 2 * c + j) 0 +
        (if c' = c ∧ absKey v c' = j then 1 else 0) := by
  have hidx : 2 * (W * c' + (popCount v - (if v &&& (1 <<< c') ≠ 0 then 1 else 0)))
      + (if v &&& (1 <<< c') ≠ 0 then 1 else 0) = W * 2 * c' + absKey v c' := by
    rw [absKey, cbv]
    ring
  show (incAt acc _).getD _ 0 = _
  rw [incAt, hidx]
  have hkey := absKey_lt v c' hv hc'
  by_cases heq : c' = c ∧ absKey v c' = j
  · obtain ⟨h1, h2⟩ := heq
    subst h1
    subst h2
    have hilt : W * 2 * c' + absKey v c' < acc.length := by
      rw [hlen]
      have hc2 : c' + 1 ≤ W := hc'
      have hmul : W * 2 * (c' + 1) ≤ W * 2 * W := Nat.mul_le_mul_left _ hc2
      have hexp : W * 2 * (c' + 1) = W * 2 * c' + W * 2 := by ring
      have hfin : W * 2 * W = W * W * 2 := by ring
      omega
    rw [getD_set_self _ _ _ hilt]
    rw [if_pos ⟨rfl, rfl⟩]
  · have hne : W * 2 * c' + absKey v c' ≠ W * 2 * c + j := by
      intro hcontra
      exact heq (block_eq hj hkey hcontra)
    rw [getD_set_ne _ _ _ _ hne, if_neg heq]
    omega

theorem absInner_getD {W v : Nat} (hv : v < 2 ^ W) {c j : Nat} (hc : c < W)
    (hj : j < W * 2) :
    ∀ (cs : List Nat), (∀ x ∈ cs, x < W) → cs.Nodup →
      ∀ (acc : List Nat), acc.length = W * W * 2 →
      (cs.foldl (absStep W v) acc).getD (W * 2 * c + j) 0 =
        acc.getD (W * 2 * c + j) 0 +
          (if c ∈ cs ∧ absKey v c = j then 1 else 0) := by
  intro cs
  induction cs with
  | nil =>
    intro _ _ acc _
    simp
  | cons c' rest ih =>
    intro hcs hnd acc hlen
    rw [List.foldl_cons]
    have hlen' : (absStep W v acc c').length = W * W * 2 :=
      (absStep_sum hv (hcs c' (by simp)) acc hlen).2
    rw [ih (fun x hx => hcs x (by simp [hx])) (List.nodup_cons.1 hnd).2 _ hlen']
    rw [absStep_getD hv hc (hcs c' (by simp)) hj acc hlen]
    have hcnotin : c' ∉ rest := (List.nodup_cons.1 hnd).1
    by_cases hcc : c' = c
    · subst hcc
      have hnotin : ¬ (c' ∈ rest ∧ absKey v c' = j) := fun h => hcnotin h.1
      rw [if_neg hnotin]
      by_cases hkey : absKey v c' = j
      · rw [if_pos ⟨rfl, hkey⟩, if_pos ⟨by simp, hkey⟩]
      · rw [if_neg (fun h => hkey h.2), if_neg (fun h => hkey h.2)]
    · rw [if_neg (fun h => hcc h.1)]
      by_cases hrest : c ∈ rest ∧ absKey v c = j
      · rw [if_pos hrest, if_pos ⟨by simp [hrest.1], hrest.2⟩]
      · rw [if_neg hrest, if_neg (by
          intro h
          rcases List.mem_cons.1 h.1 with h1 | h1
          · exact hcc h1.symm
          · exact hrest ⟨h1, h.2⟩)]

theorem absOuter_getD {W : Nat} {c j : Nat} (hc : c < W) (hj : j < W * 2) :
    ∀ (vs : List Nat), (∀ v ∈ vs, v < 2 ^ W) →
      ∀ (acc : List Nat), acc.length = W * W * 2 →
      (vs.foldl (fun acc value => (List.range W).foldl (absStep W value) acc)
          acc).getD (W * 2 * c + j) 0 =
        acc.getD (W * 2 * c + j) 0 + vs.countP (fun v => absKey v c = j) := by
  intro vs
  induction vs with
  | nil =>
    intro _ acc _
    simp
  | cons v rest ih =>
    intro hvs acc hlen
    rw [List.foldl_cons]
    have hlen' : ((List.range W).foldl (absStep W v) acc).length = W * W * 2 :=
      (abstraction_inner_sum (hvs v (by simp)) (List.range W)
        (fun x hx => List.mem_range.1 hx) acc hlen).2
    rw [ih (fun x hx => hvs x (by simp [hx])) _ hlen']
    rw [absInner_getD (hvs v (by simp)) hc hj (List.range W)
      (fun x hx => List.mem_range.1 hx) (List.nodup_range W) acc hlen]
    rw [List.countP_cons]
    by_cases hkey : absKey v c = j
    · rw [if_pos ⟨List.mem_range.2 hc, hkey⟩]
      simp [hkey]
      omega
    · rw [if_neg (fun h => hkey h.2)]
      simp [hkey]

/-- Slot-level characterization of `OutputSet::abstraction`: the counter at
block `c`, offset `j` counts the values whose popcount/bit pattern keys to
`j`. -/
theorem abstraction_slot (s : OutputSet)
    (hb : ∀ v ∈ s.values, v < 2 ^ s.channels) {c j : Nat} (hc : c < s.channels)
    (hj : j < s.channels * 2) :
    s.abstraction.values.getD (s.channels * 2 * c + j) 0 =
      s.values.countP (fun v => absKey v c = j) := by
  rw [OutputSet.abstraction]
  rw [absOuter_getD hc hj s.values hb _ (by simp)]
  have hz : (List.replicate (s.channels * s.channels * 2) (0 : Nat)).getD
      (s.channels * 2 * c + j) 0 = 0 := by
    by_cases hin : s.channels * 2 * c + j < s.channels * s.channels * 2
    · exact getD_replicate hin
    · exact List.getD_eq_default _ _ (by simpa using Nat.le_of_not_lt hin)
  rw [hz]
  omega

theorem abstraction_length (s : OutputSet)
    (hb : ∀ v ∈ s.values, v < 2 ^ s.channels) :
    s.abstraction.values.length = s.channels * s.channels * 2 :=
  (abstraction_fold_sum s.values hb _ (by simp)).2

theorem abstraction_channels (s : OutputSet) :
    s.abstraction.channels = s.channels := rfl

/-! ### Channel-wise abstraction dominance under subsumption -/

theorem getD_range_map (σ : Nat → Nat) {W k : Nat} (hk : k < W) :
    ((List.range W).map σ).getD k 0 = σ k := by
  rw [getD_eq_getElem 0 _ k (by simpa using hk), List.getElem_map,
    List.getElem_range]

/-- Remap of one value along a channel map, as `remapValue` over the listed
map. -/
def remapF (σ : Nat → Nat) (W u : Nat) : Nat :=
  remapValue ((List.range W).map σ) u

theorem remapF_testBit (σ : Nat → Nat) (W u k : Nat) :
    (remapF σ W u).testBit k = if k < W then u.testBit (σ k) else false := by
  rw [remapF, remapValue_testBit]
  by_cases hk : k < W
  · rw [if_pos (by simpa using hk), if_pos hk, getD_range_map σ hk]
  · rw [if_neg (by simpa using hk), if_neg hk]

theorem remapF_lt (σ : Nat → Nat) (W u : Nat) : remapF σ W u < 2 ^ W := by
  have := remapValue_lt u ((List.range W).map σ)
  rwa [List.length_map, List.length_range] at this

theorem countP_perm_range {W : Nat} {σ σi : Nat → Nat} (hbij : BijOn W σ σi)
    (p : Nat → Bool) :
    (List.range W).countP (fun k => p (σ k)) = (List.range W).countP p := by
  have h2 : (List.range W).countP (fun k => p (σ k)) =
      ((List.range W).map σ).countP p := by
    rw [List.countP_map]
    rfl
  rw [h2]
  have hnd : ((List.range W).map σ).Nodup := by
    refine List.Nodup.map_on ?_ (List.nodup_range W)
    intro x hx y hy hxy
    exact hbij.inj (List.mem_range.1 hx) (List.mem_range.1 hy) hxy
  have hsub : ((List.range W).map σ) ⊆ List.range W := by
    intro x hx
    rcases List.mem_map.1 hx with ⟨u, hu, rfl⟩
    exact List.mem_range.2 (hbij.mapsTo u (List.mem_range.1 hu))
  have hperm : ((List.range W).map σ).Perm (List.range W) :=
    (List.subperm_of_subset hnd hsub).perm_of_length_le (by simp)
  rw [hperm.countP_eq]

theorem popCount_remapF {W : Nat} {σ σi : Nat → Nat} (hbij : BijOn W σ σi)
    {u : Nat} (hu : u < 2 ^ W) : popCount (remapF σ W u) = popCount u := by
  rw [popCount_eq_countP W _ (remapF_lt σ W u), popCount_eq_countP W u hu]
  have h1 : (List.range W).countP (fun k => (remapF σ W u).testBit k) =
      (List.range W).countP (fun k => u.testBit (σ k)) := by
    apply List.countP_congr
    intro k hk
    rw [remapF_testBit, if_pos (List.mem_range.1 hk)]
  rw [h1]
  exact countP_perm_range hbij _

theorem cbv_testBit (v c : Nat) : cbv v c = if v.testBit c then 1 else 0 := by
  rw [cbv]
  by_cases h : v.testBit c
  · rw [if_pos ((and_shift_ne_zero_iff v c).2 h), if_pos h]
  · rw [if_neg (fun hc => h ((and_shift_ne_zero_iff v c).1 hc)), if_neg h]

theorem absKey_remapF {W : Nat} {σ σi : Nat → Nat} (hbij : BijOn W σ σi)
    {u : Nat} (hu : u < 2 ^ W) {a : Nat} (ha : a < W) :
    absKey (remapF σ W u) a = absKey u (σ a) := by
  rw [absKey, absKey, popCount_remapF hbij hu, cbv_testBit, cbv_testBit,
    remapF_testBit, if_pos ha]

/-- A value agreeing with `u` on all `σ`-mapped bits below `W` is exactly
the remap of `u`. -/
theorem eq_remapF {W : Nat} (σ : Nat → Nat) {v u : Nat} (hv : v < 2 ^ W)
    (h : ∀ k, k < W → v.testBit k = u.testBit (σ k)) : v = remapF σ W u := by
  apply Nat.eq_of_testBit_eq
  intro k
  rw [remapF_testBit]
  by_cases hk : k < W
  · rw [if_pos hk]
    exact h k hk
  · rw [if_neg hk]
    exact testBit_eq_false_of_lt hv (by omega)

/-- Key counting bound: if every value of `p` is a `σ`-remap of a value of
`q`, every abstraction slot of `p`'s channel `a` is dominated by `q`'s
channel `σ a` slot. -/
theorem slot_le_of_sub {W : Nat} {σ σi : Nat → Nat} (hbij : BijOn W σ σi)
    {pv qv : List Nat} (hpnd : pv.Nodup) (hqnd : qv.Nodup)
    (hpb : ∀ v ∈ pv, v < 2 ^ W) (hqb : ∀ u ∈ qv, u < 2 ^ W)
    (hsub : ∀ v ∈ pv, ∃ u ∈ qv, ∀ k, k < W → v.testBit k = u.testBit (σ k))
    {a j : Nat} (ha : a < W) :
    pv.countP (fun v => absKey v a = j) ≤
      qv.countP (fun u => absKey u (σ a) = j) := by
  have himg : pv ⊆ qv.map (remapF σ W) := by
    intro v hv
    obtain ⟨u, hu, hkeq⟩ := hsub v hv
    rw [List.mem_map]
    exact ⟨u, hu, (eq_remapF σ (hpb v hv) hkeq).symm⟩
  have hmapnd : (qv.map (remapF σ W)).Nodup := by
    refine List.Nodup.map_on ?_ hqnd
    intro x hx y hy hxy
    apply Nat.eq_of_testBit_eq
    intro k
    by_cases hk : k < W
    · have h1 := congrArg (fun z => z.testBit (σi k)) hxy
      simp only [remapF_testBit] at h1
      rw [if_pos (hbij.mapsToInv k hk), if_pos (hbij.mapsToInv k hk),
        hbij.rightInv k hk] at h1
      exact h1
    · rw [testBit_eq_false_of_lt (hqb x hx) (by omega),
        testBit_eq_false_of_lt (hqb y hy) (by omega)]
  have hsp := List.subperm_of_subset hpnd himg
  have h1 := hsp.countP_le (fun v => absKey v a = j)
  have h2 : (qv.map (remapF σ W)).countP (fun v => absKey v a = j) =
      qv.countP (fun u => absKey u (σ a) = j) := by
    rw [List.countP_map]
    apply List.countP_congr
    intro u hu
    simp only [Function.comp]
    rw [absKey_remapF hbij (hqb u hu) ha]
  rw [h2] at h1
  exact h1

theorem getD_drop_take {l : List Nat} {o L j : Nat} (hj : j < L)
    (hlen : o + j < l.length) :
    ((l.drop o).take L).getD j 0 = l.getD (o + j) 0 := by
  have h1 : j < ((l.drop o).take L).length := by
    rw [List.length_take, List.length_drop]
    omega
  rw [List.getD_eq_getElem?_getD, List.getElem?_eq_getElem h1]
  rw [List.getElem_take, List.getElem_drop]
  rw [List.getD_eq_getElem?_getD, List.getElem?_eq_getElem hlen]

/-- Index-level characterization of `Abstraction::channel_le`. -/
theorem channelLeCore_iff {W : Nat} {x y : Abstraction} (hxc : x.channels = W)
    (hlx : x.values.length = W * W * 2) (hly : y.values.length = W * W * 2)
    {c c' : Nat} (hc : c < W) (hc' : c' < W) :
    (x.channelLeCore c y c' = true) ↔
      ∀ j, j < W * 2 →
        x.values.getD (W * 2 * c + j) 0 ≤ y.values.getD (W * 2 * c' + j) 0 := by
  rw [Abstraction.channelLeCore]
  simp only [hxc]
  have hoff : ∀ (cc : Nat), cc < W → W * 2 * cc + W * 2 ≤ W * W * 2 := by
    intro cc hcc
    have h1 : W * 2 * (cc + 1) ≤ W * 2 * W := Nat.mul_le_mul_left _ hcc
    have h2 : W * 2 * (cc + 1) = W * 2 * cc + W * 2 := by ring
    have h3 : W * 2 * W = W * W * 2 := by ring
    omega
  have hmlen : ((x.values.drop (W * 2 * c)).take (W * 2)).length = W * 2 := by
    rw [List.length_take, List.length_drop, hlx]
    have := hoff c hc
    omega
  have holen : ((y.values.drop (W * 2 * c')).take (W * 2)).length = W * 2 := by
    rw [List.length_take, List.length_drop, hly]
    have := hoff c' hc'
    omega
  rw [List.all_eq_true]
  constructor
  · intro h j hj
    have hjm : j < (List.zip ((x.values.drop (W * 2 * c)).take (W * 2))
        ((y.values.drop (W * 2 * c')).take (W * 2))).length := by
      rw [List.length_zip, hmlen, holen]
      omega
    have hmem : (((x.values.drop (W * 2 * c)).take (W * 2)).getD j 0,
        ((y.values.drop (W * 2 * c')).take (W * 2)).getD j 0) ∈
          List.zip ((x.values.drop (W * 2 * c)).take (W * 2))
            ((y.values.drop (W * 2 * c')).take (W * 2)) := by
      have hjx : j < ((x.values.drop (W * 2 * c)).take (W * 2)).length := by
        rw [hmlen]; exact hj
      have hjy : j < ((y.values.drop (W * 2 * c')).take (W * 2)).length := by
        rw [holen]; exact hj
      have hzz : (List.zip ((x.values.drop (W * 2 * c)).take (W * 2))
          ((y.values.drop (W * 2 * c')).take (W * 2))).get ⟨j, hjm⟩ =
          (((x.values.drop (W * 2 * c)).take (W * 2)).getD j 0,
          ((y.values.drop (W * 2 * c')).take (W * 2)).getD j 0) := by
        rw [getD_eq_getElem 0 _ j hjx, getD_eq_getElem 0 _ j hjy]
        exact List.getElem_zip
      rw [← hzz]
      exact List.getElem_mem _
    have hle := h _ hmem
    rw [decide_eq_true_eq] at hle
    have hgx : ((x.values.drop (W * 2 * c)).take (W * 2)).getD j 0 =
        x.values.getD (W * 2 * c + j) 0 := by
      apply getD_drop_take hj
      rw [hlx]
      have := hoff c hc
      omega
    have hgy : ((y.values.drop (W * 2 * c')).take (W * 2)).getD j 0 =
        y.values.getD (W * 2 * c' + j) 0 := by
      apply getD_drop_take hj
      rw [hly]
      have := hoff c' hc'
      omega
    rw [hgx, hgy] at hle
    exact hle
  · intro h p hp
    obtain ⟨i, hi, hip⟩ := List.mem_iff_getElem.1 hp
    have hiW : i < W * 2 := by
      rw [List.length_zip, hmlen, holen] at hi
      omega
    have hix : i < ((x.values.drop (W * 2 * c)).take (W * 2)).length := by
      rw [hmlen]; exact hiW
    have hiy : i < ((y.values.drop (W * 2 * c')).take (W * 2)).length := by
      rw [holen]; exact hiW
    have hz : (List.zip ((x.values.drop (W * 2 * c)).take (W * 2))
        ((y.values.drop (W * 2 * c')).take (W * 2))).get ⟨i, hi⟩ =
        (((x.values.drop (W * 2 * c)).take (W * 2)).getD i 0,
        ((y.values.drop (W * 2 * c')).take (W * 2)).getD i 0) := by
      rw [getD_eq_getElem 0 _ i hix, getD_eq_getElem 0 _ i hiy]
      exact List.getElem_zip
    have hip2 : (((x.values.drop (W * 2 * c)).take (W * 2)).getD i 0,
        ((y.values.drop (W * 2 * c')).take (W * 2)).getD i 0) = p := by
      rw [← hz]
      exact hip
    subst hip2
    rw [decide_eq_true_eq]
    have hgx : ((x.values.drop (W * 2 * c)).take (W * 2)).getD i 0 =
        x.values.getD (W * 2 * c + i) 0 := by
      apply getD_drop_take hiW
      rw [hlx]
      have := hoff c hc
      omega
    have hgy : ((y.values.drop (W * 2 * c')).take (W * 2)).getD i 0 =
        y.values.getD (W * 2 * c' + i) 0 := by
      apply getD_drop_take hiW
      rw [hly]
      have := hoff c' hc'
      omega
    rw [hgx, hgy]
    exact h i hiW

/-- Abstraction dominance: if the node set is contained in a `σ`-remap of
the query set, every node channel's abstraction slice is dominated by the
query's `σ`-image channel slice. -/
theorem abstraction_channel_le {W : Nat} {σ σi : Nat → Nat}
    (hbij : BijOn W σ σi) {p q : OutputSet} (hpW : p.channels = W)
    (hqW : q.channels = W) (hpnd : p.values.Nodup) (hqnd : q.values.Nodup)
    (hpb : ∀ v ∈ p.values, v < 2 ^ W) (hqb : ∀ u ∈ q.values, u < 2 ^ W)
    (hsub : ∀ v ∈ p.values, ∃ u ∈ q.values, ∀ k, k < W →
      v.testBit k = u.testBit (σ k))
    {a : Nat} (ha : a < W) :
    p.abstraction.channelLeCore a q.abstraction (σ a) = true := by
  rw [channelLeCore_iff (by rw [abstraction_channels, hpW])
    (by rw [abstraction_length p (by rw [hpW]; exact hpb), hpW])
    (by rw [abstraction_length q (by rw [hqW]; exact hqb), hqW])
    ha (hbij.mapsTo a ha)]
  intro j hj
  have hx : p.abstraction.values.getD (W * 2 * a + j) 0 =
      p.values.countP (fun v => absKey v a = j) := by
    have h0 := abstraction_slot p (by rw [hpW]; exact hpb)
      (show a < p.channels by rw [hpW]; exact ha)
      (show j < p.channels * 2 by rw [hpW]; exact hj)
    rw [hpW] at h0
    exact h0
  have hy : q.abstraction.values.getD (W * 2 * (σ a) + j) 0 =
      q.values.countP (fun u => absKey u (σ a) = j) := by
    have h0 := abstraction_slot q (by rw [hqW]; exact hqb)
      (show σ a < q.channels by rw [hqW]; exact hbij.mapsTo a ha)
      (show j < q.channels * 2 by rw [hqW]; exact hj)
    rw [hqW] at h0
    exact h0
  rw [hx, hy]
  exact slot_le_of_sub hbij hpnd hqnd hpb hqb hsub ha

/-! ### Search-level lemmas for `combine_permuted` -/

theorem combinePermuted_succ {T : Type} [SubsumeIndexItem T] (fuel : Nat)
    (node_pair pair : AbstractedPair T) (perm : List Nat)
    (matching : Matching) :
    combinePermuted (fuel + 1) node_pair pair perm matching =
      (fun (rot : Matching × List Nat × AbstractedPair T × Nat) =>
        match (if rot.2.2.2 = node_pair.output_set.channels then
            (if node_pair.output_set.subsumes rot.2.2.1.output_set then
              Except.ok { node_pair with item := (SubsumeIndexItem.combine
                node_pair.item rot.2.1 rot.2.2.1.item) }
            else Except.error rot.2.2.1)
          else
            match minPairList (((List.range node_pair.output_set.channels).map
                  (fun a => (popCount (rot.1.matchesAAt a), a))).filter
                    (fun p => p.1 > 1)),
                minPairList (((List.range node_pair.output_set.channels).map
                  (fun a => (popCount (rot.1.matchesAAt a), a))).filter
                    (fun p => p.1 > 1)) with
            | some (count_a, channel_a), some (count_b, channel_b) =>
              if count_a < count_b then
                branchLoop (fun m cb => Matching.select fuel m channel_a cb)
                  (fun pr mt => combinePermuted fuel node_pair pr rot.2.1 mt)
                  (List.range node_pair.output_set.channels) rot.2.2.1 rot.1
              else
                branchLoop (fun m ca => Matching.select fuel m ca channel_b)
                  (fun pr mt => combinePermuted fuel node_pair pr rot.2.1 mt)
                  (List.range node_pair.output_set.channels) rot.2.2.1 rot.1
            | _, _ => Except.error rot.2.2.1) with
        | .ok r => .ok r
        | .error pairF => .error { pairF with
            abstraction := pair.abstraction, output_set := pair.output_set })
      ((List.range node_pair.output_set.channels).foldl rotationStep
        (matching, perm, pair, 0)) := rfl

theorem rotationStep_item {T : Type} (st : Matching × List Nat ×
    AbstractedPair T × Nat) (c : Nat) :
    (rotationStep st c).2.2.1.item = st.2.2.1.item := by
  obtain ⟨m, perm, pair, cnt⟩ := st
  rw [rotationStep]
  cases m.unique_match_a c with
  | none => rfl
  | some b =>
    by_cases hbc : b ≠ c
    · simp only [if_pos hbc]
    · simp only [if_neg hbc]

theorem rotationFold_item {T : Type} : ∀ (cs : List Nat)
    (st : Matching × List Nat × AbstractedPair T × Nat),
    (cs.foldl rotationStep st).2.2.1.item = st.2.2.1.item := by
  intro cs
  induction cs with
  | nil => intro st; rfl
  | cons c rest ih =>
    intro st
    rw [List.foldl_cons, ih, rotationStep_item]

theorem branchLoop_error {T : Type}
    (sel : Matching → Nat → Bool × Matching)
    (f : AbstractedPair T → Matching → Except (AbstractedPair T) (AbstractedPair T))
    (hres : ∀ pr mt r, f pr mt = .error r → r = pr) :
    ∀ (lst : List Nat) (pair : AbstractedPair T) (matching : Matching) (r : AbstractedPair T),
    branchLoop sel f lst pair matching = .error r → r = pair := by
  intro lst
  induction lst with
  | nil =>
    intro pair matching r h
    cases h
    rfl
  | cons c rest ih =>
    intro pair matching r h
    rw [branchLoop] at h
    rcases hsel : sel matching c with ⟨fl, m'⟩
    rw [hsel] at h
    cases fl with
    | true =>
      have h2 : branchLoop sel f rest pair matching = .error r := h
      exact ih pair matching r h2
    | false =>
      have h2 : (match f pair m' with
          | .ok rr => (Except.ok rr : Except (AbstractedPair T) (AbstractedPair T))
          | .error pair' => branchLoop sel f rest pair' matching) = .error r := h
      cases hf : f pair m' with
      | error r0 =>
        rw [hf] at h2
        have h3 : branchLoop sel f rest r0 matching = .error r := h2
        have h4 := ih r0 matching r h3
        rw [h4]
        exact hres pair m' r0 hf
      | ok r0 =>
        rw [hf] at h2
        cases h2

theorem branchLoop_ok {T : Type}
    (sel : Matching → Nat → Bool × Matching)
    (f : AbstractedPair T → Matching → Except (AbstractedPair T) (AbstractedPair T))
    (hres : ∀ pr mt r, f pr mt = .error r → r = pr) :
    ∀ (lst : List Nat) (pair : AbstractedPair T) (matching : Matching),
    (∃ c ∈ lst, ∃ m', sel matching c = (false, m') ∧
      ∃ r, f pair m' = .ok r) →
    ∃ r, branchLoop sel f lst pair matching = .ok r := by
  intro lst
  induction lst with
  | nil =>
    intro pair matching h
    obtain ⟨c, hc, _⟩ := h
    exact absurd hc (List.not_mem_nil c)
  | cons c0 rest ih =>
    intro pair matching h
    rw [branchLoop]
    rcases hsel : sel matching c0 with ⟨fl, m0⟩
    cases fl with
    | true =>
      show ∃ r, branchLoop sel f rest pair matching = .ok r
      apply ih pair matching
      obtain ⟨c, hc, m', hm', r, hr⟩ := h
      rcases List.mem_cons.1 hc with rfl | hc2
      · rw [hsel] at hm'
        cases hm'
      · exact ⟨c, hc2, m', hm', r, hr⟩
    | false =>
      show ∃ r, (match f pair m0 with
        | .ok rr => (Except.ok rr : Except (AbstractedPair T) (AbstractedPair T))
        | .error pair' => branchLoop sel f rest pair' matching) = .ok r
      cases hf : f pair m0 with
      | error r0 =>
        have hr0 : r0 = pair := hres pair m0 r0 hf
        subst hr0
        show ∃ r, branchLoop sel f rest r0 matching = .ok r
        apply ih r0 matching
        obtain ⟨c, hc, m', hm', r, hr⟩ := h
        rcases List.mem_cons.1 hc with rfl | hc2
        · rw [hsel] at hm'
          have hmm : m0 = m' := by
            cases hm'
            rfl
          rw [← hmm] at hr
          rw [hf] at hr
          cases hr
        · exact ⟨c, hc2, m', hm', r, hr⟩
      | ok r0 =>
        exact ⟨r0, rfl⟩

/-- Every rejection of `combine_permuted` returns the query pair itself. -/
theorem combinePermuted_error_eq {T : Type} [SubsumeIndexItem T] :
    ∀ (fuel : Nat) (np pr : AbstractedPair T) (perm : List Nat)
      (mt : Matching) (r : AbstractedPair T),
    combinePermuted fuel np pr perm mt = .error r → r = pr := by
  intro fuel
  induction fuel with
  | zero =>
    intro np pr perm mt r h
    cases h
    rfl
  | succ fuel ih =>
    intro np pr perm mt r h
    rw [combinePermuted_succ] at h
    simp only [] at h
    set rot := (List.range np.output_set.channels).foldl rotationStep
      (mt, perm, pr, 0) with hrot
    have hitem : rot.2.2.1.item = pr.item := rotationFold_item _ _
    cases hatt : (if rot.2.2.2 = np.output_set.channels then
        (if np.output_set.subsumes rot.2.2.1.output_set then
          Except.ok { np with item := (SubsumeIndexItem.combine
            np.item rot.2.1 rot.2.2.1.item) }
        else Except.error rot.2.2.1)
      else
        match minPairList (((List.range np.output_set.channels).map
              (fun a => (popCount (rot.1.matchesAAt a), a))).filter
                (fun p => p.1 > 1)),
            minPairList (((List.range np.output_set.channels).map
              (fun a => (popCount (rot.1.matchesAAt a), a))).filter
                (fun p => p.1 > 1)) with
        | some (count_a, channel_a), some (count_b, channel_b) =>
          if count_a < count_b then
            branchLoop (fun m cb => Matching.select fuel m channel_a cb)
              (fun pr2 mt2 => combinePermuted fuel np pr2 rot.2.1 mt2)
              (List.range np.output_set.channels) rot.2.2.1 rot.1
          else
            branchLoop (fun m ca => Matching.select fuel m ca channel_b)
              (fun pr2 mt2 => combinePermuted fuel np pr2 rot.2.1 mt2)
              (List.range np.output_set.channels) rot.2.2.1 rot.1
        | _, _ => Except.error rot.2.2.1) with
    | ok r0 =>
      rw [hatt] at h
      have h2 : (Except.ok r0 :
          Except (AbstractedPair T) (AbstractedPair T)) = .error r := h
      cases h2
    | error r0 =>
      rw [hatt] at h
      have h2 : (Except.error { r0 with
          abstraction := pr.abstraction, output_set := pr.output_set } :
            Except (AbstractedPair T) (AbstractedPair T)) = .error r := h
      have hr : r = { r0 with
          abstraction := pr.abstraction, output_set := pr.output_set } := by
        cases h2
        rfl
      have hr0item : r0.item = pr.item := by
        have hpair2item : rot.2.2.1.item = pr.item := hitem
        revert hatt
        split
        · split
          · intro hcontra
            cases hcontra
          · intro hcontra
            have : rot.2.2.1 = r0 := by
              cases hcontra
              rfl
            rw [← this]
            exact hpair2item
        · split
          · split
            · intro hbl
              have := branchLoop_error _ _
                (fun pr2 mt2 rr hh => ih np pr2 rot.2.1 mt2 rr hh) _ _ _ _ hbl
              rw [this]
              exact hpair2item
            · intro hbl
              have := branchLoop_error _ _
                (fun pr2 mt2 rr hh => ih np pr2 rot.2.1 mt2 rr hh) _ _ _ _ hbl
              rw [this]
              exact hpair2item
          · intro hcontra
            have : rot.2.2.1 = r0 := by
              cases hcontra
              rfl
            rw [← this]
            exact hpair2item
      rw [hr]
      have hfin : ({ r0 with
          abstraction := pr.abstraction, output_set := pr.output_set } :
            AbstractedPair T) =
          ⟨pr.abstraction, pr.output_set, r0.item⟩ := rfl
      rw [hfin, hr0item]

theorem minPairList_mem : ∀ (l : List (Nat × Nat)) (acc : Option (Nat × Nat))
    (p : Nat × Nat),
    l.foldl (fun best q =>
      match best with
      | none => some q
      | some b => if q.1 < b.1 ∨ (q.1 = b.1 ∧ q.2 < b.2) then some q else best)
      acc = some p →
    p ∈ l ∨ acc = some p := by
  intro l
  induction l with
  | nil =>
    intro acc p h
    exact Or.inr h
  | cons q rest ih =>
    intro acc p h
    rw [List.foldl_cons] at h
    rcases ih _ p h with hmem | hacc
    · exact Or.inl (List.mem_cons_of_mem _ hmem)
    · rcases acc with _ | b
      · have hqp : some q = some p := hacc
        have : q = p := by
          cases hqp
          rfl
        exact Or.inl (this ▸ List.mem_cons_self _ _)
      · have hacc2 : (if q.1 < b.1 ∨ (q.1 = b.1 ∧ q.2 < b.2) then some q
            else some b) = some p := hacc
        by_cases hlt : q.1 < b.1 ∨ (q.1 = b.1 ∧ q.2 < b.2)
        · rw [if_pos hlt] at hacc2
          have : q = p := by
            cases hacc2
            rfl
          exact Or.inl (this ▸ List.mem_cons_self _ _)
        · rw [if_neg hlt] at hacc2
          exact Or.inr hacc2

theorem minPairList_isSome : ∀ (l : List (Nat × Nat)) (acc : Option (Nat × Nat)),
    (l ≠ [] ∨ acc.isSome) →
    (l.foldl (fun best q =>
      match best with
      | none => some q
      | some b => if q.1 < b.1 ∨ (q.1 = b.1 ∧ q.2 < b.2) then some q else best)
      acc).isSome := by
  intro l
  induction l with
  | nil =>
    intro acc h
    rcases h with h | h
    · exact absurd rfl h
    · exact h
  | cons q rest ih =>
    intro acc h
    rw [List.foldl_cons]
    apply ih
    right
    rcases acc with _ | b
    · rfl
    · show (if q.1 < b.1 ∨ (q.1 = b.1 ∧ q.2 < b.2) then some q
        else some b).isSome = true
      by_cases hlt : q.1 < b.1 ∨ (q.1 = b.1 ∧ q.2 < b.2)
      · rw [if_pos hlt]
        rfl
      · rw [if_neg hlt]
        rfl

/-- Output-set well-formedness for the search development. -/
def OSWF (W : Nat) (s : OutputSet) : Prop :=
  s.channels = W ∧ List.Sorted (· < ·) s.values ∧ ∀ v ∈ s.values, v < 2 ^ W

/-- The node value list is contained in the `σ`-remapped query value list. -/
def SemSub (W : Nat) (σ : Nat → Nat) (nv qv : List Nat) : Prop :=
  ∀ v ∈ nv, ∃ u ∈ qv, ∀ k, k < W → v.testBit k = u.testBit (σ k)

theorem rotationStep_inv {T : Type} {W : Nat} {nv : List Nat} {k : Nat}
    (hk : k < W) {m : Matching} (perm : List Nat) {pair : AbstractedPair T}
    (cnt : Nat) {σ σi : Nat → Nat} (hm : MState W σ σi m)
    (hos : OSWF W pair.output_set)
    (hsem : SemSub W σ nv pair.output_set.values)
    (hdiag : ∀ a, a < k → popCount (m.matchesAAt a) = 1 →
      m.matchesAAt a = 2 ^ a) :
    ∃ σ' σi',
      MState W σ' σi' (rotationStep (m, perm, pair, cnt) k).1 ∧
      OSWF W (rotationStep (m, perm, pair, cnt) k).2.2.1.output_set ∧
      SemSub W σ' nv (rotationStep (m, perm, pair, cnt) k).2.2.1.output_set.values ∧
      (rotationStep (m, perm, pair, cnt) k).2.2.2 =
        cnt + (if popCount (m.matchesAAt k) = 1 then 1 else 0) ∧
      (∀ x, popCount ((rotationStep (m, perm, pair, cnt) k).1.matchesAAt x) =
        popCount (m.matchesAAt x)) ∧
      popSum (rotationStep (m, perm, pair, cnt) k).1 = popSum m ∧
      (∀ a, a < k + 1 →
        popCount ((rotationStep (m, perm, pair, cnt) k).1.matchesAAt a) = 1 →
        (rotationStep (m, perm, pair, cnt) k).1.matchesAAt a = 2 ^ a) := by
  by_cases hpc : popCount (m.matchesAAt k) = 1
  case neg =>
    have hu : m.unique_match_a k = none := by
      rw [Matching.unique_match_a, if_neg (by rw [hm.inc]; simp)]
      exact if_neg hpc
    have hstep : rotationStep (m, perm, pair, cnt) k = (m, perm, pair, cnt) := by
      simp only [rotationStep]
      rw [hu]
    rw [hstep]
    refine ⟨σ, σi, hm, hos, hsem, by rw [if_neg hpc]; rfl, fun x => rfl, rfl, ?_⟩
    intro a ha hpa
    rcases Nat.lt_or_ge a k with h1 | h1
    · exact hdiag a h1 hpa
    · have hak : a = k := by omega
      subst hak
      exact absurd hpa hpc
  case pos =>
    have hrowk : m.matchesAAt k = 2 ^ (σ k) :=
      eq_two_pow_of_popCount_one (hm.boundA k) hpc (hm.compat k hk)
    have htz : trailingZeros (m.matchesAAt k) = σ k :=
      trailingZeros_of_popCount_one (hm.boundA k) hpc (hm.compat k hk)
    have hpc2 : popCount (m.matches_a.getD k 0) = 1 := hpc
    have htz2 : trailingZeros (m.matches_a.getD k 0) = σ k := htz
    have hu : m.unique_match_a k = some (σ k) := by
      rw [Matching.unique_match_a, if_neg (by rw [hm.inc]; simp)]
      show (if popCount (m.matches_a.getD k 0) = 1 then
        some (trailingZeros (m.matches_a.getD k 0)) else none) = some (σ k)
      rw [if_pos hpc2, htz2]
    have hσkW : σ k < W := hm.bij.mapsTo k hk
    have hmatch : rotationStep (m, perm, pair, cnt) k =
        (if σ k ≠ k then
          (m.swap_channels_b (σ k) k, swapList perm (σ k) k,
            { pair with
                abstraction := pair.abstraction.swapChannelsAbs (σ k) k,
                output_set := pair.output_set.swapChannelsCore (σ k) k },
            cnt + 1)
        else (m, perm, pair, cnt + 1)) := by
      show (match m.unique_match_a k with
        | none => (m, perm, pair, cnt)
        | some channel_b =>
          if channel_b ≠ k then
            (m.swap_channels_b channel_b k, swapList perm channel_b k,
              { pair with
                  abstraction := pair.abstraction.swapChannelsAbs channel_b k,
                  output_set := pair.output_set.swapChannelsCore channel_b k },
              cnt + 1)
          else (m, perm, pair, cnt + 1)) = _
      rw [hu]
    by_cases heq : σ k = k
    case pos =>
      have hstep : rotationStep (m, perm, pair, cnt) k = (m, perm, pair, cnt + 1) := by
        rw [hmatch, if_neg (fun hcon => hcon heq)]
      rw [hstep]
      refine ⟨σ, σi, hm, hos, hsem, by rw [if_pos hpc], fun x => rfl, rfl, ?_⟩
      intro a ha hpa
      rcases Nat.lt_or_ge a k with h1 | h1
      · exact hdiag a h1 hpa
      · have hak : a = k := by omega
        subst hak
        rw [hrowk, heq]
    case neg =>
      have hstep : rotationStep (m, perm, pair, cnt) k =
          (m.swap_channels_b (σ k) k, swapList perm (σ k) k,
            { pair with
                abstraction := pair.abstraction.swapChannelsAbs (σ k) k,
                output_set := pair.output_set.swapChannelsCore (σ k) k },
            cnt + 1) := by
        rw [hmatch, if_pos heq]
      rw [hstep]
      have hm2 := mstate_swapB hm hσkW hk heq
      have hswap := swapChannelsCore_values hos.2.1
        (by rw [hos.1]; exact hos.2.2)
        (by rw [hos.1]; exact hm.wle)
        (by rw [hos.1]; exact hσkW) (by rw [hos.1]; exact hk)
      have hbound2 : ∀ z ∈ (pair.output_set.swapChannelsCore (σ k) k).values,
          z < 2 ^ W := by
        intro z hz
        rcases (hswap.2 z).1 hz with ⟨v, hv, rfl⟩
        exact swapBits_lt hσkW hk (hos.2.2 v hv)
      refine ⟨fun j => transp (σ k) k (σ j), fun b => σi (transp (σ k) k b),
        hm2, ?_, ?_, by rw [if_pos hpc], ?_, ?_, ?_⟩
      · refine ⟨?_, hswap.1, hbound2⟩
        rw [swapChannelsCore_channels]
        exact hos.1
      · intro v hv
        obtain ⟨u, hu2, hbits⟩ := hsem v hv
        refine ⟨swapBits (σ k) k u, (hswap.2 _).2 ⟨u, hu2, rfl⟩, ?_⟩
        intro j hj
        rw [swapBits_testBit, transp_transp]
        exact hbits j hj
      · intro x
        exact popCount_swapB_row hm hσkW hk heq x
      · exact popSum_swapB hm hσkW hk heq
      · intro a ha hpa
        have haW : a < W := by omega
        have hpold : popCount (m.matchesAAt a) = 1 := by
          rw [← popCount_swapB_row hm hσkW hk heq a]
          exact hpa
        have hσa : transp (σ k) k (σ a) = a := by
          rcases Nat.lt_or_ge a k with h1 | h1
          · have hrowa := hdiag a h1 hpold
            have hcompat := hm.compat a haW
            rw [hrowa, Nat.testBit_two_pow] at hcompat
            have haσ : a = σ a := by
              simpa using hcompat
            have hka : σ k ≠ a := by
              intro hcontra
              have : σ k = σ a := by rw [hcontra, ← haσ]
              have := hm.bij.inj hk haW this
              omega
            rw [← haσ, transp_other (by omega) (by omega)]
          · have hak : a = k := by omega
            subst hak
            rw [transp_left]
        exact (eq_two_pow_of_popCount_one (hm2.boundA a) hpa
          (hm2.compat a haW)).trans (by rw [hσa])

theorem rotation_fold {T : Type} {W : Nat} {nv : List Nat} :
    ∀ (k : Nat), k ≤ W →
    ∀ (m0 : Matching) (perm0 : List Nat) (pair0 : AbstractedPair T)
      (σ0 σi0 : Nat → Nat),
    MState W σ0 σi0 m0 → OSWF W pair0.output_set →
    SemSub W σ0 nv pair0.output_set.values →
    ∃ σ σi,
      MState W σ σi ((List.range k).foldl rotationStep (m0, perm0, pair0, 0)).1 ∧
      OSWF W ((List.range k).foldl rotationStep
        (m0, perm0, pair0, 0)).2.2.1.output_set ∧
      SemSub W σ nv ((List.range k).foldl rotationStep
        (m0, perm0, pair0, 0)).2.2.1.output_set.values ∧
      ((List.range k).foldl rotationStep (m0, perm0, pair0, 0)).2.2.2 =
        (List.range k).countP (fun a =>
          popCount (((List.range k).foldl rotationStep
            (m0, perm0, pair0, 0)).1.matchesAAt a) = 1) ∧
      (∀ a, a < k →
        popCount (((List.range k).foldl rotationStep
          (m0, perm0, pair0, 0)).1.matchesAAt a) = 1 →
        ((List.range k).foldl rotationStep (m0, perm0, pair0, 0)).1.matchesAAt a
          = 2 ^ a) ∧
      popSum ((List.range k).foldl rotationStep (m0, perm0, pair0, 0)).1 =
        popSum m0 := by
  intro k
  induction k with
  | zero =>
    intro _ m0 perm0 pair0 σ0 σi0 hm0 hos0 hsem0
    exact ⟨σ0, σi0, hm0, hos0, hsem0, rfl, fun a ha => absurd ha (by omega), rfl⟩
  | succ k ih =>
    intro hkW m0 perm0 pair0 σ0 σi0 hm0 hos0 hsem0
    obtain ⟨σ, σi, hm1, hos1, hsem1, hcnt1, hdiag1, hpop1⟩ :=
      ih (by omega) m0 perm0 pair0 σ0 σi0 hm0 hos0 hsem0
    rw [List.range_succ, List.foldl_append, List.foldl_cons, List.foldl_nil]
    rcases hst : (List.range k).foldl rotationStep (m0, perm0, pair0, 0) with
      ⟨m1, perm1, pair1, cnt1⟩
    rw [hst] at hm1 hos1 hsem1 hcnt1 hdiag1 hpop1
    have hm1b : MState W σ σi m1 := hm1
    have hos1b : OSWF W pair1.output_set := hos1
    have hsem1b : SemSub W σ nv pair1.output_set.values := hsem1
    have hcnt1b : cnt1 = (List.range k).countP
        (fun a => popCount (m1.matchesAAt a) = 1) := hcnt1
    have hdiag1b : ∀ a, a < k → popCount (m1.matchesAAt a) = 1 →
        m1.matchesAAt a = 2 ^ a := hdiag1
    have hpop1b : popSum m1 = popSum m0 := hpop1
    obtain ⟨σ', σi', hm2, hos2, hsem2, hcnt2, hrows2, hpop2, hdiag2⟩ :=
      rotationStep_inv (show k < W by omega) perm1 cnt1 hm1b hos1b hsem1b
        hdiag1b
    refine ⟨σ', σi', hm2, hos2, hsem2, ?_, hdiag2, by rw [hpop2, hpop1b]⟩
    have hcong : (List.range k).countP (fun a =>
        popCount ((rotationStep (m1, perm1, pair1, cnt1) k).1.matchesAAt a) = 1)
        = (List.range k).countP (fun a => popCount (m1.matchesAAt a) = 1) := by
      apply List.countP_congr
      intro a _
      rw [hrows2 a]
    have hsingle : ([k] : List Nat).countP (fun a =>
        popCount ((rotationStep (m1, perm1, pair1, cnt1) k).1.matchesAAt a) = 1)
        = if popCount (m1.matchesAAt k) = 1 then 1 else 0 := by
      rw [List.countP_cons, List.countP_nil, hrows2 k]
      by_cases hpk : popCount (m1.matchesAAt k) = 1
      · rw [if_pos hpk, if_pos (by simpa using hpk)]
      · rw [if_neg hpk, if_neg (by simpa using hpk)]
    rw [List.countP_append, hcnt2, hcong, hsingle, ← hcnt1b]

/-- Completeness of `Node::combine_permuted`: whenever the matching state is
compatible with a channel bijection `σ` under which the node's values are
contained in the query's values, and the fuel dominates the candidate count,
the search succeeds. -/
theorem combinePermuted_complete {T : Type} [SubsumeIndexItem T] :
    ∀ (fuel : Nat) (np pair : AbstractedPair T) (perm : List Nat)
      (m : Matching) (σ σi : Nat → Nat),
    MState np.output_set.channels σ σi m →
    OSWF np.output_set.channels np.output_set →
    OSWF np.output_set.channels pair.output_set →
    SemSub np.output_set.channels σ np.output_set.values
      pair.output_set.values →
    popSum m + 2 ≤ fuel →
    ∃ r, combinePermuted fuel np pair perm m = Except.ok r := by
  intro fuel
  induction fuel with
  | zero =>
    intro np pair perm m σ σi _ _ _ _ hfuel
    omega
  | succ fuel ih =>
    intro np pair perm m σ σi hm hnp hq hsem hfuel
    obtain ⟨σ', σi', hm2, hos2, hsem2, hcnt2, hdiag2, hpop2⟩ :=
      rotation_fold np.output_set.channels (le_refl _) m perm pair σ σi
        hm hq hsem
    rw [combinePermuted_succ]
    simp only []
    set rot := (List.range np.output_set.channels).foldl rotationStep
      (m, perm, pair, 0) with hrot
    have hfix : ∀ a, a < np.output_set.channels →
        popCount (rot.1.matchesAAt a) = 1 → σ' a = a := by
      intro a ha hp
      have hrow := hdiag2 a ha hp
      have hc := hm2.compat a ha
      rw [hrow, Nat.testBit_two_pow] at hc
      exact (of_decide_eq_true hc).symm
    have hone : ∀ a, a < np.output_set.channels →
        1 ≤ popCount (rot.1.matchesAAt a) := by
      intro a ha
      have hb := hm2.compat a ha
      have hσW := hm2.bij.mapsTo a ha
      have hle := popCount_le_popCount_of_testBit
        (r := 2 ^ (σ' a)) (s := rot.1.matchesAAt a)
        (Nat.pow_lt_pow_right (by norm_num) hσW) (hm2.boundA a)
        (fun k hk => by
          rw [Nat.testBit_two_pow] at hk
          have hσk := of_decide_eq_true hk
          rw [← hσk]
          exact hb)
      rw [popCount_two_pow] at hle
      exact hle
    by_cases hcd : rot.2.2.2 = np.output_set.channels
    case pos =>
      have hall : ∀ a, a < np.output_set.channels →
          popCount (rot.1.matchesAAt a) = 1 := by
        have hlen : (List.range np.output_set.channels).countP
            (fun a => popCount (rot.1.matchesAAt a) = 1) =
            (List.range np.output_set.channels).length := by
          rw [← hcnt2, hcd, List.length_range]
        intro a ha
        exact of_decide_eq_true
          (List.countP_eq_length.1 hlen a (List.mem_range.2 ha))
      have hsub : np.output_set.subsumes rot.2.2.1.output_set = true := by
        rw [subsumes_iff_subset np.output_set rot.2.2.1.output_set
          hnp.2.1 hos2.2.1]
        intro v hv
        obtain ⟨u, hu, hbits⟩ := hsem2 v hv
        have hvu : v = u := by
          apply Nat.eq_of_testBit_eq
          intro k
          by_cases hk : k < np.output_set.channels
          · have hb2 := hbits k hk
            rw [hfix k hk (hall k hk)] at hb2
            exact hb2
          · rw [testBit_eq_false_of_lt (hnp.2.2 v hv) (by omega),
              testBit_eq_false_of_lt (hos2.2.2 u hu) (by omega)]
        rw [hvu]
        exact hu
      refine ⟨{ np with item := (SubsumeIndexItem.combine np.item rot.2.1
        rot.2.2.1.item) }, ?_⟩
      have hatt : (if rot.2.2.2 = np.output_set.channels then
          (if np.output_set.subsumes rot.2.2.1.output_set then
            Except.ok { np with item := (SubsumeIndexItem.combine
              np.item rot.2.1 rot.2.2.1.item) }
          else Except.error rot.2.2.1)
        else
          match minPairList (((List.range np.output_set.channels).map
                (fun a => (popCount (rot.1.matchesAAt a), a))).filter
                  (fun p => p.1 > 1)),
              minPairList (((List.range np.output_set.channels).map
                (fun a => (popCount (rot.1.matchesAAt a), a))).filter
                  (fun p => p.1 > 1)) with
          | some (count_a, channel_a), some (count_b, channel_b) =>
            if count_a < count_b then
              branchLoop (fun m cb => Matching.select fuel m channel_a cb)
                (fun pr2 mt2 => combinePermuted fuel np pr2 rot.2.1 mt2)
                (List.range np.output_set.channels) rot.2.2.1 rot.1
            else
              branchLoop (fun m ca => Matching.select fuel m ca channel_b)
                (fun pr2 mt2 => combinePermuted fuel np pr2 rot.2.1 mt2)
                (List.range np.output_set.channels) rot.2.2.1 rot.1
          | _, _ => Except.error rot.2.2.1) =
          Except.ok { np with item := (SubsumeIndexItem.combine
            np.item rot.2.1 rot.2.2.1.item) } := by
        rw [if_pos hcd, if_pos hsub]
      rw [hatt]
    case neg =>
      have hexceed : ∃ a, a < np.output_set.channels ∧
          1 < popCount (rot.1.matchesAAt a) := by
        by_contra hcon
        have hall : ∀ a ∈ List.range np.output_set.channels,
            (fun a => decide (popCount (rot.1.matchesAAt a) = 1)) a = true := by
          intro a ha
          have haW := List.mem_range.1 ha
          have h1 := hone a haW
          have h2 : ¬ (1 < popCount (rot.1.matchesAAt a)) :=
            fun hh => hcon ⟨a, haW, hh⟩
          have h3 : popCount (rot.1.matchesAAt a) = 1 := by omega
          simpa using h3
        have hconc : rot.2.2.2 = np.output_set.channels := by
          rw [hcnt2, List.countP_eq_length.2 hall, List.length_range]
        exact hcd hconc
      obtain ⟨astar, hastarW, hastar2⟩ := hexceed
      have hmemstar : (popCount (rot.1.matchesAAt astar), astar) ∈
          ((List.range np.output_set.channels).map
            (fun a => (popCount (rot.1.matchesAAt a), a))).filter
              (fun p => p.1 > 1) := by
        apply List.mem_filter.2
        refine ⟨List.mem_map.2 ⟨astar, List.mem_range.2 hastarW, rfl⟩, ?_⟩
        simpa using hastar2
      have hlsome : (minPairList (((List.range np.output_set.channels).map
          (fun a => (popCount (rot.1.matchesAAt a), a))).filter
            (fun p => p.1 > 1))).isSome =  true :=
        minPairList_isSome _ none (Or.inl (List.ne_nil_of_mem hmemstar))
      obtain ⟨pm, hmp⟩ := Option.isSome_iff_exists.1 hlsome
      obtain ⟨cbc, cbh⟩ := pm
      rcases minPairList_mem _ none (cbc, cbh) hmp with hmem2 | hnone
      swap
      · cases hnone
      obtain ⟨hmm, hp1⟩ := List.mem_filter.1 hmem2
      obtain ⟨a0, ha0, heq0⟩ := List.mem_map.1 hmm
      injection heq0 with h1 h2
      subst h2
      subst h1
      have ha0W : a0 < np.output_set.channels := List.mem_range.1 ha0
      have hp1b : 1 < popCount (rot.1.matchesAAt a0) := by simpa using hp1
      have hcW : σi' a0 < np.output_set.channels := hm2.bij.mapsToInv a0 ha0W
      have hσc : σ' (σi' a0) = a0 := hm2.bij.rightInv a0 ha0W
      have hfuel2 : popSum rot.1 + 1 ≤ fuel := by
        rw [hpop2]
        omega
      obtain ⟨m', hsel, hm', hshr, hrow2⟩ := select_safe fuel rot.1
        (σi' a0) a0 hm2 hcW hσc.symm hfuel2
      have hcount : 2 ≤ popCount (rot.1.matchesAAt (σi' a0)) := by
        have h1 := hone (σi' a0) hcW
        by_cases h2 : popCount (rot.1.matchesAAt (σi' a0)) = 1
        · exfalso
          have h3 := hfix (σi' a0) hcW h2
          rw [h3] at hσc
          rw [hσc] at h2
          omega
        · omega
      have hdec := select_popSum_lt hm2 hm' hshr hcW hrow2 hcount
      have hfuel3 : popSum m' + 2 ≤ fuel := by
        rw [hpop2] at hdec
        omega
      obtain ⟨r1, hr1⟩ := ih np rot.2.2.1 rot.2.1 m' σ' σi' hm' hnp hos2
        hsem2 hfuel3
      obtain ⟨r2, hr2⟩ := branchLoop_ok
        (fun m ca => Matching.select fuel m ca a0)
        (fun pr2 mt2 => combinePermuted fuel np pr2 rot.2.1 mt2)
        (fun pr2 mt2 rr hh => combinePermuted_error_eq fuel np pr2
          rot.2.1 mt2 rr hh)
        (List.range np.output_set.channels) rot.2.2.1 rot.1
        ⟨σi' a0, List.mem_range.2 hcW, m', hsel, r1, hr1⟩
      refine ⟨r2, ?_⟩
      have hatt : (if rot.2.2.2 = np.output_set.channels then
          (if np.output_set.subsumes rot.2.2.1.output_set then
            Except.ok { np with item := (SubsumeIndexItem.combine
              np.item rot.2.1 rot.2.2.1.item) }
          else Except.error rot.2.2.1)
        else
          match minPairList (((List.range np.output_set.channels).map
                (fun a => (popCount (rot.1.matchesAAt a), a))).filter
                  (fun p => p.1 > 1)),
              minPairList (((List.range np.output_set.channels).map
                (fun a => (popCount (rot.1.matchesAAt a), a))).filter
                  (fun p => p.1 > 1)) with
          | some (count_a, channel_a), some (count_b, channel_b) =>
            if count_a < count_b then
              branchLoop (fun m cb => Matching.select fuel m channel_a cb)
                (fun pr2 mt2 => combinePermuted fuel np pr2 rot.2.1 mt2)
                (List.range np.output_set.channels) rot.2.2.1 rot.1
            else
              branchLoop (fun m ca => Matching.select fuel m ca channel_b)
                (fun pr2 mt2 => combinePermuted fuel np pr2 rot.2.1 mt2)
                (List.range np.output_set.channels) rot.2.2.1 rot.1
          | _, _ => Except.error rot.2.2.1) = Except.ok r2 := by
        rw [if_neg hcd, hmp]
        show (if popCount (rot.1.matchesAAt a0) < popCount (rot.1.matchesAAt a0)
            then
            branchLoop (fun m cb => Matching.select fuel m a0 cb)
              (fun pr2 mt2 => combinePermuted fuel np pr2 rot.2.1 mt2)
              (List.range np.output_set.channels) rot.2.2.1 rot.1
          else
            branchLoop (fun m ca => Matching.select fuel m ca a0)
              (fun pr2 mt2 => combinePermuted fuel np pr2 rot.2.1 mt2)
              (List.range np.output_set.channels) rot.2.2.1 rot.1) =
            Except.ok r2
        rw [if_neg (lt_irrefl _)]
        exact hr2
      rw [hatt]

/-! ### Node well-formedness and the index invariant -/

/-- Well-formed stored pair: sorted bounded output set of the ambient width
with the matching entry abstraction. -/
def PairWF {T : Type} (W : Nat) (p : AbstractedPair T) : Prop :=
  OSWF W p.output_set ∧ p.abstraction = p.output_set.abstraction

/-- Structural invariant of a tree: every leaf pair is well formed and every
inner node's aggregated abstraction is a pointwise lower bound of the
abstractions below it. -/
def NodeInv {T : Type} (W : Nat) : Node T → Prop
  | .Leaf p => PairWF W p
  | .Inner ab c0 c1 _ =>
    ab.channels = W ∧ ab.values.length = W * W * 2 ∧
    (∀ p ∈ c0.drainPairs ++ c1.drainPairs, ∀ i,
      ab.values.getD i 0 ≤ p.abstraction.values.getD i 0) ∧
    NodeInv W c0 ∧ NodeInv W c1

/-- Semantic permuted subsumption between two output sets of width `W`. -/
def PSub (W : Nat) (s t : OutputSet) : Prop :=
  ∃ σ σi, BijOn W σ σi ∧ SemSub W σ s.values t.values

theorem PSub_refl (W : Nat) (s : OutputSet) : PSub W s s :=
  ⟨id, id, ⟨fun _ h => h, fun _ h => h, fun _ _ => rfl, fun _ _ => rfl⟩,
    fun v hv => ⟨v, hv, fun _ _ => rfl⟩⟩

theorem drainPairs_ne_nil {T : Type} : ∀ (n : Node T), n.drainPairs ≠ [] := by
  intro n
  induction n with
  | Leaf p =>
    intro h
    cases h
  | Inner a c0 c1 len ih0 ih1 =>
    intro h
    have h2 : c0.drainPairs ++ c1.drainPairs = [] := h
    exact ih0 (List.append_eq_nil.1 h2).1

theorem nodeInv_pairs {T : Type} {W : Nat} : ∀ (n : Node T), NodeInv W n →
    ∀ p ∈ n.drainPairs, PairWF W p := by
  intro n
  induction n with
  | Leaf q =>
    intro h p hp
    have hpq : p = q := by simpa [Node.drainPairs] using hp
    rw [hpq]
    exact h
  | Inner a c0 c1 len ih0 ih1 =>
    intro h p hp
    have hp2 : p ∈ c0.drainPairs ++ c1.drainPairs := hp
    rcases List.mem_append.1 hp2 with h0 | h1
    · exact ih0 h.2.2.2.1 p h0
    · exact ih1 h.2.2.2.2 p h1

theorem popCount_two_pow_sub_one (W : Nat) : popCount (2 ^ W - 1) = W := by
  rw [popCount_eq_countP W _ (by have := Nat.one_le_two_pow (n := W); omega)]
  have hall : ∀ k ∈ List.range W, (fun k => (2 ^ W - 1).testBit k) k = true := by
    intro k hk
    show (2 ^ W - 1).testBit k = true
    rw [Nat.testBit_two_pow_sub_one]
    simpa using List.mem_range.1 hk
  rw [List.countP_eq_length.2 hall, List.length_range]

theorem popSum_new (W : Nat) : popSum (Matching.new W) = W * W := by
  rw [popSum]
  have hlen : (Matching.new W).matches_a.length = W := by
    show (List.replicate W ((1 <<< W) - 1)).length = W
    simp
  rw [hlen]
  have hrow : ∀ a ∈ List.range W,
      popCount ((Matching.new W).matchesAAt a) = W := by
    intro a ha
    show popCount ((List.replicate W ((1 <<< W) - 1)).getD a 0) = W
    rw [getD_replicate (List.mem_range.1 ha), shiftLeft_one]
    exact popCount_two_pow_sub_one W
  rw [List.map_congr_left hrow, List.map_const']
  simp [List.sum_replicate, smul_eq_mul]

theorem channelLeCore_le_chain {W : Nat} {x y z : Abstraction}
    (hxc : x.channels = W) (hyc : y.channels = W)
    (hlx : x.values.length = W * W * 2) (hly : y.values.length = W * W * 2)
    (hlz : z.values.length = W * W * 2)
    (hle : ∀ i, x.values.getD i 0 ≤ y.values.getD i 0)
    {c c' : Nat} (hc : c < W) (hc' : c' < W)
    (h : y.channelLeCore c z c' = true) :
    x.channelLeCore c z c' = true := by
  rw [channelLeCore_iff hxc hlx hlz hc hc']
  rw [channelLeCore_iff hyc hly hlz hc hc'] at h
  intro j hj
  exact le_trans (hle _) (h j hj)

theorem pairwise_of_subperm {α : Type} {R : α → α → Prop}
    (hs : ∀ {a b : α}, R a b → R b a) {l l' : List α} (hp : l'.Subperm l)
    (h : l.Pairwise R) : l'.Pairwise R := by
  obtain ⟨l'', hperm, hsub⟩ := hp
  exact (h.sublist hsub).perm hperm (fun hab => hs hab)

theorem branchLoop_ok_src {T : Type}
    (sel : Matching → Nat → Bool × Matching)
    (f : AbstractedPair T → Matching → Except (AbstractedPair T) (AbstractedPair T)) :
    ∀ (lst : List Nat) (pair : AbstractedPair T) (matching : Matching)
      (r : AbstractedPair T),
    branchLoop sel f lst pair matching = .ok r →
    ∃ pr mt, f pr mt = .ok r := by
  intro lst
  induction lst with
  | nil =>
    intro pair matching r h
    cases h
  | cons c rest ih =>
    intro pair matching r h
    rw [branchLoop] at h
    rcases hsel : sel matching c with ⟨fl, m'⟩
    rw [hsel] at h
    cases fl with
    | true => exact ih _ _ _ h
    | false =>
      have h2 : (match f pair m' with
          | .ok rr => (Except.ok rr : Except (AbstractedPair T) (AbstractedPair T))
          | .error pair2 => branchLoop sel f rest pair2 matching) = .ok r := h
      cases hf : f pair m' with
      | ok r0 =>
        rw [hf] at h2
        have hr : r0 = r := by
          cases h2
          rfl
        exact ⟨pair, m', by rw [hf, hr]⟩
      | error p0 =>
        rw [hf] at h2
        exact ih _ _ _ h2

/-- An accepted `combine_permuted` keeps the node pair's abstraction and
output set, changing only the payload. -/
theorem combinePermuted_ok_fields {T : Type} [SubsumeIndexItem T] :
    ∀ (fuel : Nat) (np pr : AbstractedPair T) (perm : List Nat)
      (mt : Matching) (r : AbstractedPair T),
    combinePermuted fuel np pr perm mt = .ok r →
    r.abstraction = np.abstraction ∧ r.output_set = np.output_set := by
  intro fuel
  induction fuel with
  | zero =>
    intro np pr perm mt r h
    cases h
  | succ fuel ih =>
    intro np pr perm mt r h
    rw [combinePermuted_succ] at h
    simp only [] at h
    set rot := (List.range np.output_set.channels).foldl rotationStep
      (mt, perm, pr, 0) with hrot
    cases hatt : (if rot.2.2.2 = np.output_set.channels then
        (if np.output_set.subsumes rot.2.2.1.output_set then
          Except.ok { np with item := (SubsumeIndexItem.combine
            np.item rot.2.1 rot.2.2.1.item) }
        else Except.error rot.2.2.1)
      else
        match minPairList (((List.range np.output_set.channels).map
              (fun a => (popCount (rot.1.matchesAAt a), a))).filter
                (fun p => p.1 > 1)),
            minPairList (((List.range np.output_set.channels).map
              (fun a => (popCount (rot.1.matchesAAt a), a))).filter
                (fun p => p.1 > 1)) with
        | some (count_a, channel_a), some (count_b, channel_b) =>
          if count_a < count_b then
            branchLoop (fun m cb => Matching.select fuel m channel_a cb)
              (fun pr2 mt2 => combinePermuted fuel np pr2 rot.2.1 mt2)
              (List.range np.output_set.channels) rot.2.2.1 rot.1
          else
            branchLoop (fun m ca => Matching.select fuel m ca channel_b)
              (fun pr2 mt2 => combinePermuted fuel np pr2 rot.2.1 mt2)
              (List.range np.output_set.channels) rot.2.2.1 rot.1
        | _, _ => Except.error rot.2.2.1) with
    | error r0 =>
      rw [hatt] at h
      have h2 : (Except.error { r0 with
          abstraction := pr.abstraction, output_set := pr.output_set } :
            Except (AbstractedPair T) (AbstractedPair T)) = .ok r := h
      cases h2
    | ok r0 =>
      rw [hatt] at h
      have h2 : (Except.ok r0 :
          Except (AbstractedPair T) (AbstractedPair T)) = .ok r := h
      have hr : r0 = r := by
        cases h2
        rfl
      subst hr
      revert hatt
      split
      · split
        · intro hcontra
          have hr0 : { np with item := (SubsumeIndexItem.combine
              np.item rot.2.1 rot.2.2.1.item) } = r0 := by
            cases hcontra
            rfl
          rw [← hr0]
          exact ⟨rfl, rfl⟩
        · intro hcontra
          cases hcontra
      · split
        · split
          · intro hbl
            obtain ⟨pr2, mt2, hf⟩ := branchLoop_ok_src _ _ _ _ _ _ hbl
            exact ih np pr2 rot.2.1 mt2 r0 hf
          · intro hbl
            obtain ⟨pr2, mt2, hf⟩ := branchLoop_ok_src _ _ _ _ _ _ hbl
            exact ih np pr2 rot.2.1 mt2 r0 hf
        · intro hcontra
          cases hcontra

/-- An accepted `combine_with_subsuming_rec` call preserves the whole tree
skeleton (node abstractions and the stored pairs' abstractions and output
sets) and the structural invariant. -/
theorem rec_ok_preserves {T : Type} [SubsumeIndexItem T] {W : Nat}
    (fuel : Nat) :
    ∀ (node : Node T) (pair : AbstractedPair T) (matching : Matching)
      (n' : Node T),
    Node.combineWithSubsumingRec fuel node pair matching = .ok n' →
    n'.nodeAbstraction = node.nodeAbstraction ∧
    n'.drainPairs.map (fun p => (p.abstraction, p.output_set)) =
      node.drainPairs.map (fun p => (p.abstraction, p.output_set)) ∧
    (NodeInv W node → NodeInv W n') := by
  intro node
  induction node with
  | Leaf np =>
    intro pair matching n' h
    rw [Node.combineWithSubsumingRec] at h
    split at h
    · cases h
    · rename_i m2 hfil
      have h' : (match combinePermuted fuel np pair
            (List.range np.output_set.channels) m2 with
          | Except.ok node_pair' => Except.ok (Node.Leaf node_pair')
          | Except.error p => Except.error p) = Except.ok n' := h
      cases hc : combinePermuted fuel np pair
          (List.range np.output_set.channels) m2 with
      | error p' =>
        rw [hc] at h'
        cases h'
      | ok r =>
        rw [hc] at h'
        have hn' : Node.Leaf r = n' := by
          cases h'
          rfl
        obtain ⟨ha, ho⟩ := combinePermuted_ok_fields fuel np pair _ m2 r hc
        rw [← hn']
        refine ⟨ha, ?_, ?_⟩
        · show [(r.abstraction, r.output_set)] = [(np.abstraction, np.output_set)]
          rw [ha, ho]
        · intro hinv
          show PairWF W r
          obtain ⟨h1, h2⟩ := (hinv : PairWF W np)
          exact ⟨by rw [ho]; exact h1, by rw [ha, ho]; exact h2⟩
  | Inner a c0 c1 len ih0 ih1 =>
    intro pair matching n' h
    rw [Node.combineWithSubsumingRec] at h
    split at h
    · cases h
    · rename_i m2 hfil
      have h' : (match Node.combineWithSubsumingRec fuel c0 pair m2 with
          | Except.ok child_0' => Except.ok (Node.Inner a child_0' c1 len)
          | Except.error pair' =>
            match Node.combineWithSubsumingRec fuel c1 pair' m2 with
            | Except.ok child_1' => Except.ok (Node.Inner a c0 child_1' len)
            | Except.error p => Except.error p) = Except.ok n' := h
      cases hc0 : Node.combineWithSubsumingRec fuel c0 pair m2 with
      | ok r0 =>
        rw [hc0] at h'
        have hn' : Node.Inner a r0 c1 len = n' := by
          cases h'
          rfl
        obtain ⟨ha0, hd0, hi0⟩ := ih0 pair m2 r0 hc0
        rw [← hn']
        refine ⟨rfl, ?_, ?_⟩
        · show (r0.drainPairs ++ c1.drainPairs).map
              (fun p => (p.abstraction, p.output_set)) =
            (c0.drainPairs ++ c1.drainPairs).map
              (fun p => (p.abstraction, p.output_set))
          rw [List.map_append, List.map_append, hd0]
        · intro hinv
          obtain ⟨hw1, hw2, hw3, hv0, hv1⟩ :=
            (hinv : NodeInv W (Node.Inner a c0 c1 len))
          refine ⟨hw1, hw2, ?_, hi0 hv0, hv1⟩
          intro p hp i
          rcases List.mem_append.1 hp with hp0 | hp1
          · have hmem : (p.abstraction, p.output_set) ∈
                c0.drainPairs.map (fun p => (p.abstraction, p.output_set)) := by
              rw [← hd0]
              exact List.mem_map_of_mem _ hp0
            obtain ⟨p0, hp0mem, heq⟩ := List.mem_map.1 hmem
            have heqa : p0.abstraction = p.abstraction := congrArg Prod.fst heq
            rw [← heqa]
            exact hw3 p0 (List.mem_append_left _ hp0mem) i
          · exact hw3 p (List.mem_append_right _ hp1) i
      | error pair' =>
        rw [hc0] at h'
        have h2 : (match Node.combineWithSubsumingRec fuel c1 pair' m2 with
            | Except.ok child_1' => Except.ok (Node.Inner a c0 child_1' len)
            | Except.error p => Except.error p) = Except.ok n' := h'
        cases hc1 : Node.combineWithSubsumingRec fuel c1 pair' m2 with
        | error p'' =>
          rw [hc1] at h2
          cases h2
        | ok r1 =>
          rw [hc1] at h2
          have hn' : Node.Inner a c0 r1 len = n' := by
            cases h2
            rfl
          obtain ⟨ha1, hd1, hi1⟩ := ih1 pair' m2 r1 hc1
          rw [← hn']
          refine ⟨rfl, ?_, ?_⟩
          · show (c0.drainPairs ++ r1.drainPairs).map
                (fun p => (p.abstraction, p.output_set)) =
              (c0.drainPairs ++ c1.drainPairs).map
                (fun p => (p.abstraction, p.output_set))
            rw [List.map_append, List.map_append, hd1]
          · intro hinv
            obtain ⟨hw1, hw2, hw3, hv0, hv1⟩ :=
              (hinv : NodeInv W (Node.Inner a c0 c1 len))
            refine ⟨hw1, hw2, ?_, hv0, hi1 hv1⟩
            intro p hp i
            rcases List.mem_append.1 hp with hp0 | hp1
            · exact hw3 p (List.mem_append_left _ hp0) i
            · have hmem : (p.abstraction, p.output_set) ∈
                  c1.drainPairs.map (fun p => (p.abstraction, p.output_set)) := by
                rw [← hd1]
                exact List.mem_map_of_mem _ hp1
              obtain ⟨p1, hp1mem, heq⟩ := List.mem_map.1 hmem
              have heqa : p1.abstraction = p.abstraction := congrArg Prod.fst heq
              rw [← heqa]
              exact hw3 p1 (List.mem_append_right _ hp1mem) i

theorem nodeAbs_facts {T : Type} {W : Nat} :
    ∀ (n : Node T), NodeInv W n →
    n.nodeAbstraction.channels = W ∧
    n.nodeAbstraction.values.length = W * W * 2 ∧
    (∀ p ∈ n.drainPairs, ∀ i,
      n.nodeAbstraction.values.getD i 0 ≤ p.abstraction.values.getD i 0) := by
  intro n hn
  cases n with
  | Leaf p =>
    obtain ⟨hos, habs⟩ := (hn : PairWF W p)
    refine ⟨?_, ?_, ?_⟩
    · show p.abstraction.channels = W
      rw [habs, abstraction_channels, hos.1]
    · show p.abstraction.values.length = W * W * 2
      rw [habs, abstraction_length p.output_set
        (by rw [hos.1]; exact hos.2.2), hos.1]
    · intro p2 hp2 i
      have hp2p : p2 = p := by simpa [Node.drainPairs] using hp2
      rw [hp2p]
      exact le_refl _
  | Inner ab c0 c1 len =>
    obtain ⟨h1, h2, h3, _, _⟩ := (hn : NodeInv W (Node.Inner ab c0 c1 len))
    exact ⟨h1, h2, h3⟩

/-- The aggregated-abstraction filter never removes a pair of the channel
bijection witnessing a subsumption by a pair stored in the node. -/
theorem filter_pred_complete {T : Type} {W : Nat} {σ σi : Nat → Nat}
    (hbij : BijOn W σ σi) (node : Node T) (hinv : NodeInv W node)
    {p : AbstractedPair T} (hp : p ∈ node.drainPairs)
    {q : AbstractedPair T} (hq : PairWF W q)
    (hsem : SemSub W σ p.output_set.values q.output_set.values) :
    ∀ b, b < W →
      (node.nodeAbstraction).channelLeCore b q.abstraction (σ b) = true := by
  intro b hb
  obtain ⟨hpos, hpabs⟩ := nodeInv_pairs node hinv p hp
  obtain ⟨hqos, hqabs⟩ := hq
  have hcore := abstraction_channel_le hbij hpos.1 hqos.1
    hpos.2.1.nodup hqos.2.1.nodup hpos.2.2 hqos.2.2 hsem hb
  obtain ⟨hnc, hnl, hnle⟩ := nodeAbs_facts node hinv
  have hyc : p.abstraction.channels = W := by
    rw [hpabs, abstraction_channels, hpos.1]
  have hly : p.abstraction.values.length = W * W * 2 := by
    rw [hpabs, abstraction_length p.output_set
      (by rw [hpos.1]; exact hpos.2.2), hpos.1]
  have hlz : q.output_set.abstraction.values.length = W * W * 2 := by
    rw [abstraction_length q.output_set
      (by rw [hqos.1]; exact hqos.2.2), hqos.1]
  have hle2 : ∀ i, (node.nodeAbstraction).values.getD i 0 ≤
      p.abstraction.values.getD i 0 := hnle p hp
  have hfin : p.abstraction.channelLeCore b q.output_set.abstraction (σ b)
      = true := by
    rw [hpabs]
    exact hcore
  rw [hqabs]
  exact channelLeCore_le_chain hnc hyc hnl hly hlz hle2 hb
    (hbij.mapsTo b hb) hfin

/-- Completeness of `combine_with_subsuming_rec`: if some pair stored in
the node subsumes the query's output set under a channel bijection
compatible with the incoming matching, the call succeeds. -/
theorem combineWithSubsumingRec_complete {T : Type} [SubsumeIndexItem T]
    {W : Nat} (fuel : Nat) :
    ∀ (node : Node T) (q : AbstractedPair T) (m : Matching),
    NodeInv W node → PairWF W q →
    (∃ p ∈ node.drainPairs, ∃ σ σi, MState W σ σi m ∧
      SemSub W σ p.output_set.values q.output_set.values) →
    popSum m + 2 ≤ fuel →
    ∃ n', Node.combineWithSubsumingRec fuel node q m = .ok n' := by
  intro node
  induction node with
  | Leaf np =>
    intro q m hinv hq hex hfuel
    obtain ⟨p, hp, σ, σi, hm, hsem⟩ := hex
    have hpnp : p = np := by simpa [Node.drainPairs] using hp
    subst hpnp
    have hpred := filter_pred_complete hm.bij _ hinv hp hq hsem
    obtain ⟨m2, hfileq, hm2, hs2⟩ := filter_safe fuel
      (fun node_channel pair_channel =>
        ((Node.Leaf p).nodeAbstraction).channelLeCore node_channel
          q.abstraction pair_channel)
      hpred m hm (by omega)
    have hch : p.output_set.channels = W := hinv.1.1
    have hm2b : MState p.output_set.channels σ σi m2 := by
      rw [hch]
      exact hm2
    have hnpw : OSWF p.output_set.channels p.output_set := by
      rw [hch]
      exact hinv.1
    have hqw : OSWF p.output_set.channels q.output_set := by
      rw [hch]
      exact hq.1
    have hsemb : SemSub p.output_set.channels σ p.output_set.values
        q.output_set.values := by
      rw [hch]
      exact hsem
    have hfuel2 : popSum m2 + 2 ≤ fuel := by
      have := popSum_le_of_shrink hm.boundA hs2
      omega
    obtain ⟨r, hr⟩ := combinePermuted_complete fuel p q
      (List.range p.output_set.channels) m2 σ σi hm2b hnpw hqw hsemb hfuel2
    refine ⟨Node.Leaf r, ?_⟩
    rw [Node.combineWithSubsumingRec, hfileq]
    show (match combinePermuted fuel p q
          (List.range p.output_set.channels) m2 with
        | Except.ok node_pair' => Except.ok (Node.Leaf node_pair')
        | Except.error p2 => Except.error p2) = Except.ok (Node.Leaf r)
    rw [hr]
  | Inner ab c0 c1 len ih0 ih1 =>
    intro q m hinv hq hex hfuel
    obtain ⟨p, hp, σ, σi, hm, hsem⟩ := hex
    have hpred := filter_pred_complete hm.bij _ hinv hp hq hsem
    obtain ⟨m2, hfileq, hm2, hs2⟩ := filter_safe fuel
      (fun node_channel pair_channel =>
        ((Node.Inner ab c0 c1 len).nodeAbstraction).channelLeCore node_channel
          q.abstraction pair_channel)
      hpred m hm (by omega)
    have hfuel2 : popSum m2 + 2 ≤ fuel := by
      have := popSum_le_of_shrink hm.boundA hs2
      omega
    rcases List.mem_append.1 (hp : p ∈ c0.drainPairs ++ c1.drainPairs)
      with hp0 | hp1
    · obtain ⟨n0, hn0⟩ := ih0 q m2 hinv.2.2.2.1 hq
        ⟨p, hp0, σ, σi, hm2, hsem⟩ hfuel2
      refine ⟨Node.Inner ab n0 c1 len, ?_⟩
      rw [Node.combineWithSubsumingRec, hfileq]
      show (match Node.combineWithSubsumingRec fuel c0 q m2 with
          | Except.ok child_0' => Except.ok (Node.Inner ab child_0' c1 len)
          | Except.error pair' =>
            match Node.combineWithSubsumingRec fuel c1 pair' m2 with
            | Except.ok child_1' => Except.ok (Node.Inner ab c0 child_1' len)
            | Except.error p2 => Except.error p2) =
          Except.ok (Node.Inner ab n0 c1 len)
      rw [hn0]
    · cases hc0 : Node.combineWithSubsumingRec fuel c0 q m2 with
      | ok r0 =>
        refine ⟨Node.Inner ab r0 c1 len, ?_⟩
        rw [Node.combineWithSubsumingRec, hfileq]
        show (match Node.combineWithSubsumingRec fuel c0 q m2 with
            | Except.ok child_0' => Except.ok (Node.Inner ab child_0' c1 len)
            | Except.error pair' =>
              match Node.combineWithSubsumingRec fuel c1 pair' m2 with
              | Except.ok child_1' =>
                Except.ok (Node.Inner ab c0 child_1' len)
              | Except.error p2 => Except.error p2) =
            Except.ok (Node.Inner ab r0 c1 len)
        rw [hc0]
      | error pair' =>
        obtain ⟨hpa, hpo⟩ :=
          combineWithSubsumingRec_restores fuel c0 q m2 pair' hc0
        have hq' : PairWF W pair' :=
          ⟨by rw [hpo]; exact hq.1, by rw [hpa, hpo]; exact hq.2⟩
        have hsem' : SemSub W σ p.output_set.values
            pair'.output_set.values := by
          rw [hpo]
          exact hsem
        obtain ⟨n1, hn1⟩ := ih1 pair' m2 hinv.2.2.2.2 hq'
          ⟨p, hp1, σ, σi, hm2, hsem'⟩ hfuel2
        refine ⟨Node.Inner ab c0 n1 len, ?_⟩
        rw [Node.combineWithSubsumingRec, hfileq]
        show (match Node.combineWithSubsumingRec fuel c0 q m2 with
            | Except.ok child_0' => Except.ok (Node.Inner ab child_0' c1 len)
            | Except.error pair2 =>
              match Node.combineWithSubsumingRec fuel c1 pair2 m2 with
              | Except.ok child_1' =>
                Except.ok (Node.Inner ab c0 child_1' len)
              | Except.error p2 => Except.error p2) =
            Except.ok (Node.Inner ab c0 n1 len)
        rw [hc0]
        show (match Node.combineWithSubsumingRec fuel c1 pair' m2 with
            | Except.ok child_1' => Except.ok (Node.Inner ab c0 child_1' len)
            | Except.error p2 => Except.error p2) =
            Except.ok (Node.Inner ab c0 n1 len)
        rw [hn1]

theorem combineTreesList_error_fields {T : Type} [SubsumeIndexItem T]
    (fuel : Nat) :
    ∀ (trees : List (Node T)) (pair p : AbstractedPair T),
    combineTreesList fuel trees pair = .error p →
    p.abstraction = pair.abstraction ∧ p.output_set = pair.output_set := by
  intro trees
  induction trees with
  | nil =>
    intro pair p h
    have h2 : (Except.error pair :
        Except (AbstractedPair T) (List (Node T))) = .error p := h
    cases h2
    exact ⟨rfl, rfl⟩
  | cons t0 rest ih =>
    intro pair p h
    have h' : (match Node.combine_with_subsuming fuel t0 pair with
        | .ok t' => Except.ok (t' :: rest)
        | .error pair' =>
          match combineTreesList fuel rest pair' with
          | .ok rest' => Except.ok (t0 :: rest')
          | .error p2 => Except.error p2) = Except.error p := h
    cases hc : Node.combine_with_subsuming fuel t0 pair with
    | ok t' =>
      rw [hc] at h'
      cases h'
    | error pair' =>
      rw [hc] at h'
      have h2 : (match combineTreesList fuel rest pair' with
          | .ok rest' =>
            (Except.ok (t0 :: rest') : Except (AbstractedPair T) (List (Node T)))
          | .error p2 => Except.error p2) = Except.error p := h'
      cases hr : combineTreesList fuel rest pair' with
      | ok rest' =>
        rw [hr] at h2
        cases h2
      | error p0 =>
        rw [hr] at h2
        have hp0 : p0 = p := by
          cases h2
          rfl
        subst hp0
        obtain ⟨h3, h4⟩ := ih pair' p0 hr
        obtain ⟨h5, h6⟩ := combineWithSubsuming_restores fuel t0 pair pair' hc
        exact ⟨h3.trans h5, h4.trans h6⟩

/-- Completeness of `Node::combine_with_subsuming`. -/
theorem combine_with_subsuming_complete {T : Type} [SubsumeIndexItem T]
    {W : Nat} (fuel : Nat) (t : Node T) (q : AbstractedPair T) (hW : W ≤ 15)
    (hinv : NodeInv W t) (hq : PairWF W q)
    (hex : ∃ p ∈ t.drainPairs, PSub W p.output_set q.output_set)
    (hfuel : W * W + 2 ≤ fuel) :
    ∃ n', Node.combine_with_subsuming fuel t q = .ok n' := by
  obtain ⟨p, hp, σ, σi, hbij, hsem⟩ := hex
  have hm : MState W σ σi (Matching.new q.output_set.channels) := by
    rw [hq.1.1]
    exact mstate_new hW hbij
  rw [Node.combine_with_subsuming]
  exact combineWithSubsumingRec_complete fuel t q _ hinv hq
    ⟨p, hp, σ, σi, hm, hsem⟩ (by rw [hq.1.1, popSum_new]; omega)

/-- Completeness of the oldest-to-newest tree scan of
`SubsumeIndex::combine_with_subsuming`. -/
theorem combineTreesList_complete {T : Type} [SubsumeIndexItem T]
    {W : Nat} (fuel : Nat) (hW : W ≤ 15) (hfuel : W * W + 2 ≤ fuel) :
    ∀ (trees : List (Node T)) (q : AbstractedPair T),
    (∀ t ∈ trees, NodeInv W t) → PairWF W q →
    (∃ t ∈ trees, ∃ p ∈ t.drainPairs, PSub W p.output_set q.output_set) →
    ∃ ts', combineTreesList fuel trees q = .ok ts' := by
  intro trees
  induction trees with
  | nil =>
    intro q _ _ hex
    obtain ⟨t, ht, _⟩ := hex
    exact absurd ht (List.not_mem_nil t)
  | cons t0 rest ih =>
    intro q hinv hq hex
    cases hc : Node.combine_with_subsuming fuel t0 q with
    | ok t' =>
      refine ⟨t' :: rest, ?_⟩
      show (match Node.combine_with_subsuming fuel t0 q with
        | .ok t2 => Except.ok (t2 :: rest)
        | .error pair' =>
          match combineTreesList fuel rest pair' with
          | .ok rest' => Except.ok (t0 :: rest')
          | .error p2 => Except.error p2) = Except.ok (t' :: rest)
      rw [hc]
    | error q' =>
      obtain ⟨hqa, hqo⟩ := combineWithSubsuming_restores fuel t0 q q' hc
      have hq' : PairWF W q' :=
        ⟨by rw [hqo]; exact hq.1, by rw [hqa, hqo]; exact hq.2⟩
      rcases hex with ⟨t, ht, p, hp, hps⟩
      rcases List.mem_cons.1 ht with rfl | htrest
      · exfalso
        obtain ⟨n', hn'⟩ := combine_with_subsuming_complete fuel t q hW
          (hinv t (List.mem_cons_self _ _)) hq ⟨p, hp, hps⟩ hfuel
        rw [hn'] at hc
        cases hc
      · have hps' : PSub W p.output_set q'.output_set := by
          rw [hqo]
          exact hps
        obtain ⟨ts', hts'⟩ := ih q'
          (fun t2 ht2 => hinv t2 (List.mem_cons_of_mem _ ht2)) hq'
          ⟨t, htrest, p, hp, hps'⟩
        refine ⟨t0 :: ts', ?_⟩
        show (match Node.combine_with_subsuming fuel t0 q with
          | .ok t2 => Except.ok (t2 :: rest)
          | .error pair' =>
            match combineTreesList fuel rest pair' with
            | .ok rest' => Except.ok (t0 :: rest')
            | .error p2 => Except.error p2) = Except.ok (t0 :: ts')
        rw [hc]
        show (match combineTreesList fuel rest q' with
          | .ok rest' =>
            (Except.ok (t0 :: rest') : Except (AbstractedPair T) (List (Node T)))
          | .error p2 => Except.error p2) = Except.ok (t0 :: ts')
        rw [hts']

/-- An accepted tree scan keeps every tree's skeleton and invariant. -/
theorem combineTreesList_ok_preserves {T : Type} [SubsumeIndexItem T]
    {W : Nat} (fuel : Nat) :
    ∀ (trees : List (Node T)) (q : AbstractedPair T) (ts' : List (Node T)),
    combineTreesList fuel trees q = .ok ts' →
    ts'.map (fun t => t.drainPairs.map
        (fun p => (p.abstraction, p.output_set))) =
      trees.map (fun t => t.drainPairs.map
        (fun p => (p.abstraction, p.output_set))) ∧
    ((∀ t ∈ trees, NodeInv W t) → ∀ t' ∈ ts', NodeInv W t') := by
  intro trees
  induction trees with
  | nil =>
    intro q ts' h
    cases h
  | cons t0 rest ih =>
    intro q ts' h
    have h' : (match Node.combine_with_subsuming fuel t0 q with
        | .ok t' => Except.ok (t' :: rest)
        | .error pair' =>
          match combineTreesList fuel rest pair' with
          | .ok rest' => Except.ok (t0 :: rest')
          | .error p2 => Except.error p2) = Except.ok ts' := h
    cases hc : Node.combine_with_subsuming fuel t0 q with
    | ok t' =>
      rw [hc] at h'
      have hts : t' :: rest = ts' := by
        cases h'
        rfl
      obtain ⟨ha, hd, hi⟩ := rec_ok_preserves (W := W) fuel t0 q
        (Matching.new q.output_set.channels) t' hc
      rw [← hts]
      constructor
      · show (t'.drainPairs.map (fun p => (p.abstraction, p.output_set))) ::
            rest.map (fun t => t.drainPairs.map
              (fun p => (p.abstraction, p.output_set))) =
          (t0.drainPairs.map (fun p => (p.abstraction, p.output_set))) ::
            rest.map (fun t => t.drainPairs.map
              (fun p => (p.abstraction, p.output_set)))
        rw [hd]
      · intro hinv t2 ht2
        rcases List.mem_cons.1 ht2 with rfl | ht2r
        · exact hi (hinv t0 (List.mem_cons_self _ _))
        · exact hinv t2 (List.mem_cons_of_mem _ ht2r)
    | error pair' =>
      rw [hc] at h'
      have h2 : (match combineTreesList fuel rest pair' with
          | .ok rest' =>
            (Except.ok (t0 :: rest') : Except (AbstractedPair T) (List (Node T)))
          | .error p2 => Except.error p2) = Except.ok ts' := h'
      cases hr : combineTreesList fuel rest pair' with
      | error p0 =>
        rw [hr] at h2
        cases h2
      | ok rest' =>
        rw [hr] at h2
        have hts : t0 :: rest' = ts' := by
          cases h2
          rfl
        obtain ⟨hmap, hinvp⟩ := ih pair' rest' hr
        rw [← hts]
        constructor
        · show (t0.drainPairs.map (fun p => (p.abstraction, p.output_set))) ::
              rest'.map (fun t => t.drainPairs.map
                (fun p => (p.abstraction, p.output_set))) =
            (t0.drainPairs.map (fun p => (p.abstraction, p.output_set))) ::
              rest.map (fun t => t.drainPairs.map
                (fun p => (p.abstraction, p.output_set)))
          rw [hmap]
        · intro hinv t2 ht2
          rcases List.mem_cons.1 ht2 with rfl | ht2r
          · exact hinv t2 (List.mem_cons_self _ _)
          · exact hinvp (fun t3 ht3 => hinv t3 (List.mem_cons_of_mem _ ht3))
              t2 ht2r

theorem pairWF_of_skel {T : Type} {W : Nat} {p p0 : AbstractedPair T}
    (h : (p0.abstraction, p0.output_set) = (p.abstraction, p.output_set))
    (hw : PairWF W p0) : PairWF W p := by
  have ha : p0.abstraction = p.abstraction := congrArg Prod.fst h
  have ho : p0.output_set = p.output_set := congrArg Prod.snd h
  exact ⟨by rw [← ho]; exact hw.1, by rw [← ha, ← ho]; exact hw.2⟩

theorem pairWF_abs {T : Type} {W : Nat} {p : AbstractedPair T}
    (h : PairWF W p) :
    p.abstraction.channels = W ∧ p.abstraction.values.length = W * W * 2 := by
  constructor
  · rw [h.2, abstraction_channels, h.1.1]
  · rw [h.2, abstraction_length p.output_set
      (by rw [h.1.1]; exact h.1.2.2), h.1.1]

theorem zipmin_getD_left (a b : List Nat) (i : Nat) :
    (List.zipWith min a b).getD i 0 ≤ a.getD i 0 := by
  by_cases hi : i < (List.zipWith min a b).length
  · have hia : i < a.length := by
      rw [List.length_zipWith] at hi
      omega
    rw [getD_eq_getElem 0 _ i hi, List.getElem_zipWith,
      getD_eq_getElem 0 a i hia]
    exact min_le_left _ _
  · rw [List.getD_eq_default _ _ (by omega)]
    omega

theorem zipmin_getD_right (a b : List Nat) (i : Nat) :
    (List.zipWith min a b).getD i 0 ≤ b.getD i 0 := by
  by_cases hi : i < (List.zipWith min a b).length
  · have hib : i < b.length := by
      rw [List.length_zipWith] at hi
      omega
    rw [getD_eq_getElem 0 _ i hi, List.getElem_zipWith,
      getD_eq_getElem 0 b i hib]
    exact min_le_right _ _
  · rw [List.getD_eq_default _ _ (by omega)]
    omega

theorem foldMin_channels {T : Type} :
    ∀ (l : List (AbstractedPair T)) (acc : Abstraction),
    (l.foldl (fun acc p => acc.updateMinCore p.abstraction) acc).channels =
      acc.channels := by
  intro l
  induction l with
  | nil => intro acc; rfl
  | cons p rest ih =>
    intro acc
    rw [List.foldl_cons, ih]
    rfl

theorem foldMin_len {T : Type} {L : Nat} :
    ∀ (l : List (AbstractedPair T)) (acc : Abstraction),
    acc.values.length = L →
    (∀ p ∈ l, p.abstraction.values.length = L) →
    (l.foldl (fun acc p => acc.updateMinCore p.abstraction) acc).values.length
      = L := by
  intro l
  induction l with
  | nil =>
    intro acc h _
    exact h
  | cons p rest ih =>
    intro acc hacc hl
    rw [List.foldl_cons]
    apply ih
    · show (List.zipWith min acc.values p.abstraction.values).length = L
      rw [List.length_zipWith, hacc, hl p (List.mem_cons_self _ _)]
      omega
    · intro p2 hp2
      exact hl p2 (List.mem_cons_of_mem _ hp2)

theorem foldMin_le {T : Type} (i : Nat) :
    ∀ (l : List (AbstractedPair T)) (acc : Abstraction),
    ((l.foldl (fun acc p => acc.updateMinCore p.abstraction)
        acc).values.getD i 0 ≤ acc.values.getD i 0) ∧
    (∀ p ∈ l, (l.foldl (fun acc p => acc.updateMinCore p.abstraction)
        acc).values.getD i 0 ≤ p.abstraction.values.getD i 0) := by
  intro l
  induction l with
  | nil =>
    intro acc
    exact ⟨le_refl _, fun p hp => absurd hp (List.not_mem_nil p)⟩
  | cons p rest ih =>
    intro acc
    rw [List.foldl_cons]
    obtain ⟨h1, h2⟩ := ih (acc.updateMinCore p.abstraction)
    have hup1 : (acc.updateMinCore p.abstraction).values.getD i 0 ≤
        acc.values.getD i 0 := zipmin_getD_left _ _ _
    have hup2 : (acc.updateMinCore p.abstraction).values.getD i 0 ≤
        p.abstraction.values.getD i 0 := zipmin_getD_right _ _ _
    refine ⟨le_trans h1 hup1, ?_⟩
    intro p2 hp2
    rcases List.mem_cons.1 hp2 with rfl | hp2r
    · exact le_trans h1 hup2
    · exact h2 p2 hp2r

theorem coalesceGo_ne_nil {T : Type} [SubsumeIndexItem T] :
    ∀ (rest : List (AbstractedPair T)) (cur : AbstractedPair T),
    coalesceGo cur rest ≠ [] := by
  intro rest
  induction rest with
  | nil =>
    intro cur h
    cases h
  | cons nxt rest ih =>
    intro cur
    rw [coalesceGo]
    by_cases he : nxt.output_set = cur.output_set
    · rw [if_pos he]
      exact ih _
    · rw [if_neg he]
      intro h
      cases h

theorem coalesceGo_length {T : Type} [SubsumeIndexItem T] :
    ∀ (rest : List (AbstractedPair T)) (cur : AbstractedPair T),
    (coalesceGo cur rest).length ≤ rest.length + 1 := by
  intro rest
  induction rest with
  | nil =>
    intro cur
    exact le_refl _
  | cons nxt rest ih =>
    intro cur
    rw [coalesceGo]
    by_cases he : nxt.output_set = cur.output_set
    · rw [if_pos he]
      have := ih { nxt with item := (SubsumeIndexItem.combine nxt.item
        (List.range cur.output_set.channels) cur.item) }
      simp only [List.length_cons]
      omega
    · rw [if_neg he]
      simp only [List.length_cons]
      omega

theorem coalesceGo_skel {T : Type} [SubsumeIndexItem T] :
    ∀ (rest : List (AbstractedPair T)) (cur : AbstractedPair T),
    ((coalesceGo cur rest).map
        (fun p => (p.abstraction, p.output_set))).Subperm
      ((cur :: rest).map (fun p => (p.abstraction, p.output_set))) := by
  intro rest
  induction rest with
  | nil =>
    intro cur
    exact List.Subperm.refl _
  | cons nxt rest ih =>
    intro cur
    rw [coalesceGo]
    by_cases he : nxt.output_set = cur.output_set
    · rw [if_pos he]
      have hmap : (({ nxt with item := (SubsumeIndexItem.combine nxt.item
            (List.range cur.output_set.channels) cur.item) } :
              AbstractedPair T) :: rest).map
            (fun p => (p.abstraction, p.output_set)) =
          (nxt :: rest).map (fun p => (p.abstraction, p.output_set)) := rfl
      have h1 := ih { nxt with item := (SubsumeIndexItem.combine nxt.item
        (List.range cur.output_set.channels) cur.item) }
      rw [hmap] at h1
      exact h1.cons_right _
    · rw [if_neg he]

theorem coalesce_ne_nil {T : Type} [SubsumeIndexItem T]
    (items : List (AbstractedPair T)) (h : items ≠ []) :
    coalesce items ≠ [] := by
  rw [coalesce]
  cases hrev : items.reverse with
  | nil =>
    exact absurd (List.reverse_eq_nil_iff.1 hrev) h
  | cons c rest =>
    show (coalesceGo c rest).reverse ≠ []
    intro hcon
    exact coalesceGo_ne_nil rest c (List.reverse_eq_nil_iff.1 hcon)

theorem coalesce_length {T : Type} [SubsumeIndexItem T]
    (items : List (AbstractedPair T)) :
    (coalesce items).length ≤ items.length := by
  rw [coalesce]
  cases hrev : items.reverse with
  | nil =>
    simp
  | cons c rest =>
    show (coalesceGo c rest).reverse.length ≤ items.length
    rw [List.length_reverse]
    have h1 := coalesceGo_length rest c
    have h2 := congrArg List.length hrev
    rw [List.length_reverse] at h2
    simp only [List.length_cons] at h2
    omega

theorem coalesce_skel_subperm {T : Type} [SubsumeIndexItem T]
    (items : List (AbstractedPair T)) :
    ((coalesce items).map (fun p => (p.abstraction, p.output_set))).Subperm
      (items.map (fun p => (p.abstraction, p.output_set))) := by
  rw [coalesce]
  cases hrev : items.reverse with
  | nil =>
    have hit : items = [] := List.reverse_eq_nil_iff.1 hrev
    subst hit
    simp
  | cons c rest =>
    show ((coalesceGo c rest).reverse.map
        (fun p => (p.abstraction, p.output_set))).Subperm
      (items.map (fun p => (p.abstraction, p.output_set)))
    have h1 : ((coalesceGo c rest).reverse.map
        (fun p => (p.abstraction, p.output_set))).Perm
        ((coalesceGo c rest).map (fun p => (p.abstraction, p.output_set))) :=
      (List.reverse_perm _).map _
    apply h1.subperm.trans
    apply (coalesceGo_skel rest c).trans
    rw [← hrev]
    exact ((List.reverse_perm items).map _).subperm

theorem newGo_succ {T : Type} [SubsumeIndexItem T] (fuel : Nat)
    (items : List (AbstractedPair T)) :
    Node.newGo (fuel + 1) items =
      (match coalesce items with
      | [] => none
      | [x] => some (.Leaf x)
      | x :: y :: rest =>
        (fun (mina maxa : Abstraction) =>
          (fun (index : Nat) =>
            (fun (sorted : List (AbstractedPair T)) =>
              (fun (items_1 items_0 : List (AbstractedPair T)) =>
                match Node.newGo fuel items_0, Node.newGo fuel items_1 with
                | some child_0, some child_1 =>
                  some (.Inner mina child_0 child_1 (x :: y :: rest).length)
                | _, _ => none)
              (sorted.drop (sorted.length / 2))
              (sorted.take (sorted.length / 2)))
            ((x :: y :: rest).insertionSort
              (fun p q => p.abstraction.values.getD index 0 ≤
                q.abstraction.values.getD index 0)))
          ((mina.largest_range maxa).getD 0))
        ((y :: rest).foldl (fun acc p => acc.updateMinCore p.abstraction)
          x.abstraction)
        ((y :: rest).foldl (fun acc p => acc.updateMaxCore p.abstraction)
          x.abstraction)) := rfl

/-- `Node::new` body: on a nonempty input with enough fuel the build
succeeds, its drained skeleton is a sub-multiset of the input's, and the
structural invariant holds when all inputs are well formed. -/
theorem newGo_build {T : Type} [SubsumeIndexItem T] {W : Nat} :
    ∀ (fuel : Nat) (items : List (AbstractedPair T)),
    items ≠ [] → items.length + 1 ≤ fuel →
    (∀ p ∈ items, PairWF W p) →
    ∃ n, Node.newGo fuel items = some n ∧
      (n.drainPairs.map (fun p => (p.abstraction, p.output_set))).Subperm
        (items.map (fun p => (p.abstraction, p.output_set))) ∧
      NodeInv W n := by
  intro fuel
  induction fuel with
  | zero =>
    intro items hne hlen _
    exfalso
    omega
  | succ fuel ih =>
    intro items hne hlen hwf
    have hcosub := coalesce_skel_subperm items
    have hwfco : ∀ p ∈ coalesce items, PairWF W p := by
      intro p hp
      have hmem : (p.abstraction, p.output_set) ∈
          items.map (fun p => (p.abstraction, p.output_set)) :=
        hcosub.subset (List.mem_map_of_mem _ hp)
      obtain ⟨p0, hp0, heq⟩ := List.mem_map.1 hmem
      exact pairWF_of_skel heq (hwf p0 hp0)
    cases hco : coalesce items with
    | nil => exact absurd hco (coalesce_ne_nil items hne)
    | cons x rest0 =>
      cases rest0 with
      | nil =>
        refine ⟨Node.Leaf x, ?_, ?_, ?_⟩
        · rw [newGo_succ, hco]
        · show ([x].map (fun p => (p.abstraction, p.output_set))).Subperm
            (items.map (fun p => (p.abstraction, p.output_set)))
          rw [← hco]
          exact hcosub
        · show PairWF W x
          exact hwfco x (by rw [hco]; exact List.mem_cons_self _ _)
      | cons y rest =>
        set MINA := (y :: rest).foldl
          (fun acc p => acc.updateMinCore p.abstraction) x.abstraction
          with hMINA
        set MAXA := (y :: rest).foldl
          (fun acc p => acc.updateMaxCore p.abstraction) x.abstraction
          with hMAXA
        set IDX := (MINA.largest_range MAXA).getD 0 with hIDX
        set SRT := (x :: y :: rest).insertionSort
          (fun p q => p.abstraction.values.getD IDX 0 ≤
            q.abstraction.values.getD IDX 0) with hSRT
        have hstep : Node.newGo (fuel + 1) items =
            (match Node.newGo fuel (SRT.take (SRT.length / 2)),
                Node.newGo fuel (SRT.drop (SRT.length / 2)) with
              | some child_0, some child_1 =>
                some (Node.Inner MINA child_0 child_1 (x :: y :: rest).length)
              | _, _ => none) := by
          rw [newGo_succ, hco]
        have hperm : SRT.Perm (x :: y :: rest) := List.perm_insertionSort _ _
        have hsrtlen : SRT.length = rest.length + 2 := by
          rw [hperm.length_eq]
          rfl
        have hcolen : (coalesce items).length ≤ items.length :=
          coalesce_length items
        have hcolen2 : (coalesce items).length = rest.length + 2 := by
          rw [hco]
          rfl
        have hwfsrt : ∀ p ∈ SRT, PairWF W p := by
          intro p hp
          exact hwfco p (by rw [hco]; exact hperm.subset hp)
        have htlen : (SRT.take (SRT.length / 2)).length = (rest.length + 2) / 2 := by
          rw [List.length_take, hsrtlen]
          omega
        have hdlen : (SRT.drop (SRT.length / 2)).length =
            (rest.length + 2) - (rest.length + 2) / 2 := by
          rw [List.length_drop, hsrtlen]
        have hhalf1 : 1 ≤ (rest.length + 2) / 2 := by omega
        have hhalf2 : (rest.length + 2) / 2 ≤ rest.length + 1 := by omega
        obtain ⟨c0, hc0, hsub0, hinv0⟩ := ih (SRT.take (SRT.length / 2))
          (by rw [← List.length_pos, htlen]; omega)
          (by rw [htlen]; omega)
          (fun p hp => hwfsrt p (List.mem_of_mem_take hp))
        obtain ⟨c1, hc1, hsub1, hinv1⟩ := ih (SRT.drop (SRT.length / 2))
          (by rw [← List.length_pos, hdlen]; omega)
          (by rw [hdlen]; omega)
          (fun p hp => hwfsrt p (List.mem_of_mem_drop hp))
        have hdsub : ((c0.drainPairs ++ c1.drainPairs).map
            (fun p => (p.abstraction, p.output_set))).Subperm
            ((x :: y :: rest).map (fun p => (p.abstraction, p.output_set))) := by
          rw [List.map_append]
          have happ : ((c0.drainPairs.map
              (fun p => (p.abstraction, p.output_set))) ++
              (c1.drainPairs.map (fun p => (p.abstraction, p.output_set)))).Subperm
              (((SRT.take (SRT.length / 2)).map
                (fun p => (p.abstraction, p.output_set))) ++
              ((SRT.drop (SRT.length / 2)).map
                (fun p => (p.abstraction, p.output_set)))) := by
            obtain ⟨pa, hpa, hsa⟩ := hsub0
            obtain ⟨pb, hpb, hsb⟩ := hsub1
            exact ⟨pa ++ pb, hpa.append hpb, hsa.append hsb⟩
          apply happ.trans
          rw [List.map_take, List.map_drop, List.take_append_drop]
          exact (hperm.map _).subperm
        refine ⟨Node.Inner MINA c0 c1 (x :: y :: rest).length, ?_, ?_, ?_⟩
        · rw [hstep, hc0, hc1]
        · show ((c0.drainPairs ++ c1.drainPairs).map
              (fun p => (p.abstraction, p.output_set))).Subperm
            (items.map (fun p => (p.abstraction, p.output_set)))
          apply hdsub.trans
          rw [← hco]
          exact hcosub
        · have hwx : PairWF W x :=
            hwfco x (by rw [hco]; exact List.mem_cons_self _ _)
          have hwyr : ∀ p ∈ y :: rest, PairWF W p := by
            intro p hp
            exact hwfco p (by rw [hco]; exact List.mem_cons_of_mem _ hp)
          refine ⟨?_, ?_, ?_, hinv0, hinv1⟩
          · show MINA.channels = W
            rw [hMINA, foldMin_channels, (pairWF_abs hwx).1]
          · show MINA.values.length = W * W * 2
            rw [hMINA]
            exact foldMin_len _ _ (pairWF_abs hwx).2
              (fun p hp => (pairWF_abs (hwyr p hp)).2)
          · intro p hp i
            have hmem : (p.abstraction, p.output_set) ∈
                (x :: y :: rest).map (fun p => (p.abstraction, p.output_set)) :=
              hdsub.subset (List.mem_map_of_mem _ hp)
            obtain ⟨p0, hp0, heq⟩ := List.mem_map.1 hmem
            have heqa : p0.abstraction = p.abstraction := congrArg Prod.fst heq
            rw [← heqa]
            obtain ⟨hfold1, hfold2⟩ := foldMin_le i (y :: rest) x.abstraction
            rcases List.mem_cons.1 hp0 with rfl | hp0r
            · exact hfold1
            · exact hfold2 p0 hp0r

/-- `Node::new` on nonempty well-formed input. -/
theorem node_new_build {T : Type} [SubsumeIndexItem T] {W : Nat}
    (items : List (AbstractedPair T)) (hne : items ≠ [])
    (hwf : ∀ p ∈ items, PairWF W p) :
    ∃ n, Node.new items = some n ∧
      (n.drainPairs.map (fun p => (p.abstraction, p.output_set))).Subperm
        (items.map (fun p => (p.abstraction, p.output_set))) ∧
      NodeInv W n := by
  rw [Node.new, if_neg (by simp [hne])]
  exact newGo_build (items.length + 1) items hne (le_refl _) hwf

/-- The output sets stored in a tree, in drain order. -/
def TreeOS {T : Type} (t : Node T) : List OutputSet :=
  t.drainPairs.map (fun p => p.output_set)

/-- No output set of the first list subsumes (a permutation of) one of the
second. -/
def NoSub (W : Nat) (A B : List OutputSet) : Prop :=
  ∀ a ∈ A, ∀ b ∈ B, ¬ PSub W a b

/-- Antichain of output sets under permuted subsumption. -/
def OSAntichain (W : Nat) (l : List OutputSet) : Prop :=
  l.Pairwise (fun s u => ¬ PSub W s u ∧ ¬ PSub W u s)

/-- The maintained invariant of the whole index: well-formed trees, an
antichain within every tree, and across trees no older pair subsumes a
newer one. -/
def IndexInv {T : Type} (W : Nat) (idx : SubsumeIndex T) : Prop :=
  (∀ t ∈ idx.trees, NodeInv W t) ∧
  (∀ t ∈ idx.trees, OSAntichain W (TreeOS t)) ∧
  (idx.trees.map TreeOS).Pairwise (NoSub W)

theorem treeOS_of_skel {T : Type} {t t' : Node T}
    (h : t'.drainPairs.map (fun p => (p.abstraction, p.output_set)) =
      t.drainPairs.map (fun p => (p.abstraction, p.output_set))) :
    TreeOS t' = TreeOS t := by
  have h1 := congrArg (List.map Prod.snd) h
  rw [List.map_map, List.map_map] at h1
  exact h1

theorem subperm_map {α β : Type} (f : α → β) {l l' : List α}
    (h : l.Subperm l') : (l.map f).Subperm (l'.map f) := by
  obtain ⟨l0, hp, hs⟩ := h
  exact ⟨l0.map f, hp.map f, hs.map f⟩

theorem dropLast_append_of_getLast {α : Type} {l : List α} {b : α}
    (h : l.getLast? = some b) : l.dropLast ++ [b] = l := by
  have hne : l ≠ [] := by
    intro h0
    rw [h0] at h
    cases h
  have h2 := List.getLast?_eq_getLast l hne
  rw [h2] at h
  have h3 : l.getLast hne = b := by
    cases h
    rfl
  rw [← h3]
  exact List.dropLast_append_getLast hne

/-- The cross-pruning drain loop of one `merge_trees` iteration: the target
tree keeps its skeleton and invariant, and the surviving pairs are a
skeleton-sublist of the drained ones, none of them subsumed by the target
tree. -/
theorem mergeFold_facts {T : Type} [SubsumeIndexItem T] {W : Nat}
    (searchFuel : Nat) (hW : W ≤ 15) (hfuel : W * W + 2 ≤ searchFuel) :
    ∀ (ps : List (AbstractedPair T)) (t0 : Node T)
      (acc : List (AbstractedPair T)),
    NodeInv W t0 → (∀ p ∈ ps, PairWF W p) →
    ((ps.foldl (fun st pair =>
        match Node.combine_with_subsuming searchFuel st.1 pair with
        | .ok t' => (t', st.2)
        | .error p => (st.1, st.2 ++ [p]))
        (t0, acc)).1.drainPairs.map (fun p => (p.abstraction, p.output_set)) =
      t0.drainPairs.map (fun p => (p.abstraction, p.output_set))) ∧
    NodeInv W (ps.foldl (fun st pair =>
        match Node.combine_with_subsuming searchFuel st.1 pair with
        | .ok t' => (t', st.2)
        | .error p => (st.1, st.2 ++ [p])) (t0, acc)).1 ∧
    ∃ kept, (ps.foldl (fun st pair =>
        match Node.combine_with_subsuming searchFuel st.1 pair with
        | .ok t' => (t', st.2)
        | .error p => (st.1, st.2 ++ [p])) (t0, acc)).2 = acc ++ kept ∧
      (kept.map (fun p => (p.abstraction, p.output_set))).Sublist
        (ps.map (fun p => (p.abstraction, p.output_set))) ∧
      ∀ a ∈ kept, ¬ ∃ b ∈ t0.drainPairs, PSub W b.output_set a.output_set := by
  intro ps
  induction ps with
  | nil =>
    intro t0 acc hinv _
    refine ⟨rfl, hinv, [], ?_, List.nil_sublist _,
      fun a ha => absurd ha (List.not_mem_nil a)⟩
    rw [List.append_nil]
    rfl
  | cons p ps ih =>
    intro t0 acc hinv hwf
    rw [List.foldl_cons]
    cases hc : Node.combine_with_subsuming searchFuel t0 p with
    | ok t' =>
      have hred : (match (Except.ok t' : Except (AbstractedPair T) (Node T)) with
          | Except.ok t' => (t', (t0, acc).2)
          | Except.error p => ((t0, acc).1, (t0, acc).2 ++ [p])) =
          ((t', acc) : Node T × List (AbstractedPair T)) := rfl
      rw [hred]
      have hc2 : Node.combineWithSubsumingRec searchFuel t0 p
          (Matching.new p.output_set.channels) = .ok t' := hc
      obtain ⟨ha', hd', hi'⟩ := rec_ok_preserves (W := W) searchFuel t0 p
        (Matching.new p.output_set.channels) t' hc2
      obtain ⟨hm1, hi1, kept, hk1, hk2, hk3⟩ := ih t' acc (hi' hinv)
        (fun q hq => hwf q (List.mem_cons_of_mem _ hq))
      refine ⟨hm1.trans hd', hi1, kept, hk1, hk2.cons _, ?_⟩
      intro a ha hex
      obtain ⟨b, hb, hps⟩ := hex
      have hmem : (b.abstraction, b.output_set) ∈
          t'.drainPairs.map (fun p => (p.abstraction, p.output_set)) := by
        rw [hd']
        exact List.mem_map_of_mem _ hb
      obtain ⟨b', hb', heq⟩ := List.mem_map.1 hmem
      have hos : b'.output_set = b.output_set := congrArg Prod.snd heq
      exact hk3 a ha ⟨b', hb', by rw [hos]; exact hps⟩
    | error p' =>
      obtain ⟨hpa, hpo⟩ := combineWithSubsuming_restores searchFuel t0 p p' hc
      have hred : (match (Except.error p' : Except (AbstractedPair T) (Node T)) with
          | Except.ok t' => (t', (t0, acc).2)
          | Except.error p => ((t0, acc).1, (t0, acc).2 ++ [p])) =
          ((t0, acc ++ [p']) : Node T × List (AbstractedPair T)) := rfl
      rw [hred]
      obtain ⟨hm1, hi1, kept, hk1, hk2, hk3⟩ := ih t0 (acc ++ [p']) hinv
        (fun q hq => hwf q (List.mem_cons_of_mem _ hq))
      refine ⟨hm1, hi1, p' :: kept, ?_, ?_, ?_⟩
      · rw [hk1, List.append_assoc]
        rfl
      · show ((p'.abstraction, p'.output_set) ::
            kept.map (fun p => (p.abstraction, p.output_set))).Sublist
          ((p.abstraction, p.output_set) ::
            ps.map (fun p => (p.abstraction, p.output_set)))
        have hfp : (p'.abstraction, p'.output_set) =
            (p.abstraction, p.output_set) := by
          rw [hpa, hpo]
        rw [hfp]
        exact hk2.cons₂ _
      · intro a ha
        rcases List.mem_cons.1 ha with rfl | har
        · intro hex
          obtain ⟨b, hb, hps⟩ := hex
          have hq : PairWF W p := hwf p (List.mem_cons_self _ _)
          have hps2 : PSub W b.output_set p.output_set := by
            rw [← hpo]
            exact hps
          obtain ⟨n', hn'⟩ := combine_with_subsuming_complete searchFuel t0 p
            hW hinv hq ⟨b, hb, hps2⟩ hfuel
          rw [hn'] at hc
          cases hc
        · exact hk3 a har

/-- One `merge_trees` iteration preserves the index invariant and removes
exactly one tree. -/
theorem mergeStep_inv {T : Type} [SubsumeIndexItem T] {W : Nat}
    (searchFuel : Nat) (hW : W ≤ 15) (hfuel : W * W + 2 ≤ searchFuel)
    (idx : SubsumeIndex T) (hinv : IndexInv W idx)
    (hlen2 : 2 ≤ idx.trees.length) :
    IndexInv W (idx.mergeStep searchFuel) ∧
    (idx.mergeStep searchFuel).trees.length + 1 = idx.trees.length := by
  obtain ⟨hinv1, hinv2, hinv3⟩ := hinv
  have h1 : idx.trees ≠ [] := by
    intro h0
    rw [h0] at hlen2
    simp at hlen2
  obtain ⟨B, hB⟩ := Option.isSome_iff_exists.1 (List.getLast?_isSome.2 h1)
  have h2 : idx.trees.dropLast ≠ [] := by
    have hd := List.length_dropLast idx.trees
    intro h0
    rw [h0] at hd
    simp at hd
    omega
  obtain ⟨A, hA⟩ := Option.isSome_iff_exists.1 (List.getLast?_isSome.2 h2)
  have hsplit1 : idx.trees.dropLast ++ [B] = idx.trees :=
    dropLast_append_of_getLast hB
  have hsplit2 : idx.trees.dropLast.dropLast ++ [A] = idx.trees.dropLast :=
    dropLast_append_of_getLast hA
  have htrees : idx.trees.dropLast.dropLast ++ [A, B] = idx.trees := by
    have h3 : idx.trees.dropLast.dropLast ++ [A, B] =
        (idx.trees.dropLast.dropLast ++ [A]) ++ [B] := by
      rw [List.append_assoc]
      rfl
    rw [h3, hsplit2, hsplit1]
  have hmemA : A ∈ idx.trees := by
    rw [← htrees]
    exact List.mem_append_right _ (List.mem_cons_self _ _)
  have hmemB : B ∈ idx.trees := by
    rw [← htrees]
    exact List.mem_append_right _
      (List.mem_cons_of_mem _ (List.mem_cons_self _ _))
  have hinv3b : (idx.trees.dropLast.dropLast.map TreeOS ++
      [TreeOS A, TreeOS B]).Pairwise (NoSub W) := by
    rw [← htrees, List.map_append] at hinv3
    exact hinv3
  obtain ⟨hPF, hPAB, hcrossF⟩ := List.pairwise_append.1 hinv3b
  have hABns : NoSub W (TreeOS A) (TreeOS B) :=
    (List.pairwise_cons.1 hPAB).1 (TreeOS B) (List.mem_cons_self _ _)
  have hAinv := hinv1 A hmemA
  have hBinv := hinv1 B hmemB
  have hwfA := nodeInv_pairs A hAinv
  have hwfB := nodeInv_pairs B hBinv
  obtain ⟨hfm, hfi, kept, hkeq, hksub, hkno⟩ :=
    mergeFold_facts searchFuel hW hfuel A.drainPairs B [] hBinv hwfA
  rw [List.nil_append] at hkeq
  have hpairsne : kept ++ (A.drainPairs.foldl (fun st pair =>
      match Node.combine_with_subsuming searchFuel st.1 pair with
      | .ok t' => (t', st.2)
      | .error p => (st.1, st.2 ++ [p])) (B, ([] : List (AbstractedPair T)))).1.drainPairs ≠ [] := by
    intro h0
    exact drainPairs_ne_nil _ (List.append_eq_nil.1 h0).2
  have hwfpairs : ∀ q ∈ kept ++ (A.drainPairs.foldl (fun st pair =>
      match Node.combine_with_subsuming searchFuel st.1 pair with
      | .ok t' => (t', st.2)
      | .error p => (st.1, st.2 ++ [p])) (B, ([] : List (AbstractedPair T)))).1.drainPairs, PairWF W q := by
    intro q hq
    rcases List.mem_append.1 hq with hqk | hqd
    · have hmem : (q.abstraction, q.output_set) ∈
          A.drainPairs.map (fun p => (p.abstraction, p.output_set)) :=
        hksub.subset (List.mem_map_of_mem _ hqk)
      obtain ⟨p0, hp0, heq⟩ := List.mem_map.1 hmem
      exact pairWF_of_skel heq (hwfA p0 hp0)
    · have hmem : (q.abstraction, q.output_set) ∈
          B.drainPairs.map (fun p => (p.abstraction, p.output_set)) := by
        rw [← hfm]
        exact List.mem_map_of_mem _ hqd
      obtain ⟨p0, hp0, heq⟩ := List.mem_map.1 hmem
      exact pairWF_of_skel heq (hwfB p0 hp0)
  obtain ⟨NT, hNT, hNTsub, hNTinv⟩ :=
    node_new_build (kept ++ (A.drainPairs.foldl (fun st pair =>
      match Node.combine_with_subsuming searchFuel st.1 pair with
      | .ok t' => (t', st.2)
      | .error p => (st.1, st.2 ++ [p])) (B, ([] : List (AbstractedPair T)))).1.drainPairs) hpairsne hwfpairs
  have hD1os : (A.drainPairs.foldl (fun st pair =>
      match Node.combine_with_subsuming searchFuel st.1 pair with
      | .ok t' => (t', st.2)
      | .error p => (st.1, st.2 ++ [p])) (B, ([] : List (AbstractedPair T)))).1.drainPairs.map (fun p => p.output_set) = TreeOS B :=
    treeOS_of_skel hfm
  have hNTos : (TreeOS NT).Subperm
      (kept.map (fun p => p.output_set) ++ TreeOS B) := by
    have h0 := subperm_map Prod.snd hNTsub
    rw [List.map_map, List.map_map, List.map_append] at h0
    rw [← hD1os]
    exact h0
  have hkos : (kept.map (fun p => p.output_set)).Sublist (TreeOS A) := by
    have h0 := hksub.map Prod.snd
    rw [List.map_map, List.map_map] at h0
    exact h0
  have hNTac : OSAntichain W (TreeOS NT) := by
    apply pairwise_of_subperm (fun hab => ⟨hab.2, hab.1⟩) hNTos
    rw [List.pairwise_append]
    refine ⟨(hinv2 A hmemA).sublist hkos, hinv2 B hmemB, ?_⟩
    intro a ha b hb
    refine ⟨hABns a (hkos.subset ha) b hb, ?_⟩
    obtain ⟨q, hq, rfl⟩ := List.mem_map.1 ha
    obtain ⟨bp, hbp, rfl⟩ := List.mem_map.1 hb
    intro hps
    exact hkno q hq ⟨bp, hbp, hps⟩
  rw [SubsumeIndex.mergeStep, hB, hA]
  simp only []
  rw [hkeq, hNT]
  constructor
  · refine ⟨?_, ?_, ?_⟩
    · intro t ht
      have ht2 : t ∈ idx.trees.dropLast.dropLast ++ [NT] := ht
      rcases List.mem_append.1 ht2 with htF | htNT
      · exact hinv1 t (by rw [← htrees]; exact List.mem_append_left _ htF)
      · have hteq : t = NT := by simpa using htNT
        rw [hteq]
        exact hNTinv
    · intro t ht
      have ht2 : t ∈ idx.trees.dropLast.dropLast ++ [NT] := ht
      rcases List.mem_append.1 ht2 with htF | htNT
      · exact hinv2 t (by rw [← htrees]; exact List.mem_append_left _ htF)
      · have hteq : t = NT := by simpa using htNT
        rw [hteq]
        exact hNTac
    · show ((idx.trees.dropLast.dropLast ++ [NT]).map TreeOS).Pairwise (NoSub W)
      rw [List.map_append, List.pairwise_append]
      refine ⟨hPF, List.pairwise_singleton _ _, ?_⟩
      intro X hX Y hY
      have hYNT : Y = TreeOS NT := by simpa using hY
      rw [hYNT]
      intro x hx n hn
      have hn2 : n ∈ kept.map (fun p => p.output_set) ++ TreeOS B :=
        hNTos.subset hn
      rcases List.mem_append.1 hn2 with hnk | hnB
      · exact hcrossF X hX (TreeOS A) (List.mem_cons_self _ _) x hx n
          (hkos.subset hnk)
      · exact hcrossF X hX (TreeOS B)
          (List.mem_cons_of_mem _ (List.mem_cons_self _ _)) x hx n hnB
  · show (idx.trees.dropLast.dropLast ++ [NT]).length + 1 = idx.trees.length
    rw [List.length_append]
    have hlenF := congrArg List.length htrees
    rw [List.length_append] at hlenF
    simp only [List.length_cons, List.length_nil] at hlenF ⊢
    omega

theorem mapTreeOS_of_skel {T : Type} {ts ts' : List (Node T)}
    (h : ts'.map (fun t => t.drainPairs.map
        (fun p => (p.abstraction, p.output_set))) =
      ts.map (fun t => t.drainPairs.map
        (fun p => (p.abstraction, p.output_set)))) :
    ts'.map TreeOS = ts.map TreeOS := by
  have h1 := congrArg (List.map (List.map Prod.snd)) h
  rw [List.map_map, List.map_map] at h1
  have haux : ∀ (l : List (Node T)),
      l.map ((List.map Prod.snd) ∘ (fun t => t.drainPairs.map
        (fun p => (p.abstraction, p.output_set)))) = l.map TreeOS := by
    intro l
    apply List.map_congr_left
    intro t _
    show (t.drainPairs.map
      (fun p => (p.abstraction, p.output_set))).map Prod.snd = TreeOS t
    rw [List.map_map]
    rfl
  rw [haux, haux] at h1
  exact h1

theorem mergeTreesGo_inv {T : Type} [SubsumeIndexItem T] {W : Nat}
    (searchFuel : Nat) (hW : W ≤ 15) (hfuel : W * W + 2 ≤ searchFuel)
    (all : Bool) :
    ∀ (fuel : Nat) (idx : SubsumeIndex T), IndexInv W idx →
    IndexInv W (SubsumeIndex.mergeTreesGo searchFuel all fuel idx) := by
  intro fuel
  induction fuel with
  | zero =>
    intro idx h
    exact h
  | succ fuel ih =>
    intro idx h
    rw [mergeTreesGo_succ]
    by_cases hl : idx.trees.length ≥ 2
    · rw [if_pos hl]
      by_cases hc : all = false ∧ idx.tailSizeGt = true
      · rw [if_pos hc]
        exact h
      · rw [if_neg hc]
        exact ih _ (mergeStep_inv searchFuel hW hfuel idx h (by omega)).1
    · rw [if_neg hl]
      exact h

theorem mergeTreesGo_len_ge1 {T : Type} [SubsumeIndexItem T] {W : Nat}
    (searchFuel : Nat) (hW : W ≤ 15) (hfuel : W * W + 2 ≤ searchFuel)
    (all : Bool) :
    ∀ (fuel : Nat) (idx : SubsumeIndex T), IndexInv W idx →
    1 ≤ idx.trees.length →
    1 ≤ (SubsumeIndex.mergeTreesGo searchFuel all fuel idx).trees.length := by
  intro fuel
  induction fuel with
  | zero =>
    intro idx _ h1
    exact h1
  | succ fuel ih =>
    intro idx h h1
    rw [mergeTreesGo_succ]
    by_cases hl : idx.trees.length ≥ 2
    · rw [if_pos hl]
      by_cases hc : all = false ∧ idx.tailSizeGt = true
      · rw [if_pos hc]
        exact h1
      · rw [if_neg hc]
        obtain ⟨hstepinv, hsteplen⟩ :=
          mergeStep_inv searchFuel hW hfuel idx h (by omega)
        exact ih _ hstepinv (by omega)
    · rw [if_neg hl]
      exact h1

theorem mergeTreesGo_all_le1 {T : Type} [SubsumeIndexItem T] {W : Nat}
    (searchFuel : Nat) (hW : W ≤ 15) (hfuel : W * W + 2 ≤ searchFuel) :
    ∀ (fuel : Nat) (idx : SubsumeIndex T), IndexInv W idx →
    idx.trees.length ≤ fuel →
    (SubsumeIndex.mergeTreesGo searchFuel true fuel idx).trees.length ≤ 1 := by
  intro fuel
  induction fuel with
  | zero =>
    intro idx _ hle
    rw [mergeTreesGo_zero]
    omega
  | succ fuel ih =>
    intro idx h hle
    rw [mergeTreesGo_succ]
    by_cases hl : idx.trees.length ≥ 2
    · rw [if_pos hl]
      rw [if_neg (by simp)]
      obtain ⟨hstepinv, hsteplen⟩ :=
        mergeStep_inv searchFuel hW hfuel idx h (by omega)
      exact ih _ hstepinv (by omega)
    · rw [if_neg hl]
      omega

theorem empty_inv {T : Type} {W : Nat} : IndexInv W (SubsumeIndex.empty T) :=
  ⟨fun t ht => absurd ht (List.not_mem_nil t),
    fun t ht => absurd ht (List.not_mem_nil t), List.Pairwise.nil⟩

theorem combineWithSubsuming_ok_inv {T : Type} [SubsumeIndexItem T] {W : Nat}
    (fuel : Nat) (idx : SubsumeIndex T) (q : AbstractedPair T)
    (idx' : SubsumeIndex T)
    (h : idx.combineWithSubsuming fuel q = .ok idx') (hinv : IndexInv W idx) :
    IndexInv W idx' ∧ idx'.trees.length = idx.trees.length := by
  rw [SubsumeIndex.combineWithSubsuming] at h
  cases hc : combineTreesList fuel idx.trees q with
  | error p =>
    rw [hc] at h
    cases h
  | ok ts' =>
    rw [hc] at h
    have hts : (⟨ts', idx.len⟩ : SubsumeIndex T) = idx' := by
      cases h
      rfl
    rw [← hts]
    obtain ⟨hmap, hinvp⟩ :=
      combineTreesList_ok_preserves (W := W) fuel idx.trees q ts' hc
    have hmapOS : ts'.map TreeOS = idx.trees.map TreeOS :=
      mapTreeOS_of_skel hmap
    obtain ⟨h1, h2, h3⟩ := hinv
    refine ⟨⟨?_, ?_, ?_⟩, ?_⟩
    · intro t ht
      exact hinvp h1 t ht
    · intro t ht
      have hos : TreeOS t ∈ idx.trees.map TreeOS := by
        rw [← hmapOS]
        exact List.mem_map_of_mem _ ht
      obtain ⟨t0, ht0, heq⟩ := List.mem_map.1 hos
      rw [← heq]
      exact h2 t0 ht0
    · show (ts'.map TreeOS).Pairwise (NoSub W)
      rw [hmapOS]
      exact h3
    · show ts'.length = idx.trees.length
      have := congrArg List.length hmap
      rw [List.length_map, List.length_map] at this
      exact this

theorem combineWithSubsuming_error_of {T : Type} [SubsumeIndexItem T]
    (fuel : Nat) (idx : SubsumeIndex T) (q q' : AbstractedPair T)
    (h : idx.combineWithSubsuming fuel q = .error q') :
    combineTreesList fuel idx.trees q = .error q' := by
  rw [SubsumeIndex.combineWithSubsuming] at h
  cases hc : combineTreesList fuel idx.trees q with
  | ok ts' =>
    rw [hc] at h
    cases h
  | error p =>
    rw [hc] at h
    have : p = q' := by
      cases h
      rfl
    rw [← this]

/-- `SubsumeIndex::insert` preserves the index invariant and leaves at
least one tree. -/
theorem insert_inv {T : Type} [SubsumeIndexItem T] {W : Nat}
    (searchFuel : Nat) (hW : W ≤ 15) (hfuel : W * W + 2 ≤ searchFuel)
    (idx : SubsumeIndex T) (q : AbstractedPair T)
    (hinv : IndexInv W idx) (hq : PairWF W q) :
    IndexInv W (idx.insert searchFuel q) ∧
    1 ≤ (idx.insert searchFuel q).trees.length := by
  rw [SubsumeIndex.insert]
  cases hc : idx.combineWithSubsuming searchFuel q with
  | ok idx' =>
    obtain ⟨hinv', hlen'⟩ :=
      combineWithSubsuming_ok_inv searchFuel idx q idx' hc hinv
    refine ⟨hinv', ?_⟩
    rw [hlen']
    rcases hcase : idx.trees with _ | ⟨t0, rest⟩
    · exfalso
      have hct := combineWithSubsuming_error_of searchFuel idx q q
      rw [SubsumeIndex.combineWithSubsuming, hcase] at hc
      have h2 : (match (Except.error q :
          Except (AbstractedPair T) (List (Node T))) with
        | .ok trees' => Except.ok (⟨trees', idx.len⟩ : SubsumeIndex T)
        | .error p => Except.error p) = Except.ok idx' := hc
      cases h2
    · simp [hcase]
  | error q' =>
    have hct := combineWithSubsuming_error_of searchFuel idx q q' hc
    obtain ⟨hqa, hqo⟩ := combineTreesList_error_fields searchFuel idx.trees q q' hct
    have hq' : PairWF W q' :=
      ⟨by rw [hqo]; exact hq.1, by rw [hqa, hqo]; exact hq.2⟩
    have hnosub : ∀ t ∈ idx.trees, ∀ p ∈ t.drainPairs,
        ¬ PSub W p.output_set q.output_set := by
      intro t ht p hp hps
      obtain ⟨ts', hts'⟩ := combineTreesList_complete searchFuel hW hfuel
        idx.trees q hinv.1 hq ⟨t, ht, p, hp, hps⟩
      rw [hts'] at hct
      cases hct
    obtain ⟨h1, h2, h3⟩ := hinv
    have hinv2 : IndexInv W (⟨idx.trees ++ [Node.Leaf q'], idx.len + 1⟩ :
        SubsumeIndex T) := by
      refine ⟨?_, ?_, ?_⟩
      · intro t ht
        rcases List.mem_append.1 ht with htF | htL
        · exact h1 t htF
        · have hteq : t = Node.Leaf q' := by simpa using htL
          rw [hteq]
          exact hq'
      · intro t ht
        rcases List.mem_append.1 ht with htF | htL
        · exact h2 t htF
        · have hteq : t = Node.Leaf q' := by simpa using htL
          rw [hteq]
          exact List.pairwise_singleton _ _
      · show ((idx.trees ++ [Node.Leaf q']).map TreeOS).Pairwise (NoSub W)
        rw [List.map_append, List.pairwise_append]
        refine ⟨h3, List.pairwise_singleton _ _, ?_⟩
        intro X hX Y hY
        have hYq : Y = TreeOS (Node.Leaf q') := by simpa using hY
        rw [hYq]
        intro x hx n hn
        obtain ⟨t0, ht0, hXeq⟩ := List.mem_map.1 hX
        have hnq : n = q'.output_set := by
          simpa [TreeOS, Node.drainPairs] using hn
        rw [← hXeq] at hx
        obtain ⟨p0, hp0, hp0eq⟩ := List.mem_map.1 hx
        rw [hnq, ← hp0eq]
        intro hps
        exact hnosub t0 ht0 p0 hp0 (by rw [hqo] at hps; exact hps)
    refine ⟨?_, ?_⟩
    · exact mergeTreesGo_inv searchFuel hW hfuel false _ _ hinv2
    · apply mergeTreesGo_len_ge1 searchFuel hW hfuel false _ _ hinv2
      show 1 ≤ (idx.trees ++ [Node.Leaf q']).length
      rw [List.length_append]
      simp

/-- All insertions from the public API, oldest first. -/
def insertAll {T : Type} [SubsumeIndexItem T] (searchFuel : Nat)
    (inputs : List (OutputSet × T)) : SubsumeIndex T :=
  inputs.foldl
    (fun acc s => acc.insert searchFuel (AbstractedPair.new s.1 s.2))
    (SubsumeIndex.empty T)

theorem insertAll_fold_inv {T : Type} [SubsumeIndexItem T] {W : Nat}
    (searchFuel : Nat) (hW : W ≤ 15) (hfuel : W * W + 2 ≤ searchFuel) :
    ∀ (inputs : List (OutputSet × T)) (acc : SubsumeIndex T),
    IndexInv W acc → (∀ s ∈ inputs, OSWF W s.1) →
    IndexInv W (inputs.foldl
      (fun acc s => acc.insert searchFuel (AbstractedPair.new s.1 s.2)) acc) ∧
    ((1 ≤ acc.trees.length ∨ inputs ≠ []) →
      1 ≤ (inputs.foldl
        (fun acc s => acc.insert searchFuel (AbstractedPair.new s.1 s.2))
        acc).trees.length) := by
  intro inputs
  induction inputs with
  | nil =>
    intro acc hinv _
    refine ⟨hinv, ?_⟩
    intro hor
    rcases hor with h1 | h1
    · exact h1
    · exact absurd rfl h1
  | cons s rest ih =>
    intro acc hinv hwf
    rw [List.foldl_cons]
    have hqwf : PairWF W (AbstractedPair.new s.1 s.2) := by
      refine ⟨hwf s (List.mem_cons_self _ _), rfl⟩
    obtain ⟨hinv', hlen'⟩ :=
      insert_inv searchFuel hW hfuel acc (AbstractedPair.new s.1 s.2)
        hinv hqwf
    obtain ⟨hfold, hlen⟩ := ih (acc.insert searchFuel (AbstractedPair.new s.1 s.2))
      hinv' (fun s2 hs2 => hwf s2 (List.mem_cons_of_mem _ hs2))
    exact ⟨hfold, fun _ => hlen (Or.inl hlen')⟩

/-! ### Bridge from the code-level permuted subsumption to the semantic one -/

theorem foldOr_testBit : ∀ (l : List Nat) (acc k : Nat),
    (l.foldl (fun m p => m ||| (1 <<< p)) acc).testBit k =
      (acc.testBit k || l.any (fun p => p = k)) := by
  intro l
  induction l with
  | nil =>
    intro acc k
    simp
  | cons p rest ih =>
    intro acc k
    rw [List.foldl_cons, ih, List.any_cons]
    rw [Nat.testBit_or, shiftLeft_one, Nat.testBit_two_pow, Bool.or_assoc]

theorem perm_valid_facts {W : Nat} {perm : List Nat}
    (hlen : perm.length = W)
    (hmask : (perm.reverse.foldl (fun m p => m ||| (1 <<< p)) 0) + 1 =
      1 <<< W) :
    (∀ b, b < W → b ∈ perm) ∧ (∀ p ∈ perm, p < W) ∧ perm.Nodup := by
  have h2W : (1 : Nat) ≤ 2 ^ W := Nat.one_le_two_pow
  have hfold : perm.reverse.foldl (fun m p => m ||| (1 <<< p)) 0 =
      2 ^ W - 1 := by
    rw [shiftLeft_one] at hmask
    omega
  have hbit : ∀ k, (2 ^ W - 1).testBit k =
      (perm.reverse.any (fun p => p = k)) := by
    intro k
    rw [← hfold, foldOr_testBit]
    simp
  have hcov : ∀ b, b < W → b ∈ perm := by
    intro b hb
    have h1 : (2 ^ W - 1).testBit b = true := by
      rw [Nat.testBit_two_pow_sub_one]
      simpa using hb
    rw [hbit] at h1
    obtain ⟨p0, hp0, hp0e⟩ := List.any_eq_true.1 h1
    have hp0b : p0 = b := of_decide_eq_true hp0e
    rw [← hp0b]
    exact (List.mem_reverse).1 hp0
  have hel : ∀ p ∈ perm, p < W := by
    intro p hp
    have h1 : (perm.reverse.any (fun q => q = p)) = true :=
      List.any_eq_true.2 ⟨p, List.mem_reverse.2 hp, by simp⟩
    rw [← hbit, Nat.testBit_two_pow_sub_one] at h1
    simpa using h1
  have hsub : (List.range W).Subperm perm := by
    apply List.subperm_of_subset (List.nodup_range W)
    intro b hb
    exact hcov b (List.mem_range.1 hb)
  have hperm2 : (List.range W).Perm perm :=
    hsub.perm_of_length_le (le_of_eq (by rw [hlen, List.length_range]))
  have hnd : perm.Nodup := hperm2.nodup (List.nodup_range W)
  exact ⟨hcov, hel, hnd⟩

theorem perm_bij {W : Nat} {perm : List Nat} (hlen : perm.length = W)
    (hcov : ∀ b, b < W → b ∈ perm) (hel : ∀ p ∈ perm, p < W)
    (hnd : perm.Nodup) :
    BijOn W (fun k => perm.getD k 0) (fun b => perm.indexOf b) := by
  constructor
  · intro a ha
    have ha2 : a < perm.length := by omega
    show perm.getD a 0 < W
    rw [getD_eq_getElem 0 perm a ha2]
    exact hel _ (List.getElem_mem _)
  · intro b hb
    have hib := List.indexOf_lt_length.2 (hcov b hb)
    show perm.indexOf b < W
    omega
  · intro a ha
    have ha2 : a < perm.length := by omega
    show perm.indexOf (perm.getD a 0) = a
    rw [getD_eq_getElem 0 perm a ha2]
    have hmem : perm[a] ∈ perm := List.getElem_mem _
    have hlt := List.indexOf_lt_length.2 hmem
    have hget : perm.get ⟨perm.indexOf perm[a], hlt⟩ = perm[a] :=
      List.indexOf_get _
    have hfin : (⟨perm.indexOf perm[a], hlt⟩ : Fin perm.length) = ⟨a, ha2⟩ := by
      apply (List.Nodup.get_inj_iff hnd).1
      rw [hget]
      rfl
    exact congrArg Fin.val hfin
  · intro b hb
    have hmem := hcov b hb
    have hlt := List.indexOf_lt_length.2 hmem
    show perm.getD (perm.indexOf b) 0 = b
    rw [getD_eq_getElem 0 perm _ hlt]
    exact List.indexOf_get (a := b) (l := perm) hlt

theorem remap_inj {W : Nat} {perm : List Nat} (hlen : perm.length = W)
    (hbij : BijOn W (fun k => perm.getD k 0) (fun b => perm.indexOf b))
    {u1 u2 : Nat} (h1 : u1 < 2 ^ W) (h2 : u2 < 2 ^ W)
    (he : remapValue perm u1 = remapValue perm u2) : u1 = u2 := by
  apply Nat.eq_of_testBit_eq
  intro b
  by_cases hb : b < W
  · have hk := congrArg (fun v => Nat.testBit v (perm.indexOf b)) he
    simp only [] at hk
    rw [remapValue_testBit, remapValue_testBit] at hk
    have hilt : perm.indexOf b < perm.length := by
      have := hbij.mapsToInv b hb
      omega
    rw [if_pos hilt, if_pos hilt] at hk
    have hr2 : perm.getD (perm.indexOf b) 0 = b := hbij.rightInv b hb
    rw [hr2] at hk
    exact hk
  · rw [testBit_eq_false_of_lt h1 (by omega),
      testBit_eq_false_of_lt h2 (by omega)]

/-- If the code accepts some permutation (`permute_channels` succeeds and
`subsumes` answers true), the semantic permuted subsumption holds. -/
theorem codeSub_to_PSub {W : Nat} {p q : OutputSet}
    (hqW : q.channels = W)
    (hps : List.Sorted (· < ·) p.values) (hqs : List.Sorted (· < ·) q.values)
    (hqb : ∀ v ∈ q.values, v < 2 ^ W)
    {perm : List Nat} {qp : OutputSet}
    (hpc : q.permute_channels perm = some qp)
    (hsub : p.subsumes qp = true) : PSub W p q := by
  rw [OutputSet.permute_channels] at hpc
  by_cases hcond : perm.length = q.channels ∧
      (perm.reverse.foldl (fun m p => m ||| (1 <<< p)) 0) + 1 =
        1 <<< q.channels
  case neg =>
    rw [if_neg hcond] at hpc
    cases hpc
  case pos =>
    rw [if_pos hcond] at hpc
    have hqp : q.permuteChannelsCore perm = qp := by
      cases hpc
      rfl
    obtain ⟨hlen0, hmask0⟩ := hcond
    have hlen : perm.length = W := by rw [hlen0, hqW]
    rw [hqW] at hmask0
    obtain ⟨hcov, hel, hnd⟩ := perm_valid_facts hlen hmask0
    have hbij := perm_bij hlen hcov hel hnd
    have hqpvals : qp.values.Perm (q.values.map (remapValue perm)) := by
      rw [← hqp]
      exact List.perm_insertionSort _ _
    have hqple : List.Sorted (· ≤ ·) qp.values := by
      rw [← hqp]
      exact List.sorted_insertionSort _ _
    have hmapnd : (q.values.map (remapValue perm)).Nodup := by
      apply List.Nodup.map_on ?_ hqs.nodup
      intro u1 h1 u2 h2 he
      exact remap_inj hlen hbij (hqb u1 h1) (hqb u2 h2) he
    have hqpnd : qp.values.Nodup := hqpvals.symm.nodup hmapnd
    have hqpsorted : List.Sorted (· < ·) qp.values :=
      List.Sorted.lt_of_le hqple hqpnd
    have hsubset := (subsumes_iff_subset p qp hps hqpsorted).1 hsub
    refine ⟨fun k => perm.getD k 0, fun b => perm.indexOf b, hbij, ?_⟩
    intro v hv
    have hvqp : v ∈ qp.values := hsubset hv
    have hvmap : v ∈ q.values.map (remapValue perm) := hqpvals.subset hvqp
    obtain ⟨u, hu, hue⟩ := List.mem_map.1 hvmap
    refine ⟨u, hu, ?_⟩
    intro k hk
    rw [← hue, remapValue_testBit, if_pos (by omega)]

theorem subsume_all_facts {T : Type} [SubsumeIndexItem T] {W : Nat}
    (searchFuel : Nat) (hW : W ≤ 15) (hfuel : W * W + 2 ≤ searchFuel)
    (idx : SubsumeIndex T) (hinv : IndexInv W idx) :
    IndexInv W (idx.subsume_all searchFuel) ∧
    (idx.subsume_all searchFuel).trees.length ≤ 1 ∧
    (1 ≤ idx.trees.length →
      (idx.subsume_all searchFuel).trees.length = 1) := by
  rw [SubsumeIndex.subsume_all, SubsumeIndex.merge_trees]
  refine ⟨mergeTreesGo_inv searchFuel hW hfuel true _ idx hinv,
    mergeTreesGo_all_le1 searchFuel hW hfuel _ idx hinv (le_refl _), ?_⟩
  intro h1
  have hge := mergeTreesGo_len_ge1 searchFuel hW hfuel true
    idx.trees.length idx hinv h1
  have hle := mergeTreesGo_all_le1 searchFuel hW hfuel
    idx.trees.length idx hinv (le_refl _)
  omega

theorem indexInv_pairs_wf {T : Type} {W : Nat} (idx : SubsumeIndex T)
    (hinv : IndexInv W idx) :
    ∀ p ∈ idx.drainPairs, PairWF W p := by
  intro p hp
  rw [SubsumeIndex.drainPairs] at hp
  obtain ⟨l, hl, hpl⟩ := List.mem_flatten.1 hp
  obtain ⟨t, ht, rfl⟩ := List.mem_map.1 hl
  exact nodeInv_pairs t (hinv.1 t ht) p hpl

theorem indexInv_single_antichain {T : Type} {W : Nat} (idx : SubsumeIndex T)
    (hinv : IndexInv W idx) (hle : idx.trees.length ≤ 1) :
    idx.drainPairs.Pairwise
      (fun pp qq => ¬ PSub W pp.output_set qq.output_set ∧
        ¬ PSub W qq.output_set pp.output_set) := by
  rcases hcase : idx.trees with _ | ⟨t0, rest⟩
  · have hd : idx.drainPairs = [] := by
      rw [SubsumeIndex.drainPairs, hcase]
      rfl
    rw [hd]
    exact List.Pairwise.nil
  · have hrlen : rest.length = 0 := by
      have hl := congrArg List.length hcase
      simp only [List.length_cons] at hl
      omega
    have hrest : rest = [] := List.eq_nil_of_length_eq_zero hrlen
    subst hrest
    have hd : idx.drainPairs = t0.drainPairs := by
      rw [SubsumeIndex.drainPairs, hcase]
      simp
    rw [hd]
    have h1 := hinv.2.1 t0 (by rw [hcase]; exact List.mem_cons_self _ _)
    exact (List.pairwise_map).1 h1

/-! ## Claim theorems -/

/-- Claim C2: for every output set with strictly ascending values and every
pair of distinct in-range channel indices `i ≠ j`, `apply_comparator(i, j)`
succeeds and returns exactly the de-duplicated sorted image in which each
value with the `j`-bit set and the `i`-bit clear is replaced by `v ^ m`; the
result is strictly ascending with no duplicates and its length is at most
the input's length. -/
theorem c2_apply_comparator_brute_force (s : OutputSet) (i j : Nat)
    (hs : List.Sorted (· < ·) s.values) (hij : i ≠ j)
    (hi : i < s.channels) (hj : j < s.channels) :
    s.apply_comparator i j = some (bruteForceComparator s i j) ∧
    List.Sorted (· < ·) (bruteForceComparator s i j).values ∧
    (bruteForceComparator s i j).values.length ≤ s.values.length := by
  have hcore := applyComparatorCore_eq_bruteForce (s := s) (a := i) (b := j) hs
  refine ⟨?_, ?_, ?_⟩
  · rw [OutputSet.apply_comparator, if_pos ⟨hij, hi, hj⟩, hcore]
  · rw [← hcore]
    exact applyComparatorCore_sorted hs
  · rw [← hcore]
    exact applyComparatorCore_length_le hs

/-- Witness for C2 at the width-2 identity output set with comparator
`(0, 1)`. -/
theorem c2_witness :
    (List.Sorted (· < ·) (OutputSet.mk 2 [0, 1, 2, 3]).values ∧ (0 : Nat) ≠ 1 ∧
      0 < (OutputSet.mk 2 [0, 1, 2, 3]).channels ∧
      1 < (OutputSet.mk 2 [0, 1, 2, 3]).channels) ∧
    ((OutputSet.mk 2 [0, 1, 2, 3]).apply_comparator 0 1 =
      some (bruteForceComparator (OutputSet.mk 2 [0, 1, 2, 3]) 0 1) ∧
    List.Sorted (· < ·) (bruteForceComparator (OutputSet.mk 2 [0, 1, 2, 3]) 0 1).values ∧
    (bruteForceComparator (OutputSet.mk 2 [0, 1, 2, 3]) 0 1).values.length ≤
      (OutputSet.mk 2 [0, 1, 2, 3]).values.length) :=
  ⟨⟨by decide, by decide, by decide, by decide⟩,
    c2_apply_comparator_brute_force (OutputSet.mk 2 [0, 1, 2, 3]) 0 1
      (by decide) (by decide) (by decide) (by decide)⟩

/-- Claim C3: whenever `combine_permuted` (and hence
`combine_with_subsuming`) returns the rejection result, the pair handed back
has the abstraction and output set the query entered with: every rotation
performed during the search is undone on all rejection paths. -/
theorem c3_rejection_restores_query :
    ∀ (T : Type) (_inst : SubsumeIndexItem T),
    (∀ (fuel : Nat) (node_pair pair : AbstractedPair T) (perm : List Nat)
        (matching : Matching) (p : AbstractedPair T),
      combinePermuted fuel node_pair pair perm matching = .error p →
      p.abstraction = pair.abstraction ∧ p.output_set = pair.output_set) ∧
    (∀ (fuel : Nat) (node : Node T) (pair p : AbstractedPair T),
      Node.combine_with_subsuming fuel node pair = .error p →
      p.abstraction = pair.abstraction ∧ p.output_set = pair.output_set) := by
  intro T _inst
  exact ⟨fun fuel np pr pm m p h => combinePermuted_restores fuel np pr pm m p h,
    fun fuel node pr p h => combineWithSubsuming_restores fuel node pr p h⟩

/-- Witness for C3: a rejected width-2 query comes back unchanged. -/
theorem c3_witness :
    (Node.combine_with_subsuming 100
        (Node.Leaf (AbstractedPair.new (OutputSet.mk 2 [0, 1, 2, 3]) (1 : Nat)))
        (AbstractedPair.new (OutputSet.mk 2 [0, 1, 3]) 1) =
      .error (AbstractedPair.new (OutputSet.mk 2 [0, 1, 3]) 1)) ∧
    ((AbstractedPair.new (OutputSet.mk 2 [0, 1, 3]) (1 : Nat)).abstraction =
        (AbstractedPair.new (OutputSet.mk 2 [0, 1, 3]) (1 : Nat)).abstraction ∧
      (AbstractedPair.new (OutputSet.mk 2 [0, 1, 3]) (1 : Nat)).output_set =
        (AbstractedPair.new (OutputSet.mk 2 [0, 1, 3]) (1 : Nat)).output_set) :=
  ⟨rfl, (c3_rejection_restores_query Nat inferInstance).2 100
    (Node.Leaf (AbstractedPair.new (OutputSet.mk 2 [0, 1, 2, 3]) 1))
    (AbstractedPair.new (OutputSet.mk 2 [0, 1, 3]) 1)
    (AbstractedPair.new (OutputSet.mk 2 [0, 1, 3]) 1) rfl⟩

/-- Claim C4: the branch step does not behave as described.  Because the
source computes `(count_b, channel_b)` from `matches_a` as well, the code
always takes the `else` arm: it fixes the B-channel index equal to the
minimum-popcount A-row index and iterates `select` over A-channels.  At the
concrete matching below the code accepts with permutation `[2, 0, 1]`,
whereas the claimed strategy (branch on the minimum A-row, iterate its
candidate B-channels — the `count_a < count_b` arm, here as
`combinePermutedSpecBranch`) accepts with permutation `[2, 1, 0]`. -/
theorem c4_branch_selection_divergence :
    combinePermuted 100 c4Node c4Query [0, 1, 2] c4Matching =
        .ok { c4Node with item := [2, 0, 1] } ∧
    combinePermutedSpecBranch 100 c4Node c4Query [0, 1, 2] c4Matching =
        .ok { c4Node with item := [2, 1, 0] } :=
  ⟨rfl, rfl⟩

/-- Counterexample for C5: with two trees of equal size 1 the claimed loop
condition `trees[-2].len > trees[-1].len` is false, so the claim predicts no
merge; the code merges the two trees into one. -/
theorem c5_counterexample_merge_condition :
    c5Idx.trees.length = 2 ∧ c5Idx.tailSizeGt = false ∧
    (SubsumeIndex.merge_trees 100 false c5Idx).trees.length = 1 ∧
    (SubsumeIndex.merge_trees 100 false c5Idx).len = 2 :=
  ⟨rfl, rfl, rfl, rfl⟩

/-- Claim C5 (amended): `merge_trees(all = false)` repeatedly merges the two
tail trees exactly while `trees[-2].len > trees[-1].len` does NOT hold
(stopping when it holds or fewer than two trees remain); each merge is
`mergeStep`: drain the second-last tree testing each of its pairs against
the last tree via `combine_with_subsuming`, drain the last tree's remaining
pairs, and rebuild one tree from the survivors. -/
theorem c5_merge_trees_loop :
    ∀ (T : Type) (_inst : SubsumeIndexItem T) (searchFuel : Nat)
      (idx : SubsumeIndex T),
    (idx.trees.length < 2 →
      SubsumeIndex.merge_trees searchFuel false idx = idx) ∧
    (2 ≤ idx.trees.length → idx.tailSizeGt = true →
      SubsumeIndex.merge_trees searchFuel false idx = idx) ∧
    (2 ≤ idx.trees.length → idx.tailSizeGt = false →
      SubsumeIndex.merge_trees searchFuel false idx =
        SubsumeIndex.merge_trees searchFuel false
          (idx.mergeStep searchFuel)) := by
  intro T _inst searchFuel idx
  exact ⟨merge_trees_small searchFuel false idx,
    merge_trees_stop searchFuel idx,
    merge_trees_step searchFuel idx⟩

/-- Witness for C5 at concrete index states: the stop case at a two-tree
index with a larger second-last tree would need a size-2 tree, so witness
the `< 2` case and the merging case. -/
theorem c5_witness :
    ((SubsumeIndex.empty Nat).trees.length < 2 ∧
      SubsumeIndex.merge_trees 100 false (SubsumeIndex.empty Nat) =
        SubsumeIndex.empty Nat) ∧
    (2 ≤ c5Idx.trees.length ∧ c5Idx.tailSizeGt = false ∧
      SubsumeIndex.merge_trees 100 false c5Idx =
        SubsumeIndex.merge_trees 100 false (c5Idx.mergeStep 100)) :=
  ⟨⟨by decide, (c5_merge_trees_loop Nat inferInstance 100
      (SubsumeIndex.empty Nat)).1 (by decide)⟩,
    ⟨by decide, rfl, (c5_merge_trees_loop Nat inferInstance 100 c5Idx).2.2
      (by decide) rfl⟩⟩

/-- Counterexample for C6: on the width-2 identity output set the
abstraction counters sum to `8 = w·|values|`, not `2·w·|values| = 16`. -/
theorem c6_counterexample_sum :
    ¬ ((OutputSet.mk 2 [0, 1, 2, 3]).abstraction.values.sum =
      2 * (OutputSet.mk 2 [0, 1, 2, 3]).channels *
        (OutputSet.mk 2 [0, 1, 2, 3]).values.length) := by
  decide

/-- Claim C6 (amended): for every output set `s` of width `w` (with `w`-bit
values), the abstraction counters sum to `w · |s.values|` — each value
contributes exactly one increment per channel. -/
theorem c6_abstraction_sum (s : OutputSet)
    (h : ∀ v ∈ s.values, v < 2 ^ s.channels) :
    s.abstraction.values.sum = s.channels * s.values.length :=
  abstraction_sum h

/-- Witness for C6 at the width-2 identity output set. -/
theorem c6_witness :
    (∀ v ∈ (OutputSet.mk 2 [0, 1, 2, 3]).values,
      v < 2 ^ (OutputSet.mk 2 [0, 1, 2, 3]).channels) ∧
    (OutputSet.mk 2 [0, 1, 2, 3]).abstraction.values.sum =
      (OutputSet.mk 2 [0, 1, 2, 3]).channels *
        (OutputSet.mk 2 [0, 1, 2, 3]).values.length :=
  ⟨by decide, c6_abstraction_sum (OutputSet.mk 2 [0, 1, 2, 3]) (by decide)⟩

/-- Counterexample for C7: `subsumes` on output sets of different widths
does not abort — it runs the merge walk and returns a boolean. -/
theorem c7_counterexample_subsumes_no_width_check :
    OutputSet.subsumes (OutputSet.mk 2 [0, 1, 2, 3])
      (OutputSet.mk 3 [0, 1, 2, 3, 4, 5, 6, 7]) = true := by
  decide

/-- Claim C7 (amended): a comparator with equal endpoints or an
out-of-range channel index, an out-of-range `swap_channels` index, a width
mismatch in the abstraction operations, and an empty bulk-build input to
`Node::new` all abort; but `subsumes` performs no width check between its
two output sets and returns a plain boolean. -/
theorem c7_contract_violations :
    (∀ (s : OutputSet) (a b : Nat),
      ¬ (a ≠ b ∧ a < s.channels ∧ b < s.channels) →
      s.apply_comparator a b = none) ∧
    (∀ (s : OutputSet) (a b : Nat), ¬ (a < s.channels ∧ b < s.channels) →
      s.swap_channels a b = none) ∧
    (∀ (x y : Abstraction), x.channels ≠ y.channels →
      x.update_min y = none) ∧
    (Node.new ([] : List (AbstractedPair Nat)) = none) ∧
    (OutputSet.subsumes (OutputSet.mk 2 [0, 1, 2, 3])
      (OutputSet.mk 3 [0, 1, 2, 3, 4, 5, 6, 7]) = true) := by
  refine ⟨?_, ?_, ?_, rfl, by decide⟩
  · intro s a b h
    rw [OutputSet.apply_comparator, if_neg h]
  · intro s a b h
    rw [OutputSet.swap_channels, if_neg h]
  · intro x y h
    rw [Abstraction.update_min, if_neg h]

/-- Witness for C7: equal comparator endpoints abort on a concrete set. -/
theorem c7_witness :
    (¬ ((0 : Nat) ≠ 0 ∧ 0 < (OutputSet.mk 2 [0, 1, 2, 3]).channels ∧
      0 < (OutputSet.mk 2 [0, 1, 2, 3]).channels)) ∧
    (OutputSet.mk 2 [0, 1, 2, 3]).apply_comparator 0 0 = none :=
  ⟨by decide, c7_contract_violations.1 (OutputSet.mk 2 [0, 1, 2, 3]) 0 0
    (by decide)⟩

/-- Claim C8: `order_channels_by_weight` applies (and returns) the
permutation that sorts channels by descending weight with ties broken by
ascending channel index; afterwards the channel weights are monotone
non-increasing, and applying it a second time leaves the output set
unchanged. -/
theorem c8_order_channels_by_weight (s : OutputSet)
    (hch : s.channels ≤ MAX_CHANNELS)
    (hsorted : List.Sorted (· < ·) s.values)
    (hbound : ∀ v ∈ s.values, v < 2 ^ s.channels) :
    (s.order_channels_by_weight.2).Perm (List.range s.channels) ∧
    List.Pairwise (fun i j =>
      s.channel_weights.getD i 0 > s.channel_weights.getD j 0 ∨
        (s.channel_weights.getD i 0 = s.channel_weights.getD j 0 ∧ i < j))
      s.order_channels_by_weight.2 ∧
    (∀ k, k < s.channels →
      (s.order_channels_by_weight.1).channel_weights.getD k 0 =
        s.channel_weights.getD (s.order_channels_by_weight.2.getD k 0) 0) ∧
    List.Pairwise (fun x y => x ≥ y)
      (s.order_channels_by_weight.1).channel_weights ∧
    (s.order_channels_by_weight.1).order_channels_by_weight.1 =
      s.order_channels_by_weight.1 := by
  have hwb : ∀ c, c < s.channels → s.channel_weights.getD c 0 ≤ 65535 := by
    intro c hc
    have h1 := channel_weights_le_length s c hc
    have h2 : s.values.length ≤ 2 ^ s.channels := sorted_length_le hsorted hbound
    have h3 : (2 : Nat) ^ s.channels ≤ 2 ^ MAX_CHANNELS :=
      Nat.pow_le_pow_right (by omega) hch
    have h4 : (2 : Nat) ^ MAX_CHANNELS = 32768 := by decide
    omega
  rw [order_channels_eq]
  refine ⟨orderPerm_perm_range s, orderPerm_pairwise s hwb,
    fun k hk => order_result_weights_getD s k hk,
    order_result_weights_pairwise s hwb, ?_⟩
  apply order_fixed
  · exact List.sorted_insertionSort _ _
  · exact permuteCore_values_bound s (orderPerm s) (orderPerm_length s)
  · exact order_result_weights_pairwise s hwb

/-- Witness for C8 at a concrete width-3 output set with weights
`[4, 2, 3]`. -/
theorem c8_witness :
    ((OutputSet.mk 3 [0, 1, 3, 4, 5, 7]).channels ≤ MAX_CHANNELS ∧
      List.Sorted (· < ·) (OutputSet.mk 3 [0, 1, 3, 4, 5, 7]).values ∧
      (∀ v ∈ (OutputSet.mk 3 [0, 1, 3, 4, 5, 7]).values,
        v < 2 ^ (OutputSet.mk 3 [0, 1, 3, 4, 5, 7]).channels)) ∧
    (((OutputSet.mk 3 [0, 1, 3, 4, 5, 7]).order_channels_by_weight.1).order_channels_by_weight.1 =
      (OutputSet.mk 3 [0, 1, 3, 4, 5, 7]).order_channels_by_weight.1) :=
  ⟨⟨by decide, by decide, by decide⟩,
    (c8_order_channels_by_weight (OutputSet.mk 3 [0, 1, 3, 4, 5, 7])
      (by decide) (by decide) (by decide)).2.2.2.2⟩

/-- Claim C9: `apply_comparator(i, j)` is idempotent: whenever it succeeds,
applying the same comparator to the result returns the result unchanged. -/
theorem c9_apply_comparator_idempotent (s : OutputSet) (i j : Nat)
    (r : OutputSet) (h : s.apply_comparator i j = some r) :
    r.apply_comparator i j = some r := by
  rw [OutputSet.apply_comparator] at h
  split at h
  · rename_i hcond
    simp only [Option.some.injEq] at h
    subst h
    rw [OutputSet.apply_comparator,
      if_pos (⟨hcond.1, hcond.2.1, hcond.2.2⟩ :
        i ≠ j ∧ i < (s.applyComparatorCore i j).channels ∧
          j < (s.applyComparatorCore i j).channels),
      applyComparatorCore_idem hcond.1]
  · cases h

/-- Witness for C9 on the width-2 identity output set. -/
theorem c9_witness :
    ((OutputSet.mk 2 [0, 1, 2, 3]).apply_comparator 0 1 =
      some (OutputSet.mk 2 [0, 1, 3])) ∧
    (OutputSet.mk 2 [0, 1, 3]).apply_comparator 0 1 =
      some (OutputSet.mk 2 [0, 1, 3]) :=
  ⟨by decide, c9_apply_comparator_idempotent (OutputSet.mk 2 [0, 1, 2, 3])
    0 1 (OutputSet.mk 2 [0, 1, 3]) (by decide)⟩

/-- Claim C10: `swap_channels(a, a)` with `a < w` is accepted (no abort,
unlike `apply_comparator` with equal endpoints, which always aborts) and is
the identity on the output set. -/
theorem c10_swap_channels_identity :
    (∀ (s : OutputSet) (a : Nat), a < s.channels →
      s.swap_channels a a = some s) ∧
    (∀ (s : OutputSet) (a : Nat), s.apply_comparator a a = none) := by
  constructor
  · intro s a ha
    rw [OutputSet.swap_channels, if_pos ⟨ha, ha⟩]
    rw [OutputSet.swapChannelsCore, if_pos rfl]
  · intro s a
    rw [OutputSet.apply_comparator, if_neg (by simp)]

/-- Witness for C10 at a concrete width-2 output set and channel 0. -/
theorem c10_witness :
    (0 < (OutputSet.mk 2 [0, 1, 3]).channels ∧
      (OutputSet.mk 2 [0, 1, 3]).swap_channels 0 0 =
        some (OutputSet.mk 2 [0, 1, 3])) ∧
    (OutputSet.mk 2 [0, 1, 3]).apply_comparator 0 0 = none :=
  ⟨⟨by decide, c10_swap_channels_identity.1 (OutputSet.mk 2 [0, 1, 3]) 0
    (by decide)⟩, c10_swap_channels_identity.2 (OutputSet.mk 2 [0, 1, 3]) 0⟩

/-- Counterexample to the unconditional single-tree reading of Claim C1: an
index with no insertions has zero trees after `subsume_all`, not one. -/
theorem c1_counterexample_no_single_tree :
    ((SubsumeIndex.empty Nat).subsume_all 100).trees.length ≠ 1 := by
  decide

/-- Claim C1 (corrected): after `subsume_all` on an index built by public
insertions of width-`W` output sets (`W ≤ 15`, search fuel at least
`W² + 2`), the index holds at most one tree — exactly one when at least one
insertion happened, zero for the empty history — and the stored pairs form
an antichain under permuted subsumption: for stored pairs at two distinct
positions, no valid channel permutation of the one's output set is subsumed
by the other's. -/
theorem c1_subsume_all_antichain {T : Type} [SubsumeIndexItem T]
    (W searchFuel : Nat) (inputs : List (OutputSet × T))
    (hW : W ≤ 15) (hfuel : W * W + 2 ≤ searchFuel)
    (hin : ∀ s ∈ inputs, OSWF W s.1) :
    ((insertAll searchFuel inputs).subsume_all searchFuel).trees.length ≤ 1 ∧
    (inputs ≠ [] →
      ((insertAll searchFuel inputs).subsume_all searchFuel).trees.length
        = 1) ∧
    ∀ (i j : Fin ((insertAll searchFuel inputs).subsume_all
        searchFuel).drainPairs.length), i ≠ j →
      ∀ (perm : List Nat) (qp : OutputSet),
      ((((insertAll searchFuel inputs).subsume_all searchFuel).drainPairs.get
          j).output_set.permute_channels perm = some qp) →
      (((insertAll searchFuel inputs).subsume_all searchFuel).drainPairs.get
          i).output_set.subsumes qp = false := by
  obtain ⟨hinv0, hlen0⟩ := insertAll_fold_inv searchFuel hW hfuel inputs
    (SubsumeIndex.empty T) empty_inv hin
  have hinv0b : IndexInv W (insertAll searchFuel inputs) := hinv0
  obtain ⟨hinv1, hle1, hone⟩ := subsume_all_facts searchFuel hW hfuel _ hinv0b
  refine ⟨hle1, ?_, ?_⟩
  · intro hne
    exact hone (hlen0 (Or.inr hne))
  · have hac := indexInv_single_antichain
      ((insertAll searchFuel inputs).subsume_all searchFuel) hinv1 hle1
    have hwfp := indexInv_pairs_wf
      ((insertAll searchFuel inputs).subsume_all searchFuel) hinv1
    intro i j hij perm qp hpc
    cases hsb : (((insertAll searchFuel inputs).subsume_all
        searchFuel).drainPairs.get i).output_set.subsumes qp with
    | false => rfl
    | true =>
      exfalso
      have hwfi := hwfp _ (List.get_mem _ i.1 i.2)
      have hwfj := hwfp _ (List.get_mem _ j.1 j.2)
      have hps := codeSub_to_PSub hwfj.1.1 hwfi.1.2.1 hwfj.1.2.1
        hwfj.1.2.2 hpc hsb
      have hpair := List.pairwise_iff_get.1 hac
      have hne2 : i.1 ≠ j.1 := fun he => hij (Fin.ext he)
      rcases Nat.lt_or_ge i.1 j.1 with hlt | hge
      · exact (hpair i j hlt).1 hps
      · have hlt2 : j < i := by
          show j.1 < i.1
          omega
        exact (hpair j i hlt2).2 hps

/-- Witness for C1 at width 2 with two insertions: the merged index is a
single tree. -/
theorem c1_witness :
    ((2 ≤ 15 ∧ 2 * 2 + 2 ≤ 6) ∧
      (∀ s ∈ [((⟨2, [0, 1, 3]⟩ : OutputSet), (0 : Nat)), (⟨2, [0, 3]⟩, 1)],
        OSWF 2 s.1)) ∧
    ((insertAll 6 [((⟨2, [0, 1, 3]⟩ : OutputSet), (0 : Nat)),
      (⟨2, [0, 3]⟩, 1)]).subsume_all 6).trees.length = 1 := by
  have hin : ∀ s ∈ [((⟨2, [0, 1, 3]⟩ : OutputSet), (0 : Nat)),
      (⟨2, [0, 3]⟩, 1)], OSWF 2 s.1 := by
    intro s hs
    rcases List.mem_cons.1 hs with rfl | hs2
    · exact ⟨rfl, by decide, by decide⟩
    · rcases List.mem_cons.1 hs2 with rfl | hs3
      · exact ⟨rfl, by decide, by decide⟩
      · cases hs3
  exact ⟨⟨⟨by decide, by decide⟩, hin⟩,
    (c1_subsume_all_antichain 2 6
      [((⟨2, [0, 1, 3]⟩ : OutputSet), (0 : Nat)), (⟨2, [0, 3]⟩, 1)]
      (by decide) (by decide) hin).2.1 (by decide)⟩

end Sortnet
